import Mathlib

/-! tdirstat: a verification development.

A shallow embedding of `main.go` (the whole program of calzoneman/tdirstat) and
theorems about it.

* Go `int64` values are `Int`s; additions that can overflow go through `wrapInt64`.
* Go strings are Lean `String`s; comparison is `stringLess`, the lexicographic
  order of the characters (for valid UTF-8 this is Go's byte-wise order).
* `*tview.TreeNode` pointers are indices into a heap (`List TreeNode`), in order of
  allocation; the map `nodes` is an association list whose first binding wins.
* Loops and recursions that need not terminate take a fuel argument and fail with
  `Fault.timeout` when it runs out; a Go panic is `Fault.panic`.
* Library functions (`fmt.Sprintf`, `strings.ToLower`, `filepath.Clean`,
  `filepath.Dir`, `sort.Sort`, `TreeNode.Walk`) are not part of the repository; each
  has a model below, named after it, with a comment saying what is modelled.
-/

namespace Tdirstat

/-! ## Constants and `sizeinfo` (main.go 14-23) -/

def kibibyte : Int := 2 ^ 10
def mebibyte : Int := 2 ^ 20
def gibibyte : Int := 2 ^ 30

structure sizeinfo where
  path : String
  size : Int
deriving DecidableEq, Repr

/-! ## `fmt.Sprintf("%3d %3s", n, unit)` -/

/-- The character of a decimal digit. -/
def digitChar (d : Nat) : Char := Char.ofNat (48 + d)

/-- Decimal digits of `n`, most significant first; `fuel` bounds the number of digits. -/
def natDigits : Nat → Nat → List Char
  | 0, _ => []
  | fuel + 1, n =>
    if n < 10 then [digitChar n] else natDigits fuel (n / 10) ++ [digitChar (n % 10)]

/-- The verb `%d`: a minus sign for a negative number, then the decimal digits. -/
def formatDecimal (n : Int) : List Char :=
  if n < 0 then '-' :: natDigits (n.natAbs + 1) n.natAbs
  else natDigits (n.natAbs + 1) n.natAbs

/-- A width in a verb (`%3d`, `%3s`): pad with spaces on the left up to `width`
characters; longer text is left as it is. -/
def padLeft (width : Nat) (cs : List Char) : List Char :=
  List.replicate (width - cs.length) ' ' ++ cs

/-- The call `fmt.Sprintf("%3d %3s", n, unit)`. -/
def sprintf3d3s (n : Int) (unit : String) : String :=
  ⟨padLeft 3 (formatDecimal n) ++ ' ' :: padLeft 3 unit.data⟩

/-! ## `formattedSize` (main.go 25-44) -/

/-- The `if` chain of `formattedSize`: the number `n` and the `unit` it prints.
Go's `/` on `int64` truncates toward zero (`Int.tdiv`). -/
def sizeinfo.magnitudeUnit (s : sizeinfo) : Int × String :=
  if s.size > gibibyte then (s.size.tdiv gibibyte, "GiB")
  else if s.size > mebibyte then (s.size.tdiv mebibyte, "MiB")
  else if s.size > kibibyte then (s.size.tdiv kibibyte, "KiB")
  else (s.size, "B")

def sizeinfo.formattedSize (s : sizeinfo) : String :=
  sprintf3d3s s.magnitudeUnit.1 s.magnitudeUnit.2

/-- The text of a node, `info.formattedSize() + " " + info.path` (main.go 193). -/
def sizeinfo.label (info : sizeinfo) : String :=
  info.formattedSize ++ " " ++ info.path

/-! ## String comparison and `byName.Less`, `bySizeDesc.Less` (main.go 46-82) -/

/-- Lexicographic comparison of character sequences. -/
def ltChars : List Char → List Char → Bool
  | _, [] => false
  | [], _ :: _ => true
  | a :: as, b :: bs =>
    if a.toNat < b.toNat then true
    else if b.toNat < a.toNat then false
    else ltChars as bs

/-- Go's `<` on strings. -/
def stringLess (a b : String) : Bool := ltChars a.data b.data

/-- Model of `strings.ToLower`, on the ASCII letters; the theorems about
`byName.Less` use no property of it. -/
def ToLower (s : String) : String := ⟨s.data.map Char.toLower⟩

/-- The body of `byName.Less` on the two references `ri`, `rj`. -/
def byName.Less (ri rj : sizeinfo) : Bool :=
  let li := ToLower ri.path
  let lj := ToLower rj.path
  if li = lj then stringLess ri.path rj.path else stringLess li lj

/-- The body of `bySizeDesc.Less` on the two references `ri`, `rj`. -/
def bySizeDesc.Less (ri rj : sizeinfo) : Bool :=
  decide (ri.size > rj.size)

/-! ## `int64` arithmetic -/

/-- The value an `int64` holds after a computation whose exact result is `x`. -/
def wrapInt64 (x : Int) : Int := (x + 2 ^ 63) % 2 ^ 64 - 2 ^ 63

/-! ## `filepath.Clean` and `filepath.Dir` (library, Unix) -/

/-- The elements of a path: the text between separators. -/
def splitSep : List Char → List (List Char)
  | [] => [[]]
  | c :: cs =>
    match splitSep cs with
    | [] => [[c]]
    | e :: es => if c = '/' then [] :: e :: es else (c :: e) :: es

/-- The element loop of `filepath.Clean`; `out` holds the elements kept so far, the
last one first. An empty element and `.` are dropped; `..` removes the element
before it when there is one that is not itself a kept `..`, is dropped at the top of
a rooted path, and is kept otherwise. -/
def cleanElems (rooted : Bool) : List (List Char) → List (List Char) → List (List Char)
  | out, [] => out
  | out, e :: es =>
    if e = [] ∨ e = ['.'] then cleanElems rooted out es
    else if e = ['.', '.'] then
      match out with
      | top :: rest =>
        if top = ['.', '.'] then cleanElems rooted (e :: out) es
        else cleanElems rooted rest es
      | [] => if rooted then cleanElems rooted [] es else cleanElems rooted [e] es
    else cleanElems rooted (e :: out) es

/-- Elements joined by the separator. -/
def joinSep : List (List Char) → List Char
  | [] => []
  | [e] => e
  | e :: es => e ++ '/' :: joinSep es

/-- Model of `filepath.Clean`: the shortest path equivalent to `path` by purely
lexical processing; the empty path becomes `.`. -/
def Clean (path : String) : String :=
  let rooted : Bool := path.data.head? = some '/'
  let out := (cleanElems rooted [] (splitSep path.data)).reverse
  if rooted then ⟨'/' :: joinSep out⟩
  else if out = [] then "."
  else ⟨joinSep out⟩

/-- The path up to and including its last separator. -/
def dirPrefix (cs : List Char) : List Char :=
  (cs.reverse.dropWhile (fun c => c != '/')).reverse

/-- Model of `filepath.Dir`: all but the last element of `path`, cleaned. -/
def Dir (path : String) : String := Clean ⟨dirPrefix path.data⟩

/-! ## Tree nodes and the heap -/

inductive Color where
  | white
  | green
  | silver
deriving DecidableEq, Repr

/-- The fields of a `tview.TreeNode` that the program reads or writes; `children`
holds pointers, that is, heap indices. -/
structure TreeNode where
  text : String
  color : Color
  expanded : Bool
  selectable : Bool
  reference : Option sizeinfo
  children : List Nat
deriving DecidableEq, Repr

/-- The constructor `tview.NewTreeNode(text)`. -/
def NewTreeNode (text : String) : TreeNode :=
  { text := text, color := Color.white, expanded := true, selectable := true,
    reference := none, children := [] }

inductive Fault where
  | panic (msg : String)
  | timeout
deriving DecidableEq, Repr

/-- The allocated nodes and the map `nodes` (main.go 113). -/
structure Store where
  heap : List TreeNode
  nodes : List (String × Nat)
deriving DecidableEq, Repr

/-- Write through a pointer: replace node `id` by `f` of it. -/
def Store.update (st : Store) (id : Nat) (f : TreeNode → TreeNode) : Store :=
  match st.heap[id]? with
  | some n => { st with heap := st.heap.set id (f n) }
  | none => st

/-- The reference of node `id`, when the node exists and its reference is set. -/
def Store.reference? (st : Store) (id : Nat) : Option sizeinfo :=
  match st.heap[id]? with
  | some n => n.reference
  | none => none

/-- The children of node `id`, `node.GetChildren()`. -/
def Store.children (st : Store) (id : Nat) : List Nat :=
  match st.heap[id]? with
  | some n => n.children
  | none => []

/-- The size held by node `id`. -/
def Store.size (st : Store) (id : Nat) : Int :=
  match st.reference? id with
  | some info => info.size
  | none => 0

/-! ## The scan (main.go 113-150) -/

/-- The `os.FileInfo` of an entry, as far as the program reads it. -/
structure FileInfo where
  isDir : Bool
  size : Int
deriving DecidableEq, Repr

/-- One call of the walk function by `filepath.Walk`: the path, the file info (nil
when the entry could not be stat'ed) and whether the error argument is non-nil. -/
structure Entry where
  path : String
  info : Option FileInfo
  err : Bool
deriving DecidableEq, Repr

/-- The closure `exists` (main.go 114-117). -/
def Store.exists (st : Store) (path : String) : Bool :=
  (st.nodes.lookup path).isSome

/-- The loop of `propagateSize` (main.go 120-122), entered with the loop variable
at `cur`. -/
def propagateLoop (size : Int) : Nat → String → Store → Except Fault Store
  | 0, _, _ => .error Fault.timeout
  | fuel + 1, cur, st =>
    match st.nodes.lookup cur with
    | none => .ok st
    | some id =>
      match st.reference? id with
      | none => .error (Fault.panic "interface conversion: interface is nil")
      | some info =>
        propagateLoop size fuel (Dir cur)
          (st.update id fun n =>
            { n with reference := some { info with size := wrapInt64 (info.size + size) } })

/-- The closure `propagateSize` (main.go 119-123). -/
def propagateSize (fuel : Nat) (st : Store) (leaf : String) (size : Int) :
    Except Fault Store :=
  propagateLoop size fuel (Dir leaf) st

/-- The walk function (main.go 125-150). `root` is the cleaned root of line 109. The
error argument of the entry is never read. -/
def walkFn (root : String) (fuel : Nat) (st : Store) (e : Entry) : Except Fault Store :=
  let path := Clean e.path
  match e.info with
  | none => .error (Fault.panic "invalid memory address or nil pointer dereference")
  | some info =>
    let id := st.heap.length
    let node : TreeNode :=
      { NewTreeNode path with expanded := false, selectable := info.isDir }
    let st1 : Store := { heap := st.heap ++ [node], nodes := (path, id) :: st.nodes }
    let attached : Except Fault Store :=
      match st1.nodes.lookup (Dir path) with
      | some parent => .ok (st1.update parent fun n => { n with children := n.children ++ [id] })
      | none =>
        if path ≠ root then .error (Fault.panic ("unrooted child path at " ++ path))
        else .ok st1
    match attached with
    | .error f => .error f
    | .ok st2 =>
      if info.isDir then
        .ok (st2.update id fun n =>
          { n with reference := some { path := path, size := 0 }, color := Color.green })
      else
        propagateSize fuel
          (st2.update id fun n =>
            { n with reference := some { path := path, size := info.size },
                     color := Color.silver })
          path info.size

/-- The call `filepath.Walk(root, walkFn)` on a file system that yields `entries`:
the walk function runs on each entry in turn. -/
def filepathWalk (root : String) (fuel : Nat) : List Entry → Store → Except Fault Store
  | [], st => .ok st
  | e :: es, st =>
    match walkFn root fuel st e with
    | .ok st1 => filepathWalk root fuel es st1
    | .error f => .error f

/-- The scan: the walk from the empty registry. -/
def scan (fuel : Nat) (root : String) (entries : List Entry) : Except Fault Store :=
  filepathWalk root fuel entries { heap := [], nodes := [] }

/-! ## `sort.Sort` (library) -/

/-- A sorting procedure on a slice of node pointers: it is given the `Less` of the
sort interface and the elements, and returns them reordered. -/
abbrev SortProc := (Nat → Nat → Bool) → List Nat → List Nat

/-- The inner loop of an insertion sort: `x` moves left past each element it is
`Less` than; `pre` is the part already sorted, the last element first. -/
def insertLeft (less : Nat → Nat → Bool) (x : Nat) : List Nat → List Nat
  | [] => [x]
  | y :: pre => if less x y then y :: insertLeft less x pre else x :: y :: pre

/-- Insertion sort, the procedure `sort.Sort` runs on a short slice (of at most 12
elements since Go 1.19, of at most 6 before). The theorems about `sortTree` hold for
every procedure that meets `SortContract`; this one serves to run examples. -/
def insertionSort : SortProc := fun less l =>
  (l.foldl (fun pre x => insertLeft less x pre) []).reverse

/-- What `sort.Sort` promises of any implementation: the result is a rearrangement
of the elements, and when `Less` is a strict weak order on them, no element is
`Less` than one before it. -/
def SortContract (sort : SortProc) : Prop :=
  ∀ (less : Nat → Nat → Bool) (l : List Nat),
    (sort less l).Perm l ∧
    ((∀ a ∈ l, less a a = false) →
     (∀ a ∈ l, ∀ b ∈ l, ∀ c ∈ l, less a b = true → less b c = true → less a c = true) →
     (∀ a ∈ l, ∀ b ∈ l, ∀ c ∈ l, less a b = false → less b c = false → less a c = false) →
     (sort less l).Pairwise (fun a b => less b a = false))

/-! ## `TreeNode.Walk` (library) and `sortTree` (main.go 84-89, 177-188) -/

inductive SortMethod where
  | sortByName
  | sortBySizeDesc
deriving DecidableEq, Repr

/-- The method `Less` of `byName` and `bySizeDesc` on two elements of the slice:
`cmp` applied to the references of the two nodes. -/
def Store.less (st : Store) (cmp : sizeinfo → sizeinfo → Bool) (a b : Nat) : Bool :=
  match st.reference? a, st.reference? b with
  | some ri, some rj => cmp ri rj
  | _, _ => false

/-- Model of `TreeNode.Walk`: the nodes are visited from a stack (`stack`, top
first); after the callback has run on a node and returned true, the node's children
are pushed so that the first child is visited next. -/
def TreeNode.Walk (callback : Store → Nat → Except Fault (Bool × Store)) :
    Nat → List Nat → Store → Except Fault Store
  | _, [], st => .ok st
  | 0, _ :: _, _ => .error Fault.timeout
  | fuel + 1, node :: stack, st =>
    match callback st node with
    | .error f => .error f
    | .ok (false, st1) => TreeNode.Walk callback fuel stack st1
    | .ok (true, st1) => TreeNode.Walk callback fuel (st1.children node ++ stack) st1

/-- The callback of `sortTree` (main.go 178-187): the children of `node` are sorted
in place under the current method. The type assertion in `Less` panics on a nil
reference; `sort.Sort` calls `Less` on every element of a slice of two or more. -/
def sortCallback (sort : SortProc) (method : SortMethod) (st : Store) (node : Nat) :
    Except Fault (Bool × Store) :=
  let cs := st.children node
  if 2 ≤ cs.length ∧ cs.any (fun c => (st.reference? c).isNone) then
    .error (Fault.panic "interface conversion: interface is nil")
  else
    match method with
    | SortMethod.sortByName =>
      .ok (true, st.update node fun n =>
        { n with children := sort (st.less byName.Less) n.children })
    | SortMethod.sortBySizeDesc =>
      .ok (true, st.update node fun n =>
        { n with children := sort (st.less bySizeDesc.Less) n.children })

/-- The closure `sortTree` (main.go 177-188) with `currentSortMethod = method`. -/
def sortTree (sort : SortProc) (method : SortMethod) (root : String) (fuel : Nat)
    (st : Store) : Except Fault Store :=
  match st.nodes.lookup root with
  | none => .error (Fault.panic "invalid memory address or nil pointer dereference")
  | some r => TreeNode.Walk (sortCallback sort method) fuel [r] st

/-! ## Vocabulary of the scan theorems -/

/-- The key under which the walk function registers an entry. -/
def Entry.cleanPath (e : Entry) : String := Clean e.path

/-- What an entry adds to the total: its size when it is a file, nothing when it is
a directory. -/
def Entry.fileSize (e : Entry) : Int :=
  match e.info with
  | some info => if info.isDir then 0 else info.size
  | none => 0

/-- The entries report sizes an `int64` can hold, none negative. -/
def SizesInRange (entries : List Entry) : Prop :=
  ∀ e ∈ entries, ∀ info, e.info = some info → 0 ≤ info.size ∧ info.size < 2 ^ 63

/-- Every entry comes with a file info. -/
def AllStated (entries : List Entry) : Prop :=
  ∀ e ∈ entries, e.info ≠ none

/-- Pre-order: every entry other than the root comes after the entry of its
containing directory. -/
def PreOrder (root : String) (entries : List Entry) : Prop :=
  ∀ (i : Nat) (e : Entry), entries[i]? = some e → e.cleanPath ≠ root →
    ∃ (j : Nat) (d : Entry), j < i ∧ entries[j]? = some d ∧ d.cleanPath = Dir e.cleanPath

/-- The path of the `i`-th entry. -/
def pathAt (done : List Entry) (i : Nat) : Option String :=
  match done[i]? with
  | some e => some e.cleanPath
  | none => none

/-- The file size of the `i`-th entry. -/
def ownAt (done : List Entry) (i : Nat) : Int :=
  match done[i]? with
  | some e => e.fileSize
  | none => 0

/-- Entry `m` is the containing directory of entry `i` and was there when `i` was
registered. -/
def isParentAt (done : List Entry) (m i : Nat) : Bool :=
  match done[m]?, done[i]? with
  | some d, some e => decide (m ≤ i) && decide (d.cleanPath = Dir e.cleanPath)
  | _, _ => false

/-- The sum of the sizes of the children of node `id`. -/
def Store.childSum (st : Store) (id : Nat) : Int :=
  ((st.children id).map st.size).sum

/-- The store after the entries `done`, apart from the sizes: node `i` is the node
of entry `i`, the registry maps each path to its node, and the children of a node
are the entries it is the containing directory of. -/
structure Shape (root : String) (done : List Entry) (st : Store) : Prop where
  len : st.heap.length = done.length
  reg : ∀ p i, st.nodes.lookup p = some i ↔ pathAt done i = some p
  ref : ∀ (i : Nat) (e : Entry), done[i]? = some e →
    ∃ (n : TreeNode) (sz : Int), st.heap[i]? = some n ∧
      n.reference = some ⟨e.cleanPath, sz⟩ ∧ -2 ^ 63 ≤ sz ∧ sz < 2 ^ 63 ∧
      ∀ info : FileInfo, e.info = some info → n.selectable = info.isDir
  kids : ∀ m i, (st.children m).count i = if isParentAt done m i = true then 1 else 0
  par : ∀ (i : Nat) (e : Entry), done[i]? = some e →
    e.cleanPath = root ∨ ∃ m, isParentAt done m i = true

/-- The sizes after the entries `done`, while `s` is still to be added to the node
of path `cur` (and to those above it): modulo `2^64`, every other node holds its own
file size plus the sizes of its children. -/
def Balanced (done : List Entry) (st : Store) (cur : String) (s : Int) : Prop :=
  ∀ i, (2 ^ 64 : Int) ∣
    st.size i + (if pathAt done i = some cur then s else 0)
      - (ownAt done i + st.childSum i)

/-- The state the walk function reaches on an entry before it propagates the size:
the new node is allocated and registered, attached to `parent` when there is one,
and its reference is set. -/
def Store.grow (st : Store) (path : String) (isDir : Bool) (size : Int)
    (parent : Option Nat) : Store :=
  let id := st.heap.length
  let node : TreeNode :=
    { NewTreeNode path with expanded := false, selectable := isDir }
  let st1 : Store := { heap := st.heap ++ [node], nodes := (path, id) :: st.nodes }
  let st2 : Store :=
    match parent with
    | some p => st1.update p fun n => { n with children := n.children ++ [id] }
    | none => st1
  if isDir then
    st2.update id fun n =>
      { n with reference := some { path := path, size := 0 }, color := Color.green }
  else
    st2.update id fun n =>
      { n with reference := some { path := path, size := size }, color := Color.silver }

/-- A check of `PreOrder` that can be evaluated. -/
def preOrderCheck (root : String) (entries : List Entry) : Bool :=
  (List.range entries.length).all fun i =>
    match entries[i]? with
    | none => true
    | some e =>
      decide (e.cleanPath = root) ||
        (List.range i).any fun j =>
          match entries[j]? with
          | none => false
          | some d => decide (d.cleanPath = Dir e.cleanPath)

/-- No entry lies in a file: the containing directory of an entry is never the path
of a file entry. -/
def FilesAreLeaves (entries : List Entry) : Prop :=
  ∀ e ∈ entries, ∀ d ∈ entries, ∀ info, e.info = some info → info.isDir = false →
    Dir d.cleanPath ≠ e.cleanPath

/-- The sum of the sizes held by the File nodes of the heap. -/
def Store.fileTotal (st : Store) : Int :=
  (st.heap.map fun n =>
    if n.selectable = true then 0
    else match n.reference with
      | some info => info.size
      | none => 0).sum

/-! ## The scenario of the specification

The root `/r` holds the file `x` (500 bytes) and the directory `Y`, which holds the
file `z` (2048 bytes). -/

def scenarioEntries : List Entry :=
  [ { path := "/r", info := some { isDir := true, size := 4096 }, err := false },
    { path := "/r/x", info := some { isDir := false, size := 500 }, err := false },
    { path := "/r/Y", info := some { isDir := true, size := 4096 }, err := false },
    { path := "/r/Y/z", info := some { isDir := false, size := 2048 }, err := false } ]

/-- The store the scan of the scenario ends in. -/
def scenarioStore : Store :=
  { heap :=
      [ { text := "/r", color := Color.green, expanded := false, selectable := true,
          reference := some { path := "/r", size := 2548 }, children := [1, 2] },
        { text := "/r/x", color := Color.silver, expanded := false, selectable := false,
          reference := some { path := "/r/x", size := 500 }, children := [] },
        { text := "/r/Y", color := Color.green, expanded := false, selectable := true,
          reference := some { path := "/r/Y", size := 2048 }, children := [3] },
        { text := "/r/Y/z", color := Color.silver, expanded := false, selectable := false,
          reference := some { path := "/r/Y/z", size := 2048 }, children := [] } ],
    nodes := [("/r/Y/z", 3), ("/r/Y", 2), ("/r/x", 1), ("/r", 0)] }

/-- The entries of a scan started in the working directory with the argument `.`:
the root `.` and one file `f` of 5 bytes. -/
def dotEntries : List Entry :=
  [ { path := ".", info := some { isDir := true, size := 4096 }, err := false },
    { path := "f", info := some { isDir := false, size := 5 }, err := false } ]

/-- The entries of a scan of the file system root `/`: the root and one file
`/f` of 5 bytes. -/
def slashEntries : List Entry :=
  [ { path := "/", info := some { isDir := true, size := 4096 }, err := false },
    { path := "/f", info := some { isDir := false, size := 5 }, err := false } ]

/-! ## Vocabulary of the sorting theorems -/

/-- Node `b` lies in the tree below node `a` (or is `a`). -/
inductive Store.Reach (st : Store) : Nat → Nat → Prop where
  | refl (a : Nat) : Store.Reach st a a
  | step (a b c : Nat) : b ∈ st.children a → Store.Reach st b c → Store.Reach st a c

/-- The heap is tree-shaped: a rank decreases from every node to its children. -/
def Ranked (st : Store) (rank : Nat → Nat) : Prop :=
  ∀ a, ∀ b ∈ st.children a, rank b < rank a

/-- Every child in the heap is a node whose reference is set. -/
def Referenced (st : Store) : Prop :=
  ∀ a, ∀ b ∈ st.children a, (st.reference? b).isSome = true

/-- A node without its children: text, color, flags and reference. -/
def TreeNode.content (n : TreeNode) : TreeNode := { n with children := [] }

/-- Store `st` is `st0` with the children of each node rearranged: same registry,
same nodes with the same content, and each children list a permutation. -/
def Reordered (st0 st : Store) : Prop :=
  st.nodes = st0.nodes ∧
  ∀ id, (st.heap[id]?).map TreeNode.content = (st0.heap[id]?).map TreeNode.content ∧
    (st.children id).Perm (st0.children id)

/-- The `Less` that `sortTree` sorts with under a method. -/
def SortMethod.less (method : SortMethod) (st : Store) : Nat → Nat → Bool :=
  match method with
  | SortMethod.sortByName => st.less byName.Less
  | SortMethod.sortBySizeDesc => st.less bySizeDesc.Less

/-- The children of node `a` are in order: none is `less` than one before it. -/
def SortedAt (less : Nat → Nat → Bool) (st : Store) (a : Nat) : Prop :=
  (st.children a).Pairwise (fun x y => less y x = false)

/-- A comparison of references is a strict weak order. -/
def StrictWeak (cmp : sizeinfo → sizeinfo → Bool) : Prop :=
  (∀ a, cmp a a = false) ∧
  (∀ a b c, cmp a b = true → cmp b c = true → cmp a c = true) ∧
  (∀ a b c, cmp a b = false → cmp b c = false → cmp a c = false)

/-- The path in the reference of a node. -/
def Store.path? (st : Store) (id : Nat) : Option String :=
  match st.reference? id with
  | some info => some info.path
  | none => none

/-- The scenario after `sortTree` under `sortBySizeDesc`: the root lists `Y`, `x`. -/
def scenarioBySize : Store :=
  { heap :=
      [ { text := "/r", color := Color.green, expanded := false, selectable := true,
          reference := some { path := "/r", size := 2548 }, children := [2, 1] },
        { text := "/r/x", color := Color.silver, expanded := false, selectable := false,
          reference := some { path := "/r/x", size := 500 }, children := [] },
        { text := "/r/Y", color := Color.green, expanded := false, selectable := true,
          reference := some { path := "/r/Y", size := 2048 }, children := [3] },
        { text := "/r/Y/z", color := Color.silver, expanded := false, selectable := false,
          reference := some { path := "/r/Y/z", size := 2048 }, children := [] } ],
    nodes := [("/r/Y/z", 3), ("/r/Y", 2), ("/r/x", 1), ("/r", 0)] }

/-- A rank for the scenario: the number of nodes allocated from the node on. -/
def scenarioRank (id : Nat) : Nat := 4 - id

/-- The sizes after the entries `done`, in exact arithmetic, while `s` is still to
be added to the node of path `cur`: every other node holds exactly its own file
size plus the sizes of its children. -/
def Exact (done : List Entry) (st : Store) (cur : String) (s : Int) : Prop :=
  ∀ i, st.size i + (if pathAt done i = some cur then s else 0)
    = ownAt done i + st.childSum i


/-! ## Rendering, expansion and the event handlers (main.go 157-215) -/

/-- The callback of the walk that renders the size information (main.go 191-195):
the text of the node becomes `info.formattedSize() + " " + info.path`. -/
def renderCallback (st : Store) (node : Nat) : Except Fault (Bool × Store) :=
  match st.reference? node with
  | none => .error (Fault.panic "interface conversion: interface is nil")
  | some info => .ok (true, st.update node fun n => { n with text := info.label })

/-- The closure `expand` (main.go 157-163): the node is set expanded and, when it
has exactly one child, the child is expanded in the same way. -/
def expand : Nat → Store → Nat → Except Fault Store
  | 0, _, _ => .error Fault.timeout
  | fuel + 1, st, node =>
    match st.heap[node]? with
    | none => .error (Fault.panic "invalid memory address or nil pointer dereference")
    | some _ =>
      match (st.update node fun n => { n with expanded := true }).children node with
      | [c] => expand fuel (st.update node fun n => { n with expanded := true }) c
      | _ => .ok (st.update node fun n => { n with expanded := true })

/-- The function given to `SetSelectedFunc` (main.go 169-175). -/
def selectedFunc (fuel : Nat) (st : Store) (node : Nat) : Except Fault Store :=
  match st.heap[node]? with
  | none => .error (Fault.panic "invalid memory address or nil pointer dereference")
  | some n =>
    if n.expanded = true then .ok (st.update node fun n => { n with expanded := false })
    else expand fuel st node

/-- A `tcell.EventKey`, as far as the program reads it. -/
structure EventKey where
  key : Nat
  rune : Char
  modifiers : Nat
deriving DecidableEq, Repr

/-- The state of the program once the tree is built: the store and the variable
`currentSortMethod` (main.go 89). -/
structure App where
  store : Store
  currentSortMethod : SortMethod
deriving DecidableEq, Repr

/-- The `switch` of the input handler (main.go 204-209). -/
def SortMethod.cycle (method : SortMethod) : SortMethod :=
  match method with
  | SortMethod.sortByName => SortMethod.sortBySizeDesc
  | SortMethod.sortBySizeDesc => SortMethod.sortByName

/-- The function given to `SetInputCapture` (main.go 202-215): it returns the state
it leaves and the event it returns. -/
def inputCapture (sort : SortProc) (root : String) (fuel : Nat) (app : App)
    (event : EventKey) : Except Fault (App × EventKey) :=
  if event.rune = 's' then
    match sortTree sort app.currentSortMethod.cycle root fuel app.store with
    | .error f => .error f
    | .ok st => .ok ({ store := st, currentSortMethod := app.currentSortMethod.cycle }, event)
  else .ok (app, event)

/-- The program from the scan to the start of the event loop (main.go 113-198) on a
file system that yields `entries`: scan, render, `sortTree()` under the initial
`currentSortMethod = sortBySizeDesc`, `expand(nodes[root])`. -/
def startup (sort : SortProc) (root : String) (fuel : Nat) (entries : List Entry) :
    Except Fault App :=
  match scan fuel root entries with
  | .error f => .error f
  | .ok st0 =>
    match st0.nodes.lookup root with
    | none => .error (Fault.panic "invalid memory address or nil pointer dereference")
    | some r =>
      match TreeNode.Walk renderCallback fuel [r] st0 with
      | .error f => .error f
      | .ok st1 =>
        match sortTree sort SortMethod.sortBySizeDesc root fuel st1 with
        | .error f => .error f
        | .ok st2 =>
          match expand fuel st2 r with
          | .error f => .error f
          | .ok st3 => .ok { store := st3, currentSortMethod := SortMethod.sortBySizeDesc }

/-! ## Vocabulary of the theorems on sorting twice, expansion and the tree -/

/-- A sorting procedure that leaves a slice that is in order as it is. `sort.Sort`
is one: on a slice of at most 12 elements it runs insertion sort, which moves an
element only past elements it is `Less` than, and on a longer slice that is in
order its first pass (`choosePivot` counts no swap, `partialInsertionSort` finds no
element `Less` than the one before it) returns without moving anything. -/
def LeavesSorted (sort : SortProc) : Prop :=
  ∀ (less : Nat → Nat → Bool) (l : List Nat),
    l.Pairwise (fun a b => less b a = false) → sort less l = l

/-- Every child in the heap is an allocated node. -/
def Allocated (st : Store) : Prop :=
  ∀ a, ∀ b ∈ st.children a, b < st.heap.length

/-- Node `x` is on the single-child chain from node `n`: it is `n`, or it is on the
chain from the only child of `n`. -/
inductive Store.Chain (st : Store) : Nat → Nat → Prop where
  | start (n : Nat) : Store.Chain st n n
  | step (n c x : Nat) : st.children n = [c] → Store.Chain st c x → Store.Chain st n x

/-- The expanded flag of node `id`, when the node exists. -/
def Store.expanded? (st : Store) (id : Nat) : Option Bool :=
  match st.heap[id]? with
  | some n => some n.expanded
  | none => none

/-- The siblings below node `a` have pairwise different keys under the method:
different paths under `sortByName`, different sizes under `sortBySizeDesc`. -/
def KeysDistinct (method : SortMethod) (st : Store) (a : Nat) : Prop :=
  match method with
  | SortMethod.sortByName => ((st.children a).map st.path?).Nodup
  | SortMethod.sortBySizeDesc => ((st.children a).map st.size).Nodup

/-- The store after the entries `done`, whatever the entries are: node `i` is the
node of entry `i`, a registered path is the path of the entry of its node, the path
of every entry is registered, every node is collapsed, and every entry other than
the root is a child of a node of its containing directory. -/
structure Rooted (root : String) (done : List Entry) (st : Store) : Prop where
  len : st.heap.length = done.length
  sound : ∀ p i, st.nodes.lookup p = some i → pathAt done i = some p
  complete : ∀ i p, pathAt done i = some p → (st.nodes.lookup p).isSome = true
  collapsed : ∀ (i : Nat) (n : TreeNode), st.heap[i]? = some n → n.expanded = false
  att : ∀ (i : Nat) (e : Entry), done[i]? = some e → e.cleanPath ≠ root →
    ∃ m, pathAt done m = some (Dir e.cleanPath) ∧ i ∈ st.children m

/-- Store `st` is `st0` apart from the texts of the nodes: same registry, and each
node the same up to its text. -/
def Retexted (st0 st : Store) : Prop :=
  st.nodes = st0.nodes ∧
  ∀ id : Nat, (st.heap[id]?).map (fun n : TreeNode => { n with text := "" })
    = (st0.heap[id]?).map (fun n : TreeNode => { n with text := "" })

/-! ## More scenarios -/

/-- Two files of equal size: `filepath.Walk` reports `B` before `a` (byte order). -/
def tieEntries : List Entry :=
  [ { path := "/r", info := some { isDir := true, size := 4096 }, err := false },
    { path := "/r/B", info := some { isDir := false, size := 1 }, err := false },
    { path := "/r/a", info := some { isDir := false, size := 1 }, err := false } ]

/-- The store of `tieEntries` with rendered texts and the root expanded, the
children of the root in the order `order`. -/
def tieStore (order : List Nat) : Store :=
  { heap :=
      [ { text := "  2   B /r", color := Color.green, expanded := true, selectable := true,
          reference := some { path := "/r", size := 2 }, children := order },
        { text := "  1   B /r/B", color := Color.silver, expanded := false,
          selectable := false,
          reference := some { path := "/r/B", size := 1 }, children := [] },
        { text := "  1   B /r/a", color := Color.silver, expanded := false,
          selectable := false,
          reference := some { path := "/r/a", size := 1 }, children := [] } ],
    nodes := [("/r/a", 2), ("/r/B", 1), ("/r", 0)] }

/-- Two files whose sizes total `2^63`: `a` of `2^63 - 1` bytes and `b` of one
byte. -/
def overflowEntries : List Entry :=
  [ { path := "/r", info := some { isDir := true, size := 4096 }, err := false },
    { path := "/r/a", info := some { isDir := false, size := 9223372036854775807 },
      err := false },
    { path := "/r/b", info := some { isDir := false, size := 1 }, err := false } ]

/-- The cascade scenario: `/r` holds only `a`, `a` only `b`, `b` only `c`, and `c`
holds the two files `d` and `e`. -/
def cascadeEntries : List Entry :=
  [ { path := "/r", info := some { isDir := true, size := 4096 }, err := false },
    { path := "/r/a", info := some { isDir := true, size := 4096 }, err := false },
    { path := "/r/a/b", info := some { isDir := true, size := 4096 }, err := false },
    { path := "/r/a/b/c", info := some { isDir := true, size := 4096 }, err := false },
    { path := "/r/a/b/c/d", info := some { isDir := false, size := 10 }, err := false },
    { path := "/r/a/b/c/e", info := some { isDir := false, size := 20 }, err := false } ]

/-- A walk in which the directory `/r/d` could not be read: the walk function is
called for it with its file info and a non-nil error. -/
def unreadableEntries : List Entry :=
  [ { path := "/r", info := some { isDir := true, size := 4096 }, err := false },
    { path := "/r/d", info := some { isDir := true, size := 4096 }, err := true },
    { path := "/r/x", info := some { isDir := false, size := 500 }, err := false } ]

/-- The entries of a scan started with the argument `.` in a directory that holds
one empty directory `Y`. -/
def dotDirEntries : List Entry :=
  [ { path := ".", info := some { isDir := true, size := 4096 }, err := false },
    { path := "Y", info := some { isDir := true, size := 4096 }, err := false } ]


/-! ## Facts about the formatting verbs -/

theorem natDigits_length_pos (fuel n : Nat) (h : n < fuel) :
    1 ≤ (natDigits fuel n).length := by
  cases fuel with
  | zero => omega
  | succ f =>
    unfold natDigits
    split <;> simp

theorem natDigits_length_le_three (fuel n : Nat) (h : n < 1000) :
    (natDigits fuel n).length ≤ 3 := by
  match fuel with
  | 0 => simp [natDigits]
  | 1 => unfold natDigits; split <;> simp [natDigits]
  | 2 =>
    unfold natDigits; split
    · simp
    · unfold natDigits; split <;> simp [natDigits]
  | f + 3 =>
    unfold natDigits; split
    · simp
    · unfold natDigits; split
      · simp
      · unfold natDigits; split
        · simp
        · omega

theorem natDigits_length_ge_four (fuel n : Nat) (h : 1000 ≤ n) (hf : n < fuel) :
    4 ≤ (natDigits fuel n).length := by
  obtain ⟨f, rfl⟩ : ∃ f, fuel = f + 4 := ⟨fuel - 4, by omega⟩
  · unfold natDigits
    rw [if_neg (by omega)]
    unfold natDigits
    rw [if_neg (by omega)]
    unfold natDigits
    rw [if_neg (by omega)]
    have := natDigits_length_pos (f + 1) (n / 10 / 10 / 10) (by omega)
    simp only [List.length_append, List.length_singleton]
    omega

theorem formatDecimal_length_le_three (n : Int) (h0 : 0 ≤ n) (h : n < 1000) :
    1 ≤ (formatDecimal n).length ∧ (formatDecimal n).length ≤ 3 := by
  unfold formatDecimal
  rw [if_neg (by omega)]
  exact ⟨natDigits_length_pos _ _ (by omega), natDigits_length_le_three _ _ (by omega)⟩

theorem formatDecimal_length_ge_four (n : Int) (h : 1000 ≤ n) :
    4 ≤ (formatDecimal n).length := by
  unfold formatDecimal
  rw [if_neg (by omega)]
  exact natDigits_length_ge_four _ _ (by omega) (by omega)

theorem padLeft_length (w : Nat) (cs : List Char) :
    (padLeft w cs).length = max w cs.length := by
  unfold padLeft
  simp only [List.length_append, List.length_replicate]
  omega

theorem sprintf3d3s_length (n : Int) (unit : String) :
    (sprintf3d3s n unit).length
      = max 3 (formatDecimal n).length + 1 + max 3 unit.data.length := by
  unfold sprintf3d3s
  simp only [String.length, List.length_append, List.length_cons, padLeft_length]
  omega

theorem magnitudeUnit_unit_length (info : sizeinfo) :
    info.magnitudeUnit.2.data.length ≤ 3 := by
  unfold sizeinfo.magnitudeUnit
  split_ifs <;> simp only <;> decide

theorem magnitudeUnit_nonneg (info : sizeinfo) (h : 0 ≤ info.size) :
    0 ≤ info.magnitudeUnit.1 := by
  unfold sizeinfo.magnitudeUnit
  split_ifs
  · exact Int.tdiv_nonneg h (by decide)
  · exact Int.tdiv_nonneg h (by decide)
  · exact Int.tdiv_nonneg h (by decide)
  · exact h

theorem tdiv_bracket (s d : Int) (hs : 0 ≤ s) (hd : 0 < d) :
    s.tdiv d * d ≤ s ∧ s < (s.tdiv d + 1) * d := by
  rw [Int.tdiv_eq_ediv hs (le_of_lt hd)]
  constructor
  · exact Int.ediv_mul_le s (ne_of_gt hd)
  · have := Int.lt_ediv_add_one_mul_self s hd
    linarith

/-! ## C4 -/

/-- C4. For every size `s ≥ 0`, `formattedSize` prints the magnitude and unit chosen
by strict greater-than: above `2^30` the unit is GiB and the magnitude `s / 2^30`;
otherwise above `2^20` MiB and `s / 2^20`; otherwise above `2^10` KiB and `s / 2^10`;
otherwise B and `s` itself. Each division truncates: the magnitude `n` is the integer
with `n * unit ≤ s < (n + 1) * unit`. -/
theorem formattedSize_unit_selection (path : String) (s : Int) (hs : 0 ≤ s) :
    (sizeinfo.mk path s).formattedSize
        = sprintf3d3s (sizeinfo.mk path s).magnitudeUnit.1
            (sizeinfo.mk path s).magnitudeUnit.2 ∧
    (s > 2 ^ 30 →
      (sizeinfo.mk path s).magnitudeUnit = (s.tdiv (2 ^ 30), "GiB") ∧
      s.tdiv (2 ^ 30) * 2 ^ 30 ≤ s ∧ s < (s.tdiv (2 ^ 30) + 1) * 2 ^ 30) ∧
    (¬ s > 2 ^ 30 → s > 2 ^ 20 →
      (sizeinfo.mk path s).magnitudeUnit = (s.tdiv (2 ^ 20), "MiB") ∧
      s.tdiv (2 ^ 20) * 2 ^ 20 ≤ s ∧ s < (s.tdiv (2 ^ 20) + 1) * 2 ^ 20) ∧
    (¬ s > 2 ^ 20 → s > 2 ^ 10 →
      (sizeinfo.mk path s).magnitudeUnit = (s.tdiv (2 ^ 10), "KiB") ∧
      s.tdiv (2 ^ 10) * 2 ^ 10 ≤ s ∧ s < (s.tdiv (2 ^ 10) + 1) * 2 ^ 10) ∧
    (¬ s > 2 ^ 10 → (sizeinfo.mk path s).magnitudeUnit = (s, "B")) := by
  refine ⟨rfl, ?_, ?_, ?_, ?_⟩
  · intro h
    refine ⟨?_, tdiv_bracket s _ hs (by decide)⟩
    simp only [sizeinfo.magnitudeUnit, gibibyte]
    rw [if_pos h]
  · intro h1 h2
    refine ⟨?_, tdiv_bracket s _ hs (by decide)⟩
    simp only [sizeinfo.magnitudeUnit, gibibyte, mebibyte]
    rw [if_neg h1, if_pos h2]
  · intro h1 h2
    have h0 : ¬ s > 2 ^ 30 := by omega
    refine ⟨?_, tdiv_bracket s _ hs (by decide)⟩
    simp only [sizeinfo.magnitudeUnit, gibibyte, mebibyte, kibibyte]
    rw [if_neg h0, if_neg h1, if_pos h2]
  · intro h1
    have h0 : ¬ s > 2 ^ 30 := by omega
    have h2 : ¬ s > 2 ^ 20 := by omega
    simp only [sizeinfo.magnitudeUnit, gibibyte, mebibyte, kibibyte]
    rw [if_neg h0, if_neg h2, if_neg h1]

/-- C4 at the size 5 GiB + 1 (GiB, magnitude 5). -/
theorem formattedSize_unit_selection_witness :
    (sizeinfo.mk "/r/x" 5368709121).formattedSize = "  5 GiB" ∧
    (sizeinfo.mk "/r/x" 5368709121).magnitudeUnit
      = ((5368709121 : Int).tdiv (2 ^ 30), "GiB") :=
  ⟨by decide,
   ((formattedSize_unit_selection "/r/x" 5368709121 (by decide)).2.1 (by decide)).1⟩

/-! ## C5 -/

/-- C5 fails as stated: at size 1000 the magnitude takes four characters and
`formattedSize` returns eight. -/
theorem formattedSize_length_counterexample :
    (sizeinfo.mk "/r/x" 1000).formattedSize = "1000   B" ∧
    ¬ (∀ (path : String) (s : Int), 0 ≤ s →
        (sizeinfo.mk path s).formattedSize.length = 7) := by
  refine ⟨by decide, fun h => ?_⟩
  have h1 := h "/r/x" 1000 (by decide)
  revert h1
  decide

/-- C5, amended. For every size `s ≥ 0` and every path, the label is the text of
`formattedSize`, one space, then the full path; `formattedSize` is the magnitude
right-aligned in at least 3 characters, one space, and the unit in exactly 3
characters: it has exactly 7 characters when the magnitude is below 1000 (the path
then starts at character offset 8) and at least 8 characters otherwise. -/
theorem label_layout (path : String) (s : Int) (hs : 0 ≤ s) :
    (sizeinfo.mk path s).label
        = (sizeinfo.mk path s).formattedSize ++ " " ++ path ∧
    (sizeinfo.mk path s).formattedSize.data
        = padLeft 3 (formatDecimal (sizeinfo.mk path s).magnitudeUnit.1)
            ++ ' ' :: padLeft 3 (sizeinfo.mk path s).magnitudeUnit.2.data ∧
    (padLeft 3 (sizeinfo.mk path s).magnitudeUnit.2.data).length = 3 ∧
    ((sizeinfo.mk path s).magnitudeUnit.1 < 1000 →
      (sizeinfo.mk path s).formattedSize.length = 7 ∧
      (sizeinfo.mk path s).label.data.drop 8 = path.data) ∧
    (1000 ≤ (sizeinfo.mk path s).magnitudeUnit.1 →
      8 ≤ (sizeinfo.mk path s).formattedSize.length) := by
  have hu := magnitudeUnit_unit_length (sizeinfo.mk path s)
  have hn := magnitudeUnit_nonneg (sizeinfo.mk path s) hs
  have hlen := sprintf3d3s_length (sizeinfo.mk path s).magnitudeUnit.1
    (sizeinfo.mk path s).magnitudeUnit.2
  refine ⟨rfl, rfl, ?_, ?_, ?_⟩
  · rw [padLeft_length]; omega
  · intro hlt
    have hd := formatDecimal_length_le_three _ hn hlt
    have h7 : (sizeinfo.mk path s).formattedSize.length = 7 := by
      unfold sizeinfo.formattedSize
      rw [hlen]; omega
    refine ⟨h7, ?_⟩
    have h8 : ((sizeinfo.mk path s).formattedSize ++ " ").data.length = 8 := by
      rw [String.data_append, List.length_append]
      have : (sizeinfo.mk path s).formattedSize.data.length = 7 := h7
      rw [this]; rfl
    unfold sizeinfo.label
    rw [String.data_append, ← h8, List.drop_left]
  · intro hge
    have hd := formatDecimal_length_ge_four _ hge
    unfold sizeinfo.formattedSize
    rw [hlen]; omega

/-- C5 (amended) at size 2548: the label is `  2 KiB /r`. -/
theorem label_layout_witness :
    (sizeinfo.mk "/r" 2548).label = "  2 KiB /r" ∧
    (sizeinfo.mk "/r" 2548).formattedSize.length = 7 ∧
    (sizeinfo.mk "/r" 2548).label.data.drop 8 = "/r".data :=
  ⟨by decide, (label_layout "/r" 2548 (by decide)).2.2.2.1 (by decide)⟩

/-! ## C6 -/

/-- C6. The boundary cases of `formattedSize`: size 0 prints the magnitude text
`  0` with unit B; size 999 has unit B; size 1024 does not exceed the KiB threshold
and prints 1024 B; size 1025 selects KiB with magnitude 1, and no smaller size
selects KiB. -/
theorem formattedSize_boundaries :
    (sizeinfo.mk "p" 0).magnitudeUnit = (0, "B") ∧
    padLeft 3 (formatDecimal 0) = "  0".data ∧
    (sizeinfo.mk "p" 0).formattedSize = "  0   B" ∧
    (sizeinfo.mk "p" 999).magnitudeUnit = (999, "B") ∧
    (sizeinfo.mk "p" 999).formattedSize = "999   B" ∧
    (sizeinfo.mk "p" 1024).magnitudeUnit = (1024, "B") ∧
    (sizeinfo.mk "p" 1024).formattedSize = "1024   B" ∧
    (sizeinfo.mk "p" 1025).magnitudeUnit = (1, "KiB") ∧
    (sizeinfo.mk "p" 1025).formattedSize = "  1 KiB" ∧
    (∀ (path : String) (s : Int),
      (sizeinfo.mk path s).magnitudeUnit.2 = "KiB" → 1025 ≤ s) := by
  refine ⟨by decide, by decide, by decide, by decide, by decide, by decide, by decide,
    by decide, by decide, ?_⟩
  intro path s h
  by_contra hlt
  have h1 : ¬ s > kibibyte := by simp only [kibibyte]; omega
  have h2 : ¬ s > mebibyte := by simp only [mebibyte]; omega
  have h3 : ¬ s > gibibyte := by simp only [gibibyte]; omega
  simp only [sizeinfo.magnitudeUnit] at h
  rw [if_neg h3, if_neg h2, if_neg h1] at h
  simp only at h
  revert h
  decide

/-- C6 at the size 1025 itself: the last clause, applied. -/
theorem formattedSize_boundaries_witness :
    (sizeinfo.mk "p" 1025).magnitudeUnit.2 = "KiB" ∧ (1025 : Int) ≤ 1025 :=
  ⟨by decide, formattedSize_boundaries.2.2.2.2.2.2.2.2.2 "p" 1025 (by decide)⟩


/-! ## The order of strings -/

theorem char_eq_of_toNat_eq {a b : Char} (h : a.toNat = b.toNat) : a = b := by
  rw [← Char.ofNat_toNat a, ← Char.ofNat_toNat b, h]

theorem ltChars_irrefl (a : List Char) : ltChars a a = false := by
  induction a with
  | nil => rfl
  | cons x xs ih => simp [ltChars, ih]

theorem ltChars_trans : ∀ (a b c : List Char),
    ltChars a b = true → ltChars b c = true → ltChars a c = true
  | _, [], _ => by intro h; simp [ltChars] at h
  | _, _ :: _, [] => by intro _ h; simp [ltChars] at h
  | [], _ :: _, _ :: _ => by intro _ _; simp [ltChars]
  | x :: xs, y :: ys, z :: zs => by
    intro h1 h2
    simp only [ltChars] at h1 h2 ⊢
    split_ifs at h1 h2 ⊢ <;> first | rfl | omega | skip
    have hxy : x.toNat = y.toNat := by omega
    have hyz : y.toNat = z.toNat := by omega
    exact ltChars_trans xs ys zs h1 h2

theorem ltChars_total : ∀ (a b : List Char),
    a ≠ b → ltChars a b = true ∨ ltChars b a = true
  | [], [] => by intro h; exact absurd rfl h
  | [], _ :: _ => by intro _; simp [ltChars]
  | _ :: _, [] => by intro _; simp [ltChars]
  | x :: xs, y :: ys => by
    intro h
    simp only [ltChars]
    by_cases h1 : x.toNat < y.toNat
    · simp [h1]
    · by_cases h2 : y.toNat < x.toNat
      · simp [h2]
      · have hxy : x = y := char_eq_of_toNat_eq (by omega)
        have hne : xs ≠ ys := by
          intro e; exact h (by rw [hxy, e])
        simp only [h1, h2, if_false]
        exact ltChars_total xs ys hne

theorem ltChars_asymm (a b : List Char) (h : ltChars a b = true) : ltChars b a = false := by
  cases hb : ltChars b a with
  | false => rfl
  | true =>
    have := ltChars_trans a b a h hb
    rw [ltChars_irrefl] at this
    exact absurd this (by decide)

theorem stringLess_irrefl (a : String) : stringLess a a = false :=
  ltChars_irrefl a.data

theorem stringLess_trans (a b c : String) :
    stringLess a b = true → stringLess b c = true → stringLess a c = true :=
  ltChars_trans a.data b.data c.data

theorem stringLess_total (a b : String) (h : a ≠ b) :
    stringLess a b = true ∨ stringLess b a = true :=
  ltChars_total a.data b.data (fun e => h (String.ext e))

theorem stringLess_asymm (a b : String) (h : stringLess a b = true) :
    stringLess b a = false :=
  ltChars_asymm a.data b.data h

/-! ## `byName.Less` as an order -/

theorem byName_Less_irrefl (a : sizeinfo) : byName.Less a a = false := by
  simp [byName.Less, stringLess_irrefl]

theorem byName_Less_trans (a b c : sizeinfo)
    (h1 : byName.Less a b = true) (h2 : byName.Less b c = true) :
    byName.Less a c = true := by
  simp only [byName.Less] at h1 h2 ⊢
  by_cases e1 : ToLower a.path = ToLower b.path
  · by_cases e2 : ToLower b.path = ToLower c.path
    · rw [if_pos e1] at h1
      rw [if_pos e2] at h2
      rw [if_pos (e1.trans e2)]
      exact stringLess_trans _ _ _ h1 h2
    · rw [if_neg e2] at h2
      rw [if_neg (by rw [e1]; exact e2), e1]
      exact h2
  · rw [if_neg e1] at h1
    by_cases e2 : ToLower b.path = ToLower c.path
    · rw [if_neg (by rw [← e2]; exact e1), ← e2]
      exact h1
    · rw [if_neg e2] at h2
      have h3 := stringLess_trans _ _ _ h1 h2
      have e3 : ToLower a.path ≠ ToLower c.path := by
        intro e
        rw [e, stringLess_irrefl] at h3
        exact absurd h3 (by decide)
      rw [if_neg e3]
      exact h3

theorem byName_Less_asymm (a b : sizeinfo) (h : byName.Less a b = true) :
    byName.Less b a = false := by
  cases hb : byName.Less b a with
  | false => rfl
  | true =>
    have := byName_Less_trans a b a h hb
    rw [byName_Less_irrefl] at this
    exact absurd this (by decide)

theorem byName_Less_total (a b : sizeinfo) (h : a.path ≠ b.path) :
    byName.Less a b = true ∨ byName.Less b a = true := by
  simp only [byName.Less]
  by_cases e : ToLower a.path = ToLower b.path
  · rw [if_pos e, if_pos e.symm]
    exact stringLess_total _ _ h
  · rw [if_neg e, if_neg (fun e2 => e e2.symm)]
    exact stringLess_total _ _ e

/-! ## C7 -/

/-- C7. `byName.Less` is a strict total order on nodes with pairwise distinct paths:
it is irreflexive and transitive, and of two nodes with different paths exactly one
is `Less` than the other. -/
theorem byName_Less_strict_total_order :
    (∀ a : sizeinfo, byName.Less a a = false) ∧
    (∀ a b c : sizeinfo,
      byName.Less a b = true → byName.Less b c = true → byName.Less a c = true) ∧
    (∀ a b : sizeinfo, a.path ≠ b.path →
      (byName.Less a b = true ∧ byName.Less b a = false) ∨
      (byName.Less a b = false ∧ byName.Less b a = true)) := by
  refine ⟨byName_Less_irrefl, byName_Less_trans, ?_⟩
  intro a b h
  rcases byName_Less_total a b h with h1 | h1
  · exact Or.inl ⟨h1, byName_Less_asymm a b h1⟩
  · exact Or.inr ⟨byName_Less_asymm b a h1, h1⟩

/-- C7 at the siblings `root/x` and `root/Y`: `x` comes first. -/
theorem byName_Less_strict_total_order_witness :
    byName.Less ⟨"root/x", 500⟩ ⟨"root/Y", 2048⟩ = true ∧
    byName.Less ⟨"root/Y", 2048⟩ ⟨"root/x", 500⟩ = false := by
  have h := byName_Less_strict_total_order.2.2 ⟨"root/x", 500⟩ ⟨"root/Y", 2048⟩ (by decide)
  rcases h with h | h
  · exact h
  · exact absurd h.1 (by decide)

/-! ## C8 -/

/-- C8 fails as stated: for the paths `b` and `B`, which differ, none of the three
conditions holds (the lowercased paths are equal and `b` is not below `B`). -/
theorem name_trichotomy_counterexample :
    (sizeinfo.mk "b" 0).path ≠ (sizeinfo.mk "B" 0).path ∧
    stringLess (ToLower "b") (ToLower "B") = false ∧
    stringLess (ToLower "B") (ToLower "b") = false ∧
    ¬ (ToLower "b" = ToLower "B" ∧ stringLess "b" "B" = true) := by
  decide

/-- C8, amended. For any two nodes `a`, `b` with different paths, exactly one of
four conditions holds: `lower(a.path) < lower(b.path)`; `lower(a.path) >
lower(b.path)`; the lowercased paths are equal and `a.path < b.path`; the lowercased
paths are equal and `a.path > b.path`. `byName.Less a b` holds in the first and the
third case. -/
theorem name_order_cases (a b : sizeinfo) (h : a.path ≠ b.path) :
    ((stringLess (ToLower a.path) (ToLower b.path) = true ∧
        stringLess (ToLower b.path) (ToLower a.path) = false ∧
        ToLower a.path ≠ ToLower b.path ∧ byName.Less a b = true) ∨
     (stringLess (ToLower a.path) (ToLower b.path) = false ∧
        stringLess (ToLower b.path) (ToLower a.path) = true ∧
        ToLower a.path ≠ ToLower b.path ∧ byName.Less a b = false) ∨
     (stringLess (ToLower a.path) (ToLower b.path) = false ∧
        stringLess (ToLower b.path) (ToLower a.path) = false ∧
        ToLower a.path = ToLower b.path ∧
        stringLess a.path b.path = true ∧ stringLess b.path a.path = false ∧
        byName.Less a b = true) ∨
     (stringLess (ToLower a.path) (ToLower b.path) = false ∧
        stringLess (ToLower b.path) (ToLower a.path) = false ∧
        ToLower a.path = ToLower b.path ∧
        stringLess a.path b.path = false ∧ stringLess b.path a.path = true ∧
        byName.Less a b = false)) := by
  by_cases e : ToLower a.path = ToLower b.path
  · have hl : stringLess (ToLower a.path) (ToLower b.path) = false := by
      rw [e]; exact stringLess_irrefl _
    have hl2 : stringLess (ToLower b.path) (ToLower a.path) = false := by
      rw [e]; exact stringLess_irrefl _
    have hless : byName.Less a b = stringLess a.path b.path := by
      simp only [byName.Less]; rw [if_pos e]
    rcases stringLess_total _ _ h with h1 | h1
    · exact Or.inr (Or.inr (Or.inl
        ⟨hl, hl2, e, h1, stringLess_asymm _ _ h1, by rw [hless]; exact h1⟩))
    · exact Or.inr (Or.inr (Or.inr
        ⟨hl, hl2, e, stringLess_asymm _ _ h1, h1,
          by rw [hless]; exact stringLess_asymm _ _ h1⟩))
  · have hless : byName.Less a b = stringLess (ToLower a.path) (ToLower b.path) := by
      simp only [byName.Less]; rw [if_neg e]
    rcases stringLess_total _ _ e with h1 | h1
    · exact Or.inl ⟨h1, stringLess_asymm _ _ h1, e, by rw [hless]; exact h1⟩
    · exact Or.inr (Or.inl
        ⟨stringLess_asymm _ _ h1, h1, e, by rw [hless]; exact stringLess_asymm _ _ h1⟩)

/-- C8 (amended) at the paths `b` and `B`: the fourth case. -/
theorem name_order_cases_witness :
    stringLess (ToLower "b") (ToLower "B") = false ∧
    stringLess (ToLower "B") (ToLower "b") = false ∧
    ToLower "b" = ToLower "B" ∧
    stringLess "b" "B" = false ∧ stringLess "B" "b" = true ∧
    byName.Less ⟨"b", 0⟩ ⟨"B", 0⟩ = false := by
  have h := name_order_cases ⟨"b", 0⟩ ⟨"B", 0⟩ (by decide)
  rcases h with h | h | h | h
  · exact absurd h.1 (by decide)
  · exact absurd h.2.1 (by decide)
  · exact absurd h.2.2.2.1 (by decide)
  · exact h


/-! ## `int64` wrap-around -/

theorem wrapInt64_range (x : Int) : -2 ^ 63 ≤ wrapInt64 x ∧ wrapInt64 x < 2 ^ 63 := by
  unfold wrapInt64; omega

theorem wrapInt64_dvd (x : Int) : (2 ^ 64 : Int) ∣ wrapInt64 x - x := by
  unfold wrapInt64; omega

theorem wrapInt64_of_range (x : Int) (h1 : -2 ^ 63 ≤ x) (h2 : x < 2 ^ 63) :
    wrapInt64 x = x := by
  unfold wrapInt64; omega

theorem eq_wrapInt64_of_dvd (a x : Int) (h1 : -2 ^ 63 ≤ a) (h2 : a < 2 ^ 63)
    (h : (2 ^ 64 : Int) ∣ a - x) : a = wrapInt64 x := by
  unfold wrapInt64; omega

/-! ## Writes through a pointer -/

theorem Store.update_nodes (st : Store) (id : Nat) (f : TreeNode → TreeNode) :
    (st.update id f).nodes = st.nodes := by
  unfold Store.update; split <;> rfl

theorem Store.update_get (st : Store) (id j : Nat) (f : TreeNode → TreeNode) :
    (st.update id f).heap[j]? = if j = id then (st.heap[id]?).map f else st.heap[j]? := by
  unfold Store.update
  split
  · rename_i n h
    simp only [List.getElem?_set]
    by_cases e : id = j
    · subst e
      have hlt : id < st.heap.length := by
        by_contra hge
        rw [List.getElem?_eq_none (by omega)] at h
        exact absurd h (by simp)
      simp [h, hlt]
    · have e2 : ¬ j = id := fun x => e x.symm
      simp [e, e2]
  · rename_i h
    by_cases e : j = id
    · subst e; simp [h]
    · simp [e]

theorem Store.update_length (st : Store) (id : Nat) (f : TreeNode → TreeNode) :
    (st.update id f).heap.length = st.heap.length := by
  unfold Store.update; split <;> simp

theorem Store.children_update (st : Store) (id j : Nat) (f : TreeNode → TreeNode)
    (hf : ∀ n, (f n).children = n.children) :
    (st.update id f).children j = st.children j := by
  unfold Store.children
  rw [Store.update_get]
  by_cases e : j = id
  · subst e
    rw [if_pos rfl]
    cases h : st.heap[j]? with
    | none => rfl
    | some n => simp [hf]
  · rw [if_neg e]

theorem Store.reference?_update (st : Store) (id j : Nat) (f : TreeNode → TreeNode)
    (r : Option sizeinfo) (hid : id < st.heap.length) (hf : ∀ n, (f n).reference = r) :
    (st.update id f).reference? j = if j = id then r else st.reference? j := by
  unfold Store.reference?
  rw [Store.update_get]
  by_cases e : j = id
  · subst e
    rw [if_pos rfl, if_pos rfl, List.getElem?_eq_getElem hid]
    simp [hf]
  · rw [if_neg e, if_neg e]

theorem Store.size_update (st : Store) (id j : Nat) (f : TreeNode → TreeNode)
    (info : sizeinfo) (hid : id < st.heap.length) (hf : ∀ n, (f n).reference = some info) :
    (st.update id f).size j = if j = id then info.size else st.size j := by
  unfold Store.size
  rw [Store.reference?_update st id j f (some info) hid hf]
  by_cases e : j = id
  · rw [if_pos e, if_pos e]
  · rw [if_neg e, if_neg e]

theorem Store.reference?_lt (st : Store) (id : Nat) (info : sizeinfo)
    (h : st.reference? id = some info) : id < st.heap.length := by
  by_contra hge
  unfold Store.reference? at h
  rw [List.getElem?_eq_none (by omega)] at h
  exact absurd h (by simp)

theorem sum_map_update (l : List Nat) (f g : Nat → Int) (c : Nat) (d : Int)
    (hc : g c = f c + d) (hne : ∀ j, j ≠ c → g j = f j) :
    (l.map g).sum = (l.map f).sum + (l.count c : Int) * d := by
  induction l with
  | nil => simp
  | cons x xs ih =>
    simp only [List.map_cons, List.sum_cons, List.count_cons, ih]
    by_cases e : x = c
    · subst e; simp [hc]; ring
    · simp [e, hne x e]; ring

/-! ## The entries behind a store -/

theorem pathAt_eq_some {done : List Entry} {i : Nat} {p : String} :
    pathAt done i = some p ↔ ∃ e, done[i]? = some e ∧ e.cleanPath = p := by
  unfold pathAt
  cases h : done[i]? with
  | none => simp
  | some e => simp

theorem pathAt_inj {done : List Entry} (hnd : (done.map Entry.cleanPath).Nodup)
    {i j : Nat} {p : String} (hi : pathAt done i = some p) (hj : pathAt done j = some p) :
    i = j := by
  obtain ⟨e, he, hpe⟩ := pathAt_eq_some.mp hi
  obtain ⟨d, hd, hpd⟩ := pathAt_eq_some.mp hj
  have hi2 : (done.map Entry.cleanPath)[i]? = some p := by
    rw [List.getElem?_map, he]; simp [hpe]
  have hj2 : (done.map Entry.cleanPath)[j]? = some p := by
    rw [List.getElem?_map, hd]; simp [hpd]
  have hil : i < (done.map Entry.cleanPath).length := by
    by_contra hge
    rw [List.getElem?_eq_none (by omega)] at hi2
    exact absurd hi2 (by simp)
  have hjl : j < (done.map Entry.cleanPath).length := by
    by_contra hge
    rw [List.getElem?_eq_none (by omega)] at hj2
    exact absurd hj2 (by simp)
  rw [List.getElem?_eq_getElem hil] at hi2
  rw [List.getElem?_eq_getElem hjl] at hj2
  have heq : (done.map Entry.cleanPath)[i] = (done.map Entry.cleanPath)[j] := by
    injection hi2 with a
    injection hj2 with b
    rw [a, b]
  exact (hnd.getElem_inj_iff).mp heq

theorem isParentAt_iff {done : List Entry} {m i : Nat} :
    isParentAt done m i = true ↔
      m ≤ i ∧ ∃ q, pathAt done i = some q ∧ pathAt done m = some (Dir q) := by
  unfold isParentAt pathAt
  cases hm : done[m]? with
  | none => simp
  | some d =>
    cases hi : done[i]? with
    | none => simp
    | some e => simp

theorem Shape.reference_of_lookup {root : String} {done : List Entry} {st : Store}
    (h : Shape root done st) {cur : String} {c : Nat}
    (hc : st.nodes.lookup cur = some c) :
    ∃ sz, st.reference? c = some ⟨cur, sz⟩ ∧ -2 ^ 63 ≤ sz ∧ sz < 2 ^ 63 := by
  obtain ⟨e, he, hpe⟩ := pathAt_eq_some.mp ((h.reg cur c).mp hc)
  obtain ⟨n, sz, hn, hr, h1, h2, _⟩ := h.ref c e he
  refine ⟨sz, ?_, h1, h2⟩
  unfold Store.reference?
  simp only [hn, hr, hpe]

theorem Shape.size_range {root : String} {done : List Entry} {st : Store}
    (h : Shape root done st) (i : Nat) :
    -2 ^ 63 ≤ st.size i ∧ st.size i < 2 ^ 63 := by
  unfold Store.size Store.reference?
  cases hd : done[i]? with
  | none =>
    have hlen : st.heap.length ≤ i := by
      rw [h.len]
      by_contra hlt
      rw [List.getElem?_eq_getElem (by omega)] at hd
      exact absurd hd (by simp)
    rw [List.getElem?_eq_none hlen]
    constructor <;> decide
  | some e =>
    obtain ⟨n, sz, hn, hr, h1, h2, _⟩ := h.ref i e hd
    simp only [hn, hr]
    exact ⟨h1, h2⟩

/-- Adding to the size of a registered node keeps the shape. -/
theorem Shape.update_size {root : String} {done : List Entry} {st : Store}
    (h : Shape root done st) (c : Nat) (info : sizeinfo) (w : Int)
    (hc : st.reference? c = some info) (hw1 : -2 ^ 63 ≤ w) (hw2 : w < 2 ^ 63) :
    Shape root done
      (st.update c fun n => { n with reference := some { info with size := w } }) := by
  have hlt := Store.reference?_lt st c info hc
  refine ⟨?_, ?_, ?_, ?_, h.par⟩
  · rw [Store.update_length]; exact h.len
  · intro p i; rw [Store.update_nodes]; exact h.reg p i
  · intro i e he
    obtain ⟨n, sz, hn, hr, h1, h2, hs⟩ := h.ref i e he
    rw [Store.update_get]
    by_cases e1 : i = c
    · subst e1
      rw [if_pos rfl, hn]
      refine ⟨_, w, rfl, ?_, hw1, hw2, hs⟩
      unfold Store.reference? at hc
      simp only [hn, hr] at hc
      injection hc with hc
      rw [← hc]
    · rw [if_neg e1]
      exact ⟨n, sz, hn, hr, h1, h2, hs⟩
  · intro m i
    have hch := Store.children_update st c m
      (fun n => { n with reference := some { info with size := w } }) (fun _ => rfl)
    rw [hch]
    exact h.kids m i


/-! ## The loop of `propagateSize` -/

/-- When every registered path has a registered containing directory, the loop
started at a registered path never returns. -/
theorem propagateLoop_closed (s : Int) :
    ∀ (fuel : Nat) (cur : String) (st st' : Store),
      (∀ q, (st.nodes.lookup q).isSome = true → (st.nodes.lookup (Dir q)).isSome = true) →
      (st.nodes.lookup cur).isSome = true →
      propagateLoop s fuel cur st ≠ .ok st' := by
  intro fuel
  induction fuel with
  | zero =>
    intro cur st st' _ _ h
    simp [propagateLoop] at h
  | succ f ih =>
    intro cur st st' hclosed hcur h
    unfold propagateLoop at h
    cases hl : st.nodes.lookup cur with
    | none => rw [hl] at hcur; exact absurd hcur (by simp)
    | some id =>
      rw [hl] at h
      simp only at h
      cases hr : st.reference? id with
      | none => rw [hr] at h; simp at h
      | some info =>
        rw [hr] at h
        simp only at h
        refine ih (Dir cur) _ st' ?_ ?_ h
        · intro q hq
          rw [Store.update_nodes] at hq ⊢
          exact hclosed q hq
        · rw [Store.update_nodes]
          exact hclosed cur hcur

theorem Shape.lookup_isSome {root : String} {done : List Entry} {st : Store}
    (h : Shape root done st) (q : String) :
    (st.nodes.lookup q).isSome = true ↔ ∃ i, pathAt done i = some q := by
  constructor
  · intro hq
    cases hl : st.nodes.lookup q with
    | none => rw [hl] at hq; exact absurd hq (by simp)
    | some i => exact ⟨i, (h.reg q i).mp hl⟩
  · rintro ⟨i, hi⟩
    rw [(h.reg q i).mpr hi]
    rfl

/-- The loop keeps the shape and, started with `s` still owed to the node of `cur`,
ends with every node in balance. -/
theorem propagateLoop_balanced (root : String) (done : List Entry)
    (hnd : (done.map Entry.cleanPath).Nodup) (s : Int) :
    ∀ (fuel : Nat) (cur : String) (st st' : Store),
      Shape root done st → Balanced done st cur s →
      propagateLoop s fuel cur st = .ok st' →
      Shape root done st' ∧ ∀ p, Balanced done st' p 0 := by
  intro fuel
  induction fuel with
  | zero =>
    intro cur st st' _ _ h
    simp [propagateLoop] at h
  | succ f ih =>
    intro cur st st' hshape hbal h
    unfold propagateLoop at h
    cases hl : st.nodes.lookup cur with
    | none =>
      rw [hl] at h
      simp only at h
      injection h with h
      subst h
      refine ⟨hshape, ?_⟩
      intro p i
      have hb := hbal i
      have hne : ¬ pathAt done i = some cur := by
        intro hp
        rw [(hshape.reg cur i).mpr hp] at hl
        exact absurd hl (by simp)
      rw [if_neg hne] at hb
      simp only [ite_self]
      exact hb
    | some c =>
      rw [hl] at h
      simp only at h
      obtain ⟨sz, hr, hsz1, hsz2⟩ := hshape.reference_of_lookup hl
      rw [hr] at h
      simp only at h
      have hpc : pathAt done c = some cur := (hshape.reg cur c).mp hl
      have hclt := Store.reference?_lt st c _ hr
      have hw := wrapInt64_range (sz + s)
      have hshape1 := hshape.update_size c ⟨cur, sz⟩ (wrapInt64 (sz + s)) hr hw.1 hw.2
      -- the case in which the loop cannot return
      by_cases hbad : ∃ m, pathAt done m = some (Dir cur) ∧ ¬ m ≤ c
      · exfalso
        obtain ⟨m, hm, hmc⟩ := hbad
        have hroot : cur = root := by
          obtain ⟨e, he, hpe⟩ := pathAt_eq_some.mp hpc
          rcases hshape.par c e he with hr0 | ⟨m', hm'⟩
          · rw [← hpe]; exact hr0
          · obtain ⟨hle, q, hq, hmq⟩ := isParentAt_iff.mp hm'
            rw [hpc] at hq
            injection hq with hq
            subst hq
            have := pathAt_inj hnd hmq hm
            omega
        refine propagateLoop_closed s f (Dir cur) _ st' ?_ ?_ h
        · intro q hq
          rw [Store.update_nodes] at hq ⊢
          obtain ⟨i, hi⟩ := (hshape.lookup_isSome q).mp hq
          obtain ⟨e, he, hpe⟩ := pathAt_eq_some.mp hi
          rcases hshape.par i e he with hr0 | ⟨m', hm'⟩
          · have : q = cur := by rw [← hpe, hr0, hroot]
            rw [this]
            exact (hshape.lookup_isSome _).mpr ⟨m, hm⟩
          · obtain ⟨_, q', hq', hmq⟩ := isParentAt_iff.mp hm'
            rw [hi] at hq'
            injection hq' with hq'
            subst hq'
            exact (hshape.lookup_isSome _).mpr ⟨m', hmq⟩
        · rw [Store.update_nodes]
          exact (hshape.lookup_isSome _).mpr ⟨m, hm⟩
      · -- the regular case
        have hgood : ∀ m, pathAt done m = some (Dir cur) → m ≤ c := by
          intro m hm
          by_contra hle
          exact hbad ⟨m, hm, hle⟩
        refine ih (Dir cur) _ st' hshape1 ?_ h
        intro i
        have hb := hbal i
        have hsize : ∀ j, (st.update c fun n =>
            { n with reference := some { (⟨cur, sz⟩ : sizeinfo) with
                size := wrapInt64 (sz + s) } }).size j
            = if j = c then wrapInt64 (sz + s) else st.size j := by
          intro j
          exact Store.size_update st c j _ ⟨cur, wrapInt64 (sz + s)⟩ hclt (fun _ => rfl)
        have hszc : st.size c = sz := by
          unfold Store.size; rw [hr]
        have hkids : (st.update c fun n =>
            { n with reference := some { (⟨cur, sz⟩ : sizeinfo) with
                size := wrapInt64 (sz + s) } }).children i = st.children i :=
          Store.children_update st c i _ (fun _ => rfl)
        have hsum : (st.update c fun n =>
            { n with reference := some { (⟨cur, sz⟩ : sizeinfo) with
                size := wrapInt64 (sz + s) } }).childSum i
            = st.childSum i
              + ((st.children i).count c : Int) * (wrapInt64 (sz + s) - sz) := by
          unfold Store.childSum
          rw [hkids]
          apply sum_map_update
          · rw [hsize c, if_pos rfl, hszc]; ring
          · intro j hj; rw [hsize j, if_neg hj]
        rw [hsum, hsize i, hshape.kids i c]
        have hpar : isParentAt done i c = true ↔ pathAt done i = some (Dir cur) := by
          rw [isParentAt_iff]
          constructor
          · rintro ⟨_, q, hq, hiq⟩
            rw [hpc] at hq
            injection hq with hq
            subst hq
            exact hiq
          · intro hi
            exact ⟨hgood i hi, cur, hpc, hi⟩
        have hcur : pathAt done i = some cur ↔ i = c := by
          constructor
          · intro hi; exact pathAt_inj hnd hi hpc
          · intro hi; rw [hi]; exact hpc
        have hwd := wrapInt64_dvd (sz + s)
        by_cases e1 : i = c
        · have e1' := hcur.mpr e1
          rw [if_pos e1'] at hb
          rw [if_pos e1]
          rw [e1] at hb
          rw [hszc] at hb
          by_cases e2 : pathAt done i = some (Dir cur)
          · rw [if_pos e2, if_pos (hpar.mpr e2)]
            rw [e1]
            push_cast
            omega
          · rw [if_neg e2, if_neg (fun x => e2 (hpar.mp x))]
            rw [e1]
            push_cast
            omega
        · have e1' : ¬ pathAt done i = some cur := fun x => e1 (hcur.mp x)
          rw [if_neg e1'] at hb
          rw [if_neg e1]
          by_cases e2 : pathAt done i = some (Dir cur)
          · rw [if_pos e2, if_pos (hpar.mpr e2)]
            push_cast
            omega
          · rw [if_neg e2, if_neg (fun x => e2 (hpar.mp x))]
            push_cast
            omega

/-- At a path that is its own containing directory and is registered with a
reference, the loop of `propagateSize` uses up any fuel. -/
theorem propagateLoop_fixpoint (s : Int) (cur : String) (hfix : Dir cur = cur) :
    ∀ (fuel : Nat) (st : Store) (c : Nat),
      st.nodes.lookup cur = some c → (st.reference? c).isSome = true →
      propagateLoop s fuel cur st = .error Fault.timeout := by
  intro fuel
  induction fuel with
  | zero => intro st c _ _; rfl
  | succ f ih =>
    intro st c hl hr
    unfold propagateLoop
    rw [hl]
    simp only
    cases hri : st.reference? c with
    | none => rw [hri] at hr; exact absurd hr (by simp)
    | some info =>
      simp only
      rw [hfix]
      refine ih _ c (by rw [Store.update_nodes]; exact hl) ?_
      have hlt := Store.reference?_lt st c info hri
      rw [Store.reference?_update st c c _
        (some { info with size := wrapInt64 (info.size + s) }) hlt (fun _ => rfl)]
      simp


/-! ## One call of the walk function -/

theorem walkFn_eq (root : String) (fuel : Nat) (st : Store) (e : Entry) (info : FileInfo)
    (parent : Option Nat) (hinfo : e.info = some info)
    (hp : ((e.cleanPath, st.heap.length) :: st.nodes).lookup (Dir e.cleanPath) = parent)
    (hroot : parent = none → e.cleanPath = root) :
    walkFn root fuel st e =
      if info.isDir = true then
        .ok (st.grow e.cleanPath info.isDir info.size parent)
      else
        propagateLoop info.size fuel (Dir e.cleanPath)
          (st.grow e.cleanPath info.isDir info.size parent) := by
  unfold walkFn
  simp only [hinfo]
  unfold Entry.cleanPath at hp hroot ⊢
  rw [hp]
  cases parent with
  | none =>
    have hr := hroot rfl
    simp only [hr, ne_eq, not_true_eq_false, if_false]
    cases hd : info.isDir <;> simp [Store.grow, propagateSize, hd]
  | some p =>
    cases hd : info.isDir <;> simp [Store.grow, propagateSize, hd]

theorem walkFn_no_info (root : String) (fuel : Nat) (st : Store) (e : Entry)
    (hinfo : e.info = none) :
    walkFn root fuel st e
      = .error (Fault.panic "invalid memory address or nil pointer dereference") := by
  unfold walkFn
  simp only [hinfo]

theorem walkFn_unrooted (root : String) (fuel : Nat) (st : Store) (e : Entry)
    (info : FileInfo) (hinfo : e.info = some info)
    (hp : ((e.cleanPath, st.heap.length) :: st.nodes).lookup (Dir e.cleanPath) = none)
    (hroot : e.cleanPath ≠ root) :
    walkFn root fuel st e
      = .error (Fault.panic ("unrooted child path at " ++ e.cleanPath)) := by
  unfold walkFn
  simp only [hinfo]
  unfold Entry.cleanPath at hp hroot ⊢
  rw [hp]
  simp only [ne_eq, hroot, not_false_eq_true, if_true]

/-- The heap after `grow`: the old nodes, the parent with one more child, and the
new node. -/
theorem Store.grow_get (st : Store) (path : String) (isDir : Bool) (size : Int)
    (parent : Option Nat) (hp : ∀ p, parent = some p → p ≤ st.heap.length) (j : Nat) :
    (st.grow path isDir size parent).heap[j]? =
      if j = st.heap.length then
        some { text := path,
               color := if isDir = true then Color.green else Color.silver,
               expanded := false, selectable := isDir,
               reference := some ⟨path, if isDir = true then 0 else size⟩,
               children := if parent = some j then [j] else [] }
      else
        (st.heap[j]?).map fun n =>
          if parent = some j then { n with children := n.children ++ [st.heap.length] }
          else n := by
  unfold Store.grow
  cases parent with
  | none =>
    cases isDir <;>
    · simp only [Store.update_get, Bool.false_eq_true, if_false, if_true]
      by_cases e : j = st.heap.length
      · subst e
        simp [NewTreeNode]
      · simp only [e, if_false]
        by_cases hlt : j < st.heap.length
        · rw [List.getElem?_append_left hlt]; simp
        · rw [List.getElem?_eq_none (by simp; omega), List.getElem?_eq_none (by omega)]; simp
  | some p =>
    have hple := hp p rfl
    cases isDir <;>
    · simp only [Store.update_get, Bool.false_eq_true, if_false, if_true]
      by_cases e : j = st.heap.length
      · subst e
        by_cases e2 : p = st.heap.length
        · subst e2
          simp [NewTreeNode]
        · have e3 : ¬ st.heap.length = p := fun x => e2 x.symm
          simp [NewTreeNode, e3, e2]
      · simp only [e, if_false]
        by_cases e2 : j = p
        · subst e2
          have hlt : j < st.heap.length := by omega
          simp [List.getElem?_append_left hlt]
        · have e3 : ¬ p = j := fun x => e2 x.symm
          simp only [e2, if_false, Option.some.injEq, e3]
          by_cases hlt : j < st.heap.length
          · rw [List.getElem?_append_left hlt]; simp
          · rw [List.getElem?_eq_none (by simp; omega), List.getElem?_eq_none (by omega)]
            simp

theorem Store.grow_nodes (st : Store) (path : String) (isDir : Bool) (size : Int)
    (parent : Option Nat) :
    (st.grow path isDir size parent).nodes = (path, st.heap.length) :: st.nodes := by
  unfold Store.grow
  cases parent <;> cases isDir <;> simp [Store.update_nodes]

theorem Store.grow_length (st : Store) (path : String) (isDir : Bool) (size : Int)
    (parent : Option Nat) :
    (st.grow path isDir size parent).heap.length = st.heap.length + 1 := by
  unfold Store.grow
  cases parent <;> cases isDir <;> simp [Store.update_length]


/-! ## The entries with one more -/

theorem snoc_get (done : List Entry) (e : Entry) (i : Nat) :
    (done ++ [e])[i]? =
      if i < done.length then done[i]? else if i = done.length then some e else none := by
  rw [List.getElem?_append]
  by_cases h : i < done.length
  · rw [if_pos h, if_pos h]
  · rw [if_neg h, if_neg h]
    by_cases h2 : i = done.length
    · rw [if_pos h2, h2]; simp
    · rw [if_neg h2]
      have : i - done.length = (i - done.length - 1) + 1 := by omega
      rw [this]; rfl

theorem get_none_of_le (done : List Entry) (i : Nat) (h : done.length ≤ i) :
    done[i]? = none := List.getElem?_eq_none h

theorem get_lt_of_some {done : List Entry} {i : Nat} {e : Entry}
    (h : done[i]? = some e) : i < done.length := by
  by_contra hge
  rw [List.getElem?_eq_none (by omega)] at h
  exact absurd h (by simp)

theorem pathAt_snoc (done : List Entry) (e : Entry) (i : Nat) :
    pathAt (done ++ [e]) i =
      if i < done.length then pathAt done i
      else if i = done.length then some e.cleanPath else none := by
  unfold pathAt
  rw [snoc_get]
  by_cases h : i < done.length
  · rw [if_pos h, if_pos h]
  · rw [if_neg h, if_neg h]
    by_cases h2 : i = done.length
    · rw [if_pos h2, if_pos h2]
    · rw [if_neg h2, if_neg h2]

theorem pathAt_lt {done : List Entry} {i : Nat} {p : String}
    (h : pathAt done i = some p) : i < done.length := by
  obtain ⟨e, he, _⟩ := pathAt_eq_some.mp h
  exact get_lt_of_some he

theorem ownAt_snoc (done : List Entry) (e : Entry) (i : Nat) :
    ownAt (done ++ [e]) i =
      if i = done.length then e.fileSize else ownAt done i := by
  unfold ownAt
  rw [snoc_get]
  by_cases h : i < done.length
  · rw [if_pos h, if_neg (by omega)]
  · rw [if_neg h]
    by_cases h2 : i = done.length
    · rw [if_pos h2, if_pos h2]
    · rw [if_neg h2, if_neg h2, get_none_of_le done i (by omega)]

theorem not_pathAt_new {done : List Entry} {e : Entry}
    (hnd : ((done ++ [e]).map Entry.cleanPath).Nodup) (i : Nat) :
    pathAt done i ≠ some e.cleanPath := by
  intro h
  have hlt := pathAt_lt h
  have h1 : pathAt (done ++ [e]) i = some e.cleanPath := by
    rw [pathAt_snoc, if_pos hlt]; exact h
  have h2 : pathAt (done ++ [e]) done.length = some e.cleanPath := by
    rw [pathAt_snoc, if_neg (by omega), if_pos rfl]
  have := pathAt_inj hnd h1 h2
  omega

theorem nodup_of_snoc {done : List Entry} {e : Entry}
    (hnd : ((done ++ [e]).map Entry.cleanPath).Nodup) :
    (done.map Entry.cleanPath).Nodup := by
  rw [List.map_append] at hnd
  exact (List.nodup_append.mp hnd).1

theorem isParentAt_snoc_old (done : List Entry) (e : Entry) (m i : Nat)
    (hi : i < done.length) :
    isParentAt (done ++ [e]) m i = isParentAt done m i := by
  unfold isParentAt
  rw [snoc_get done e i, if_pos hi, snoc_get done e m]
  by_cases hm : m < done.length
  · rw [if_pos hm]
  · rw [if_neg hm, get_none_of_le done m (by omega)]
    by_cases hm2 : m = done.length
    · rw [if_pos hm2]
      cases hd : done[i]? with
      | none => rfl
      | some d =>
        simp only
        have : ¬ m ≤ i := by omega
        simp [this]
    · rw [if_neg hm2]

theorem isParentAt_false_of_le (done : List Entry) (m i : Nat) (hi : done.length ≤ i) :
    isParentAt done m i = false := by
  unfold isParentAt
  rw [get_none_of_le done i hi]
  cases done[m]? <;> rfl

/-! ## The store with one more node -/

theorem Store.children_of_le (st : Store) (j : Nat) (h : st.heap.length ≤ j) :
    st.children j = [] := by
  unfold Store.children
  rw [List.getElem?_eq_none h]

theorem Store.size_of_le (st : Store) (j : Nat) (h : st.heap.length ≤ j) :
    st.size j = 0 := by
  unfold Store.size Store.reference?
  rw [List.getElem?_eq_none h]

theorem Store.grow_children (st : Store) (path : String) (isDir : Bool) (size : Int)
    (parent : Option Nat) (hp : ∀ p, parent = some p → p ≤ st.heap.length) (m : Nat) :
    (st.grow path isDir size parent).children m =
      st.children m ++ (if parent = some m then [st.heap.length] else []) := by
  unfold Store.children
  rw [Store.grow_get st path isDir size parent hp m]
  by_cases e : m = st.heap.length
  · rw [if_pos e, List.getElem?_eq_none (by omega)]
    simp only [List.nil_append]
    rw [e]
  · rw [if_neg e]
    cases h : st.heap[m]? with
    | none =>
      have hge : st.heap.length ≤ m := by
        by_contra hlt
        rw [List.getElem?_eq_getElem (by omega)] at h
        exact absurd h (by simp)
      have : ¬ parent = some m := by
        intro hpm
        have := hp m hpm
        omega
      simp [this]
    | some n =>
      by_cases e2 : parent = some m
      · simp [e2]
      · simp [e2]

theorem Store.grow_size (st : Store) (path : String) (isDir : Bool) (size : Int)
    (parent : Option Nat) (hp : ∀ p, parent = some p → p ≤ st.heap.length) (j : Nat) :
    (st.grow path isDir size parent).size j =
      if j = st.heap.length then (if isDir = true then 0 else size) else st.size j := by
  unfold Store.size Store.reference?
  rw [Store.grow_get st path isDir size parent hp j]
  by_cases e : j = st.heap.length
  · rw [if_pos e, if_pos e]
  · rw [if_neg e, if_neg e]
    cases h : st.heap[j]? with
    | none => rfl
    | some n =>
      by_cases e2 : parent = some j
      · simp [e2]
      · simp [e2]


/-! ## The walk function keeps the shape and the balance -/

theorem lookup_cons_eq (st : Store) (path q : String) (id : Nat) :
    ((path, id) :: st.nodes).lookup q
      = if q = path then some id else st.nodes.lookup q := by
  rw [List.lookup_cons]
  by_cases e : q = path
  · rw [if_pos e]; simp [e]
  · rw [if_neg e]
    have : (q == path) = false := by simp [e]
    rw [this]

/-- The registry with the new binding maps each path of the longer list to its
index. -/
theorem reg_snoc {root : String} {done : List Entry} {st : Store} {e : Entry}
    (h : Shape root done st) (hnd : ((done ++ [e]).map Entry.cleanPath).Nodup)
    (q : String) (i : Nat) :
    ((e.cleanPath, st.heap.length) :: st.nodes).lookup q = some i
      ↔ pathAt (done ++ [e]) i = some q := by
  rw [lookup_cons_eq, pathAt_snoc, h.len]
  by_cases e1 : q = e.cleanPath
  · rw [if_pos e1]
    by_cases e2 : i < done.length
    · rw [if_pos e2]
      constructor
      · intro hi; injection hi with hi; omega
      · intro hi; rw [e1] at hi; exact absurd hi (not_pathAt_new hnd i)
    · rw [if_neg e2]
      by_cases e3 : i = done.length
      · rw [if_pos e3, e3, e1]; simp
      · rw [if_neg e3]
        constructor
        · intro hi; injection hi with hi; exact absurd hi.symm e3
        · intro hi; exact absurd hi (by simp)
  · rw [if_neg e1, h.reg q i]
    by_cases e2 : i < done.length
    · rw [if_pos e2]
    · rw [if_neg e2]
      by_cases e3 : i = done.length
      · rw [if_pos e3]
        constructor
        · intro hi; have := pathAt_lt hi; omega
        · intro hi; injection hi with hi; exact absurd hi.symm e1
      · rw [if_neg e3]
        constructor
        · intro hi; have := pathAt_lt hi; omega
        · intro hi; exact absurd hi (by simp)

theorem parent_le {root : String} {done : List Entry} {st : Store} {e : Entry}
    (h : Shape root done st) (hnd : ((done ++ [e]).map Entry.cleanPath).Nodup)
    {parent : Option Nat}
    (hp : ((e.cleanPath, st.heap.length) :: st.nodes).lookup (Dir e.cleanPath) = parent) :
    ∀ p, parent = some p → p ≤ st.heap.length := by
  intro p hpp
  rw [hpp] at hp
  have := pathAt_lt ((reg_snoc h hnd _ p).mp hp)
  rw [List.length_append, List.length_singleton] at this
  rw [h.len]
  omega

theorem shape_grow {root : String} {done : List Entry} {st : Store} {e : Entry}
    (h : Shape root done st) (hnd : ((done ++ [e]).map Entry.cleanPath).Nodup)
    (info : FileInfo) (hinfo : e.info = some info)
    (hr1 : -2 ^ 63 ≤ info.size) (hr2 : info.size < 2 ^ 63)
    {parent : Option Nat}
    (hp : ((e.cleanPath, st.heap.length) :: st.nodes).lookup (Dir e.cleanPath) = parent)
    (hroot : parent = none → e.cleanPath = root) :
    Shape root (done ++ [e]) (st.grow e.cleanPath info.isDir info.size parent) := by
  have hple := parent_le h hnd hp
  have hpar : ∀ m, parent = some m ↔ pathAt (done ++ [e]) m = some (Dir e.cleanPath) := by
    intro m
    rw [← hp]
    exact reg_snoc h hnd _ m
  have hnew : (done ++ [e])[done.length]? = some e := by
    rw [snoc_get, if_neg (by omega), if_pos rfl]
  refine ⟨?_, ?_, ?_, ?_, ?_⟩
  · rw [Store.grow_length, h.len, List.length_append, List.length_singleton]
  · intro q i
    rw [Store.grow_nodes]
    exact reg_snoc h hnd q i
  · intro i e' he'
    rw [Store.grow_get st _ _ _ parent hple i, h.len]
    rw [snoc_get] at he'
    by_cases e1 : i < done.length
    · rw [if_pos e1] at he'
      rw [if_neg (by omega)]
      obtain ⟨n, sz, hn, hr, h1, h2, hs⟩ := h.ref i e' he'
      rw [hn]
      by_cases e2 : parent = some i
      · exact ⟨{ n with children := n.children ++ [done.length] }, sz,
          by simp [e2], hr, h1, h2, hs⟩
      · exact ⟨n, sz, by simp [e2], hr, h1, h2, hs⟩
    · rw [if_neg e1] at he'
      by_cases e3 : i = done.length
      · rw [if_pos e3] at he'
        injection he' with he'
        subst he'
        rw [if_pos e3]
        refine ⟨_, _, rfl, rfl, ?_, ?_, ?_⟩
        · split_ifs
          · decide
          · exact hr1
        · split_ifs
          · decide
          · exact hr2
        · intro info' hi'
          rw [hinfo] at hi'
          injection hi' with hi'
          rw [hi']
      · rw [if_neg e3] at he'
        exact absurd he' (by simp)
  · intro m i
    rw [Store.grow_children st _ _ _ parent hple m, List.count_append, h.kids m i, h.len]
    by_cases e1 : i < done.length
    · rw [isParentAt_snoc_old done e m i e1]
      have : List.count i (if parent = some m then [done.length] else []) = 0 := by
        split_ifs
        · rw [List.count_singleton]; simp; omega
        · rfl
      rw [this]; rfl
    · rw [isParentAt_false_of_le done m i (by omega)]
      by_cases e3 : i = done.length
      · subst e3
        have hiff : isParentAt (done ++ [e]) m done.length = true ↔ parent = some m := by
          rw [isParentAt_iff, hpar m]
          constructor
          · rintro ⟨_, q, hq, hm⟩
            rw [pathAt_snoc, if_neg (by omega), if_pos rfl] at hq
            injection hq with hq
            rw [hq]; exact hm
          · intro hm
            have hlt := pathAt_lt hm
            rw [List.length_append, List.length_singleton] at hlt
            refine ⟨by omega, e.cleanPath, ?_, hm⟩
            rw [pathAt_snoc, if_neg (by omega), if_pos rfl]
        by_cases e4 : parent = some m
        · rw [if_pos e4, if_pos (hiff.mpr e4)]; simp
        · rw [if_neg e4, if_neg (fun x => e4 (hiff.mp x))]; simp
      · have hf : isParentAt (done ++ [e]) m i = false := by
          apply isParentAt_false_of_le
          rw [List.length_append, List.length_singleton]; omega
        rw [hf]
        have : List.count i (if parent = some m then [done.length] else []) = 0 := by
          split_ifs
          · rw [List.count_singleton]; simp; omega
          · rfl
        rw [this]; rfl
  · intro i e' he'
    rw [snoc_get] at he'
    by_cases e1 : i < done.length
    · rw [if_pos e1] at he'
      rcases h.par i e' he' with hr0 | ⟨m, hm⟩
      · exact Or.inl hr0
      · exact Or.inr ⟨m, by rw [isParentAt_snoc_old done e m i e1]; exact hm⟩
    · rw [if_neg e1] at he'
      by_cases e3 : i = done.length
      · rw [if_pos e3] at he'
        injection he' with he'
        subst he'
        cases hpp : parent with
        | none => exact Or.inl (hroot hpp)
        | some p =>
          right
          refine ⟨p, isParentAt_iff.mpr ⟨?_, _, ?_, (hpar p).mp hpp⟩⟩
          · have := hple p hpp; rw [h.len] at this; omega
          · rw [e3, pathAt_snoc, if_neg (by omega), if_pos rfl]
      · rw [if_neg e3] at he'
        exact absurd he' (by simp)

theorem balanced_grow {root : String} {done : List Entry} {st : Store} {e : Entry}
    (h : Shape root done st) (hb : ∀ p, Balanced done st p 0)
    (hnd : ((done ++ [e]).map Entry.cleanPath).Nodup)
    (info : FileInfo) (hinfo : e.info = some info)
    {parent : Option Nat}
    (hp : ((e.cleanPath, st.heap.length) :: st.nodes).lookup (Dir e.cleanPath) = parent) :
    Balanced (done ++ [e]) (st.grow e.cleanPath info.isDir info.size parent)
      (Dir e.cleanPath) e.fileSize := by
  have hple := parent_le h hnd hp
  have hpar : ∀ m, parent = some m ↔ pathAt (done ++ [e]) m = some (Dir e.cleanPath) := by
    intro m
    rw [← hp]
    exact reg_snoc h hnd _ m
  have hfs : e.fileSize = if info.isDir = true then 0 else info.size := by
    unfold Entry.fileSize; rw [hinfo]
  intro i
  have hbi := hb "" i
  simp only [ite_self, add_zero] at hbi
  have hsize := Store.grow_size st e.cleanPath info.isDir info.size parent hple
  have hsum : (st.grow e.cleanPath info.isDir info.size parent).childSum i
      = st.childSum i + (if parent = some i then e.fileSize else 0) := by
    unfold Store.childSum
    rw [Store.grow_children st _ _ _ parent hple i, List.map_append, List.sum_append]
    have h1 : ((st.children i).map (st.grow e.cleanPath info.isDir info.size parent).size).sum
        = ((st.children i).map st.size).sum
          + ((st.children i).count st.heap.length : Int)
            * ((if info.isDir = true then 0 else info.size) - st.size st.heap.length) := by
      apply sum_map_update
      · rw [hsize, if_pos rfl]; ring
      · intro j hj; rw [hsize, if_neg hj]
    have h2 : (st.children i).count st.heap.length = 0 := by
      rw [h.kids i, isParentAt_false_of_le done i _ (by rw [h.len])]
      rfl
    rw [h1, h2]
    by_cases e2 : parent = some i
    · rw [if_pos e2, if_pos e2]
      simp only [List.map_cons, List.map_nil, List.sum_cons, List.sum_nil]
      rw [hsize, if_pos rfl, hfs]
      push_cast; ring
    · rw [if_neg e2, if_neg e2]
      simp
  rw [hsum, hsize, ownAt_snoc, h.len]
  by_cases e1 : i = done.length
  · rw [if_pos e1, if_pos e1, ← hfs]
    have hc0 : st.childSum i = 0 := by
      unfold Store.childSum
      rw [Store.children_of_le st i (by rw [h.len]; omega)]
      rfl
    rw [hc0]
    by_cases e2 : parent = some i
    · rw [if_pos e2, if_pos ((hpar i).mp e2)]
      have : e.fileSize + e.fileSize - (e.fileSize + (0 + e.fileSize)) = 0 := by ring
      rw [this]; exact dvd_zero _
    · rw [if_neg e2, if_neg (fun x => e2 ((hpar i).mpr x))]
      have : e.fileSize + 0 - (e.fileSize + (0 + 0)) = 0 := by ring
      rw [this]; exact dvd_zero _
  · rw [if_neg e1, if_neg e1]
    by_cases e2 : parent = some i
    · rw [if_pos e2, if_pos ((hpar i).mp e2)]
      have : st.size i + e.fileSize - (ownAt done i + (st.childSum i + e.fileSize))
          = st.size i - (ownAt done i + st.childSum i) := by ring
      rw [this]; exact hbi
    · rw [if_neg e2, if_neg (fun x => e2 ((hpar i).mpr x))]
      have : st.size i + 0 - (ownAt done i + (st.childSum i + 0))
          = st.size i - (ownAt done i + st.childSum i) := by ring
      rw [this]; exact hbi

/-- One call of the walk function that returns keeps shape and balance. -/
theorem walkFn_step {root : String} {fuel : Nat} {done : List Entry} {st st' : Store}
    {e : Entry} (h : Shape root done st) (hb : ∀ p, Balanced done st p 0)
    (hnd : ((done ++ [e]).map Entry.cleanPath).Nodup)
    (hrange : ∀ info, e.info = some info → 0 ≤ info.size ∧ info.size < 2 ^ 63)
    (hw : walkFn root fuel st e = .ok st') :
    Shape root (done ++ [e]) st' ∧ ∀ p, Balanced (done ++ [e]) st' p 0 := by
  cases hinfo : e.info with
  | none =>
    rw [walkFn_no_info root fuel st e hinfo] at hw
    exact absurd hw (by simp)
  | some info =>
    have hr := hrange info hinfo
    cases hp : ((e.cleanPath, st.heap.length) :: st.nodes).lookup (Dir e.cleanPath) with
    | none =>
      by_cases hroot : e.cleanPath = root
      · rw [walkFn_eq root fuel st e info none hinfo hp (fun _ => hroot)] at hw
        have hs := shape_grow h hnd info hinfo (by omega) hr.2 hp (fun _ => hroot)
        have hbg := balanced_grow h hb hnd info hinfo hp
        cases hd : info.isDir with
        | true =>
          rw [hd] at hw hs hbg
          rw [if_pos rfl] at hw
          injection hw with hw
          subst hw
          refine ⟨hs, ?_⟩
          have h0 : e.fileSize = 0 := by simp [Entry.fileSize, hinfo, hd]
          rw [h0] at hbg
          intro p i
          have := hbg i
          simp only [ite_self] at this ⊢
          exact this
        | false =>
          rw [hd] at hw hs hbg
          rw [if_neg (by decide)] at hw
          have h0 : e.fileSize = info.size := by simp [Entry.fileSize, hinfo, hd]
          rw [h0] at hbg
          exact propagateLoop_balanced root _ hnd info.size fuel _ _ st' hs hbg hw
      · rw [walkFn_unrooted root fuel st e info hinfo hp hroot] at hw
        exact absurd hw (by simp)
    | some p =>
      rw [walkFn_eq root fuel st e info (some p) hinfo hp (fun x => absurd x (by simp))] at hw
      have hs := shape_grow h hnd info hinfo (by omega) hr.2 hp (fun x => absurd x (by simp))
      have hbg := balanced_grow h hb hnd info hinfo hp
      cases hd : info.isDir with
      | true =>
        rw [hd] at hw hs hbg
        rw [if_pos rfl] at hw
        injection hw with hw
        subst hw
        refine ⟨hs, ?_⟩
        have h0 : e.fileSize = 0 := by simp [Entry.fileSize, hinfo, hd]
        rw [h0] at hbg
        intro p i
        have := hbg i
        simp only [ite_self] at this ⊢
        exact this
      | false =>
        rw [hd] at hw hs hbg
        rw [if_neg (by decide)] at hw
        have h0 : e.fileSize = info.size := by simp [Entry.fileSize, hinfo, hd]
        rw [h0] at hbg
        exact propagateLoop_balanced root _ hnd info.size fuel _ _ st' hs hbg hw

theorem shape_empty (root : String) : Shape root [] { heap := [], nodes := [] } := by
  refine ⟨rfl, ?_, ?_, ?_, ?_⟩
  · intro p i; simp [pathAt]
  · intro i e he; simp at he
  · intro m i; simp [Store.children, isParentAt]
  · intro i e he; simp at he

theorem balanced_empty (p : String) : Balanced [] { heap := [], nodes := [] } p 0 := by
  intro i
  simp [Store.size, Store.reference?, ownAt, Store.childSum, Store.children]

/-- The walk over a list of entries keeps shape and balance. -/
theorem filepathWalk_invariant (root : String) (fuel : Nat) :
    ∀ (es done : List Entry) (st st' : Store),
      Shape root done st → (∀ p, Balanced done st p 0) →
      ((done ++ es).map Entry.cleanPath).Nodup →
      SizesInRange es →
      filepathWalk root fuel es st = .ok st' →
      Shape root (done ++ es) st' ∧ ∀ p, Balanced (done ++ es) st' p 0 := by
  intro es
  induction es with
  | nil =>
    intro done st st' h hb _ _ hw
    simp only [filepathWalk] at hw
    injection hw with hw
    subst hw
    rw [List.append_nil]
    exact ⟨h, hb⟩
  | cons e es ih =>
    intro done st st' h hb hnd hrange hw
    unfold filepathWalk at hw
    cases hstep : walkFn root fuel st e with
    | error f => rw [hstep] at hw; exact absurd hw (by simp)
    | ok st1 =>
      rw [hstep] at hw
      simp only at hw
      have hnd1 : ((done ++ [e]).map Entry.cleanPath).Nodup := by
        have : done ++ e :: es = (done ++ [e]) ++ es := by simp
        rw [this, List.map_append] at hnd
        exact (List.nodup_append.mp hnd).1
      have hs := walkFn_step h hb hnd1
        (fun info hi => hrange e (List.mem_cons_self _ _) info hi) hstep
      have := ih (done ++ [e]) st1 st' hs.1 hs.2 (by simpa using hnd)
        (fun x hx => hrange x (List.mem_cons_of_mem _ hx)) hw
      simpa using this


/-! ## Pre-order sequences -/

theorem PreOrder.initial {root : String} {done es : List Entry}
    (h : PreOrder root (done ++ es)) : PreOrder root done := by
  intro i e he hne
  have hlt := get_lt_of_some he
  have he2 : (done ++ es)[i]? = some e := by
    rw [List.getElem?_append_left hlt]; exact he
  obtain ⟨j, d, hj, hd, hp⟩ := h i e he2 hne
  refine ⟨j, d, hj, ?_, hp⟩
  rw [List.getElem?_append_left (by omega)] at hd
  exact hd

theorem PreOrder.root_first {root : String} {done : List Entry}
    (h : PreOrder root done) {e : Entry} (he : done[0]? = some e) :
    e.cleanPath = root := by
  by_contra hne
  obtain ⟨j, _, hj, _, _⟩ := h 0 e he hne
  omega

theorem PreOrder.pathAt_zero {root : String} {done : List Entry}
    (h : PreOrder root done) (hlen : 0 < done.length) : pathAt done 0 = some root := by
  have he : done[0]? = some done[0] := List.getElem?_eq_getElem hlen
  exact pathAt_eq_some.mpr ⟨_, he, h.root_first he⟩

theorem PreOrder.parent {root : String} {done : List Entry}
    (h : PreOrder root done) {i : Nat} {q : String} (hq : pathAt done i = some q)
    (hne : q ≠ root) : ∃ j, j < i ∧ pathAt done j = some (Dir q) := by
  obtain ⟨e, he, hpe⟩ := pathAt_eq_some.mp hq
  obtain ⟨j, d, hj, hd, hp⟩ := h i e he (by rw [hpe]; exact hne)
  exact ⟨j, hj, pathAt_eq_some.mpr ⟨d, hd, by rw [hp, hpe]⟩⟩

/-- In a pre-order scan whose root has a registered containing directory, every
registered path has one. -/
theorem closed_of_preOrder {root : String} {done : List Entry} {st : Store}
    (h : Shape root done st) (hpre : PreOrder root done)
    (hroot : (st.nodes.lookup (Dir root)).isSome = true) :
    ∀ q, (st.nodes.lookup q).isSome = true → (st.nodes.lookup (Dir q)).isSome = true := by
  intro q hq
  by_cases e : q = root
  · rw [e]; exact hroot
  · obtain ⟨i, hi⟩ := (h.lookup_isSome q).mp hq
    obtain ⟨j, _, hj⟩ := hpre.parent hi e
    exact (h.lookup_isSome _).mpr ⟨j, hj⟩

/-! ## Termination of the loop and of the scan -/

theorem propagateLoop_terminates (root : String) (done : List Entry)
    (hnd : (done.map Entry.cleanPath).Nodup) (hpre : PreOrder root done)
    (hH : ∀ i, pathAt done i ≠ some (Dir root)) (s : Int) :
    ∀ (fuel : Nat) (cur : String) (st : Store),
      Shape root done st → 1 ≤ fuel →
      (∀ c, st.nodes.lookup cur = some c → c + 2 ≤ fuel) →
      ∃ st', propagateLoop s fuel cur st = .ok st' := by
  intro fuel
  induction fuel with
  | zero => intro cur st _ h1 _; omega
  | succ f ih =>
    intro cur st hshape _ hc
    unfold propagateLoop
    cases hl : st.nodes.lookup cur with
    | none => exact ⟨st, rfl⟩
    | some c =>
      simp only
      obtain ⟨sz, hr, _, _⟩ := hshape.reference_of_lookup hl
      rw [hr]
      simp only
      have hw := wrapInt64_range (sz + s)
      have hshape1 := hshape.update_size c ⟨cur, sz⟩ (wrapInt64 (sz + s)) hr hw.1 hw.2
      have hcf := hc c hl
      have hpc : pathAt done c = some cur := (hshape.reg cur c).mp hl
      refine ih (Dir cur) _ hshape1 (by omega) ?_
      intro c' hc'
      rw [Store.update_nodes] at hc'
      have hpc' : pathAt done c' = some (Dir cur) := (hshape.reg _ c').mp hc'
      by_cases e : cur = root
      · rw [e] at hpc'
        exact absurd hpc' (hH c')
      · obtain ⟨j, hj, hpj⟩ := hpre.parent hpc e
        have := pathAt_inj hnd hpc' hpj
        omega

theorem walkFn_terminates {root : String} {fuel : Nat} {done : List Entry} {st : Store}
    {e : Entry} (h : Shape root done st)
    (hnd : ((done ++ [e]).map Entry.cleanPath).Nodup)
    (hpre : PreOrder root (done ++ [e]))
    (hH : ∀ i, pathAt (done ++ [e]) i ≠ some (Dir root))
    (hinfo : e.info ≠ none)
    (hrange : ∀ info, e.info = some info → 0 ≤ info.size ∧ info.size < 2 ^ 63)
    (hfuel : done.length + 2 ≤ fuel) :
    ∃ st', walkFn root fuel st e = .ok st' := by
  cases hi : e.info with
  | none => exact absurd hi hinfo
  | some info =>
    have hr := hrange info hi
    have hlast : pathAt (done ++ [e]) done.length = some e.cleanPath := by
      rw [pathAt_snoc, if_neg (by omega), if_pos rfl]
    have hroot : ((e.cleanPath, st.heap.length) :: st.nodes).lookup (Dir e.cleanPath) = none
        → e.cleanPath = root := by
      intro hnone
      by_contra hne
      obtain ⟨j, _, hj⟩ := hpre.parent hlast hne
      rw [(reg_snoc h hnd _ j).mpr hj] at hnone
      exact absurd hnone (by simp)
    rw [walkFn_eq root fuel st e info _ hi rfl hroot]
    cases hd : info.isDir with
    | true => exact ⟨_, by rw [if_pos rfl]⟩
    | false =>
      rw [if_neg (by decide)]
      have hs := shape_grow h hnd info hi (by omega) hr.2 rfl hroot
      rw [hd] at hs
      refine propagateLoop_terminates root (done ++ [e]) hnd hpre hH info.size fuel _ _ hs
        (by omega) ?_
      intro c hc
      have := pathAt_lt ((hs.reg _ c).mp hc)
      rw [List.length_append, List.length_singleton] at this
      omega

theorem filepathWalk_terminates (root : String) (fuel : Nat) :
    ∀ (es done : List Entry) (st : Store),
      Shape root done st → (∀ p, Balanced done st p 0) →
      ((done ++ es).map Entry.cleanPath).Nodup →
      PreOrder root (done ++ es) →
      (∀ i, pathAt (done ++ es) i ≠ some (Dir root)) →
      AllStated es → SizesInRange es →
      (done ++ es).length + 1 ≤ fuel →
      ∃ st', filepathWalk root fuel es st = .ok st' := by
  intro es
  induction es with
  | nil => intro done st _ _ _ _ _ _ _ _; exact ⟨st, rfl⟩
  | cons e es ih =>
    intro done st h hb hnd hpre hH hall hrange hfuel
    have hsplit : done ++ e :: es = (done ++ [e]) ++ es := by simp
    rw [hsplit] at hnd hpre hH hfuel
    have hnd1 : ((done ++ [e]).map Entry.cleanPath).Nodup := by
      rw [List.map_append] at hnd
      exact (List.nodup_append.mp hnd).1
    have hH1 : ∀ i, pathAt (done ++ [e]) i ≠ some (Dir root) := by
      intro i hi
      have hlt := pathAt_lt hi
      obtain ⟨x, hx, hpx⟩ := pathAt_eq_some.mp hi
      refine hH i (pathAt_eq_some.mpr ⟨x, ?_, hpx⟩)
      rw [List.getElem?_append_left hlt]; exact hx
    have hre : ∀ info, e.info = some info → 0 ≤ info.size ∧ info.size < 2 ^ 63 :=
      fun info hi => hrange e (List.mem_cons_self _ _) info hi
    have hlen : done.length + 2 ≤ fuel := by
      simp only [List.length_append, List.length_cons, List.length_nil] at hfuel
      omega
    obtain ⟨st1, hst1⟩ := walkFn_terminates h hnd1 hpre.initial hH1
      (hall e (List.mem_cons_self _ _)) hre hlen
    have hs := walkFn_step h hb hnd1 hre hst1
    obtain ⟨st', hst'⟩ := ih (done ++ [e]) st1 hs.1 hs.2 hnd hpre hH
      (fun x hx => hall x (List.mem_cons_of_mem _ hx))
      (fun x hx => hrange x (List.mem_cons_of_mem _ hx)) hfuel
    refine ⟨st', ?_⟩
    unfold filepathWalk
    rw [hst1]
    exact hst'

/-- A pre-order scan below a root whose containing directory is not among the
entries returns, given fuel for one more step than there are entries. -/
theorem scan_terminates (root : String) (entries : List Entry)
    (hnd : (entries.map Entry.cleanPath).Nodup) (hrange : SizesInRange entries)
    (hpre : PreOrder root entries) (hall : AllStated entries)
    (hH : Dir root ∉ entries.map Entry.cleanPath)
    (fuel : Nat) (hfuel : entries.length + 1 ≤ fuel) :
    ∃ st, scan fuel root entries = .ok st := by
  unfold scan
  refine filepathWalk_terminates root fuel entries [] _ (shape_empty root)
    balanced_empty (by simpa using hnd) (by simpa using hpre) ?_ hall hrange
    (by simpa using hfuel)
  intro i hi
  apply hH
  obtain ⟨e, he, hpe⟩ := pathAt_eq_some.mp hi
  rw [List.nil_append] at he
  rw [List.mem_map]
  exact ⟨e, List.mem_iff_getElem?.mpr ⟨i, he⟩, hpe⟩


/-! ## The size of the root -/

/-- The loop adds `s` to the root exactly when it starts at a registered path. -/
theorem propagateLoop_root (root : String) (done : List Entry)
    (hnd : (done.map Entry.cleanPath).Nodup) (hpre : PreOrder root done) (s : Int) :
    ∀ (fuel : Nat) (cur : String) (st st' : Store),
      Shape root done st → propagateLoop s fuel cur st = .ok st' →
      (2 ^ 64 : Int) ∣
        st'.size 0 - (st.size 0 + if (st.nodes.lookup cur).isSome = true then s else 0) := by
  intro fuel
  induction fuel with
  | zero =>
    intro cur st st' _ h
    simp [propagateLoop] at h
  | succ f ih =>
    intro cur st st' hshape h
    unfold propagateLoop at h
    cases hl : st.nodes.lookup cur with
    | none =>
      rw [hl] at h
      simp only at h
      injection h with h
      subst h
      simp
    | some c =>
      rw [hl] at h
      simp only at h
      obtain ⟨sz, hr, _, _⟩ := hshape.reference_of_lookup hl
      rw [hr] at h
      simp only at h
      have hpc : pathAt done c = some cur := (hshape.reg cur c).mp hl
      have hclt := Store.reference?_lt st c _ hr
      have hw := wrapInt64_range (sz + s)
      have hwd := wrapInt64_dvd (sz + s)
      have hshape1 := hshape.update_size c ⟨cur, sz⟩ (wrapInt64 (sz + s)) hr hw.1 hw.2
      have hih := ih (Dir cur) _ st' hshape1 h
      rw [Store.update_nodes] at hih
      have hsize0 := Store.size_update st c 0
        (fun n => { n with reference := some { (⟨cur, sz⟩ : sizeinfo) with
          size := wrapInt64 (sz + s) } })
        ⟨cur, wrapInt64 (sz + s)⟩ hclt (fun _ => rfl)
      rw [hsize0] at hih
      dsimp only at hih
      have hszc : st.size c = sz := by
        unfold Store.size; rw [hr]
      have hlen : 0 < done.length := by
        have := pathAt_lt hpc; omega
      have hp0 := hpre.pathAt_zero hlen
      simp only [Option.isSome_some, if_true]
      by_cases e : c = 0
      · have hcur : cur = root := by
          rw [e, hp0] at hpc
          injection hpc with hpc
          exact hpc.symm
        have hnone : ¬ (st.nodes.lookup (Dir cur)).isSome = true := by
          intro hsome
          refine propagateLoop_closed s f (Dir cur) _ st' ?_ ?_ h
          · intro q hq
            rw [Store.update_nodes] at hq ⊢
            exact closed_of_preOrder hshape hpre (by rw [← hcur]; exact hsome) q hq
          · rw [Store.update_nodes]; exact hsome
        rw [if_neg hnone, if_pos e.symm] at hih
        rw [e] at hszc
        rw [hszc]
        omega
      · have hne : cur ≠ root := by
          intro hcur
          rw [hcur] at hpc
          exact e (pathAt_inj hnd hpc hp0)
        obtain ⟨j, _, hj⟩ := hpre.parent hpc hne
        have hsome : (st.nodes.lookup (Dir cur)).isSome = true :=
          (hshape.lookup_isSome _).mpr ⟨j, hj⟩
        rw [if_pos hsome, if_neg (fun x => e x.symm)] at hih
        exact hih

/-- One call of the walk function adds the file size of the entry to the root. -/
theorem walkFn_root {root : String} {fuel : Nat} {done : List Entry} {st st' : Store}
    {e : Entry} (h : Shape root done st)
    (hnd : ((done ++ [e]).map Entry.cleanPath).Nodup)
    (hpre : PreOrder root (done ++ [e]))
    (hrange : ∀ info, e.info = some info → 0 ≤ info.size ∧ info.size < 2 ^ 63)
    (hw : walkFn root fuel st e = .ok st') :
    (2 ^ 64 : Int) ∣ st'.size 0 - (st.size 0 + e.fileSize) := by
  cases hinfo : e.info with
  | none =>
    rw [walkFn_no_info root fuel st e hinfo] at hw
    exact absurd hw (by simp)
  | some info =>
    have hr := hrange info hinfo
    have hlast : pathAt (done ++ [e]) done.length = some e.cleanPath := by
      rw [pathAt_snoc, if_neg (by omega), if_pos rfl]
    have hroot : ((e.cleanPath, st.heap.length) :: st.nodes).lookup (Dir e.cleanPath) = none
        → e.cleanPath = root := by
      intro hnone
      by_contra hne
      obtain ⟨j, _, hj⟩ := hpre.parent hlast hne
      rw [(reg_snoc h hnd _ j).mpr hj] at hnone
      exact absurd hnone (by simp)
    rw [walkFn_eq root fuel st e info _ hinfo rfl hroot] at hw
    have hs := shape_grow h hnd info hinfo (by omega) hr.2 rfl hroot
    have hple := parent_le h hnd
      (rfl : ((e.cleanPath, st.heap.length) :: st.nodes).lookup (Dir e.cleanPath) = _)
    have hg0 := Store.grow_size st e.cleanPath info.isDir info.size _ hple 0
    have hp0 : pathAt (done ++ [e]) 0 = some root :=
      hpre.pathAt_zero (by rw [List.length_append, List.length_singleton]; omega)
    cases hd : info.isDir with
    | true =>
      rw [hd] at hw hg0
      rw [if_pos rfl] at hw
      injection hw with hw
      subst hw
      have h0 : e.fileSize = 0 := by simp [Entry.fileSize, hinfo, hd]
      rw [hg0, h0]
      by_cases e0 : 0 = st.heap.length
      · rw [if_pos e0, Store.size_of_le st 0 (by omega)]; simp
      · rw [if_neg e0]; simp
    | false =>
      rw [hd] at hw hg0 hs
      rw [if_neg (by decide)] at hw
      have h0 : e.fileSize = info.size := by simp [Entry.fileSize, hinfo, hd]
      have hloop := propagateLoop_root root (done ++ [e]) hnd hpre info.size fuel _ _ st'
        hs hw
      rw [hg0] at hloop
      rw [h0]
      by_cases e0 : 0 = st.heap.length
      · have hlen0 : done.length = 0 := by rw [← h.len]; exact e0.symm
        have hcur : e.cleanPath = root := by
          rw [hlen0, hp0] at hlast
          injection hlast with hlast
          exact hlast.symm
        have hnone : ¬ ((st.grow e.cleanPath false info.size
            (((e.cleanPath, st.heap.length) :: st.nodes).lookup (Dir e.cleanPath))).nodes.lookup
              (Dir e.cleanPath)).isSome = true := by
          intro hsome
          refine propagateLoop_closed info.size fuel (Dir e.cleanPath) _ st' ?_ hsome hw
          exact closed_of_preOrder hs hpre (by rw [← hcur]; exact hsome)
        rw [if_neg hnone, if_pos e0] at hloop
        rw [Store.size_of_le st 0 (by omega)]
        simp only [if_false, Bool.false_eq_true] at hloop
        omega
      · have hne : e.cleanPath ≠ root := by
          intro hcur
          rw [hcur] at hlast
          have := pathAt_inj hnd hlast hp0
          rw [h.len] at e0
          omega
        obtain ⟨j, _, hj⟩ := hpre.parent hlast hne
        have hsome := (hs.lookup_isSome _).mpr ⟨j, hj⟩
        rw [if_pos hsome, if_neg e0] at hloop
        exact hloop

theorem filepathWalk_root (root : String) (fuel : Nat) :
    ∀ (es done : List Entry) (st st' : Store),
      Shape root done st → (∀ p, Balanced done st p 0) →
      ((done ++ es).map Entry.cleanPath).Nodup →
      PreOrder root (done ++ es) → SizesInRange es →
      filepathWalk root fuel es st = .ok st' →
      (2 ^ 64 : Int) ∣ st'.size 0 - (st.size 0 + (es.map Entry.fileSize).sum) := by
  intro es
  induction es with
  | nil =>
    intro done st st' _ _ _ _ _ hw
    simp only [filepathWalk] at hw
    injection hw with hw
    subst hw
    simp
  | cons e es ih =>
    intro done st st' h hb hnd hpre hrange hw
    unfold filepathWalk at hw
    cases hstep : walkFn root fuel st e with
    | error f => rw [hstep] at hw; exact absurd hw (by simp)
    | ok st1 =>
      rw [hstep] at hw
      simp only at hw
      have hsplit : done ++ e :: es = (done ++ [e]) ++ es := by simp
      rw [hsplit] at hnd hpre
      have hnd1 : ((done ++ [e]).map Entry.cleanPath).Nodup := by
        rw [List.map_append] at hnd
        exact (List.nodup_append.mp hnd).1
      have hre : ∀ info, e.info = some info → 0 ≤ info.size ∧ info.size < 2 ^ 63 :=
        fun info hi => hrange e (List.mem_cons_self _ _) info hi
      have hs := walkFn_step h hb hnd1 hre hstep
      have h1 := walkFn_root h hnd1 hpre.initial hre hstep
      have h2 := ih (done ++ [e]) st1 st' hs.1 hs.2 hnd hpre
        (fun x hx => hrange x (List.mem_cons_of_mem _ hx)) hw
      simp only [List.map_cons, List.sum_cons]
      omega

/-! ## File nodes -/

theorem filepathWalk_stated (root : String) (fuel : Nat) :
    ∀ (es : List Entry) (st st' : Store),
      filepathWalk root fuel es st = .ok st' → AllStated es := by
  intro es
  induction es with
  | nil => intro _ _ _ e he; simp at he
  | cons e es ih =>
    intro st st' hw x hx
    unfold filepathWalk at hw
    cases hstep : walkFn root fuel st e with
    | error f => rw [hstep] at hw; exact absurd hw (by simp)
    | ok st1 =>
      rw [hstep] at hw
      simp only at hw
      rcases List.mem_cons.mp hx with hxe | hxs
      · subst hxe
        intro hnone
        rw [walkFn_no_info root fuel st x hnone] at hstep
        exact absurd hstep (by simp)
      · exact ih st1 st' hw x hxs

/-- A file entry that contains no entry keeps the size it was registered with. -/
theorem leaf_size {root : String} {done : List Entry} {st : Store}
    (h : Shape root done st) (hb : ∀ p, Balanced done st p 0)
    (hrange : SizesInRange done) (hleaves : FilesAreLeaves done)
    {i : Nat} {e : Entry} {info : FileInfo} (he : done[i]? = some e)
    (hinfo : e.info = some info) (hfile : info.isDir = false) :
    st.size i = info.size := by
  have hmem : e ∈ done := List.mem_iff_getElem?.mpr ⟨i, he⟩
  have hkids : st.children i = [] := by
    apply List.eq_nil_iff_forall_not_mem.mpr
    intro j hj
    have hcount : 0 < (st.children i).count j := List.count_pos_iff.mpr hj
    rw [h.kids i j] at hcount
    by_cases hp : isParentAt done i j = true
    · obtain ⟨_, q, hq, hiq⟩ := isParentAt_iff.mp hp
      obtain ⟨d, hd, hpd⟩ := pathAt_eq_some.mp hq
      obtain ⟨e2, he2, hpe2⟩ := pathAt_eq_some.mp hiq
      rw [he] at he2
      injection he2 with he2
      subst he2
      have := hleaves e hmem d (List.mem_iff_getElem?.mpr ⟨j, hd⟩) info hinfo hfile
      exact this (by rw [hpd, hpe2])
    · rw [if_neg hp] at hcount
      omega
  have hbi := hb "" i
  simp only [ite_self, add_zero] at hbi
  have hsum : st.childSum i = 0 := by
    unfold Store.childSum; rw [hkids]; rfl
  have hown : ownAt done i = info.size := by
    unfold ownAt; simp [he, Entry.fileSize, hinfo, hfile]
  rw [hsum, hown] at hbi
  have hr := h.size_range i
  have hr2 := hrange e hmem info hinfo
  omega

theorem fileTotal_eq {root : String} {done : List Entry} {st : Store}
    (h : Shape root done st) (hb : ∀ p, Balanced done st p 0)
    (hrange : SizesInRange done) (hleaves : FilesAreLeaves done)
    (hall : AllStated done) :
    st.fileTotal = (done.map Entry.fileSize).sum := by
  unfold Store.fileTotal
  congr 1
  apply List.ext_getElem?
  intro i
  rw [List.getElem?_map, List.getElem?_map]
  cases hd : done[i]? with
  | none =>
    have hlen : st.heap.length ≤ i := by
      rw [h.len]
      by_contra hlt
      rw [List.getElem?_eq_getElem (by omega)] at hd
      exact absurd hd (by simp)
    rw [List.getElem?_eq_none hlen]
    rfl
  | some e =>
    obtain ⟨n, sz, hn, hr, _, _, hs⟩ := h.ref i e hd
    have hmem : e ∈ done := List.mem_iff_getElem?.mpr ⟨i, hd⟩
    cases hinfo : e.info with
    | none => exact absurd hinfo (hall e hmem)
    | some info =>
      rw [hn]
      simp only [Option.map_some', Option.some.injEq]
      rw [hs info hinfo, hr]
      cases hdir : info.isDir with
      | true => simp [Entry.fileSize, hinfo, hdir]
      | false =>
        have hsz := leaf_size h hb hrange hleaves hd hinfo hdir
        have : st.size i = sz := by
          unfold Store.size Store.reference?
          simp only [hn, hr]
        simp [Entry.fileSize, hinfo, hdir]
        rw [← this, hsz]

theorem fileSize_sum_nonneg (entries : List Entry) (hrange : SizesInRange entries) :
    0 ≤ (entries.map Entry.fileSize).sum := by
  apply List.sum_nonneg
  intro x hx
  obtain ⟨e, he, hxe⟩ := List.mem_map.mp hx
  rw [← hxe]
  unfold Entry.fileSize
  cases hi : e.info with
  | none => exact le_refl _
  | some info =>
    simp only
    split_ifs
    · exact le_refl _
    · exact (hrange e he info hi).1


/-! ## Sizes without overflow -/

theorem balanced_of_exact {done : List Entry} {st : Store} {cur : String} {s : Int}
    (h : Exact done st cur s) : Balanced done st cur s := by
  intro i
  rw [h i, sub_self]
  exact dvd_zero _

/-- While the total stays below `2^63`, the loop adds exactly `s` to each node it
visits and ends with every node holding exactly its own size plus its children's. -/
theorem propagateLoop_exact (root : String) (done : List Entry)
    (hnd : (done.map Entry.cleanPath).Nodup) (s T : Int) (hs : 0 ≤ s)
    (hT : T + s < 2 ^ 63) :
    ∀ (fuel : Nat) (cur : String) (st st' : Store),
      Shape root done st → Exact done st cur s →
      (∀ i, 0 ≤ st.size i ∧ st.size i ≤ T + s) →
      (∀ i c, st.nodes.lookup cur = some c → i ≤ c → st.size i ≤ T) →
      propagateLoop s fuel cur st = .ok st' →
      (∀ p, Exact done st' p 0) ∧ (∀ i, 0 ≤ st'.size i ∧ st'.size i ≤ T + s) := by
  intro fuel
  induction fuel with
  | zero =>
    intro cur st st' _ _ _ _ h
    simp [propagateLoop] at h
  | succ f ih =>
    intro cur st st' hshape hex hbnd hold h
    unfold propagateLoop at h
    cases hl : st.nodes.lookup cur with
    | none =>
      rw [hl] at h
      simp only at h
      injection h with h
      subst h
      refine ⟨?_, hbnd⟩
      intro p i
      have hb := hex i
      have hne : ¬ pathAt done i = some cur := by
        intro hp
        rw [(hshape.reg cur i).mpr hp] at hl
        exact absurd hl (by simp)
      rw [if_neg hne] at hb
      simp only [ite_self]
      exact hb
    | some c =>
      rw [hl] at h
      simp only at h
      obtain ⟨sz, hr, _, _⟩ := hshape.reference_of_lookup hl
      rw [hr] at h
      simp only at h
      have hpc : pathAt done c = some cur := (hshape.reg cur c).mp hl
      have hclt := Store.reference?_lt st c _ hr
      have hszc : st.size c = sz := by
        unfold Store.size; rw [hr]
      have hsz0 : 0 ≤ sz := by rw [← hszc]; exact (hbnd c).1
      have hszT : sz ≤ T := by rw [← hszc]; exact hold c c hl (le_refl c)
      have hweq : wrapInt64 (sz + s) = sz + s :=
        wrapInt64_of_range _ (by omega) (by omega)
      have hw := wrapInt64_range (sz + s)
      have hshape1 := hshape.update_size c ⟨cur, sz⟩ (wrapInt64 (sz + s)) hr hw.1 hw.2
      by_cases hbad : ∃ m, pathAt done m = some (Dir cur) ∧ ¬ m ≤ c
      · exfalso
        obtain ⟨m, hm, hmc⟩ := hbad
        have hroot : cur = root := by
          obtain ⟨e, he, hpe⟩ := pathAt_eq_some.mp hpc
          rcases hshape.par c e he with hr0 | ⟨m', hm'⟩
          · rw [← hpe]; exact hr0
          · obtain ⟨hle, q, hq, hmq⟩ := isParentAt_iff.mp hm'
            rw [hpc] at hq
            injection hq with hq
            subst hq
            have := pathAt_inj hnd hmq hm
            omega
        refine propagateLoop_closed s f (Dir cur) _ st' ?_ ?_ h
        · intro q hq
          rw [Store.update_nodes] at hq ⊢
          obtain ⟨i, hi⟩ := (hshape.lookup_isSome q).mp hq
          obtain ⟨e, he, hpe⟩ := pathAt_eq_some.mp hi
          rcases hshape.par i e he with hr0 | ⟨m', hm'⟩
          · have : q = cur := by rw [← hpe, hr0, hroot]
            rw [this]
            exact (hshape.lookup_isSome _).mpr ⟨m, hm⟩
          · obtain ⟨_, q', hq', hmq⟩ := isParentAt_iff.mp hm'
            rw [hi] at hq'
            injection hq' with hq'
            subst hq'
            exact (hshape.lookup_isSome _).mpr ⟨m', hmq⟩
        · rw [Store.update_nodes]
          exact (hshape.lookup_isSome _).mpr ⟨m, hm⟩
      · by_cases hfix : Dir cur = cur
        · exfalso
          rw [hfix] at h
          have hfp := propagateLoop_fixpoint s cur hfix f
            (st.update c fun n =>
              { n with reference := some { (⟨cur, sz⟩ : sizeinfo) with
                  size := wrapInt64 (sz + s) } }) c
            (by rw [Store.update_nodes]; exact hl)
            (by
              rw [Store.reference?_update st c c _
                (some ⟨cur, wrapInt64 (sz + s)⟩) hclt (fun _ => rfl)]
              simp)
          rw [hfp] at h
          exact absurd h (by simp)
        · have hgood : ∀ m, pathAt done m = some (Dir cur) → m < c := by
            intro m hm
            have hle : m ≤ c := by
              by_contra hle
              exact hbad ⟨m, hm, hle⟩
            have hne : m ≠ c := by
              intro e
              rw [e, hpc] at hm
              injection hm with hm
              exact hfix hm.symm
            omega
          have hsize : ∀ j, (st.update c fun n =>
              { n with reference := some { (⟨cur, sz⟩ : sizeinfo) with
                  size := wrapInt64 (sz + s) } }).size j
              = if j = c then sz + s else st.size j := by
            intro j
            rw [Store.size_update st c j _ ⟨cur, wrapInt64 (sz + s)⟩ hclt (fun _ => rfl)]
            simp only [hweq]
          refine ih (Dir cur) _ st' hshape1 ?_ ?_ ?_ h
          · intro i
            have hb := hex i
            have hkids : (st.update c fun n =>
                { n with reference := some { (⟨cur, sz⟩ : sizeinfo) with
                    size := wrapInt64 (sz + s) } }).children i = st.children i :=
              Store.children_update st c i _ (fun _ => rfl)
            have hsum : (st.update c fun n =>
                { n with reference := some { (⟨cur, sz⟩ : sizeinfo) with
                    size := wrapInt64 (sz + s) } }).childSum i
                = st.childSum i + ((st.children i).count c : Int) * s := by
              unfold Store.childSum
              rw [hkids]
              apply sum_map_update
              · rw [hsize c, if_pos rfl, hszc]
              · intro j hj; rw [hsize j, if_neg hj]
            rw [hsum, hsize i, hshape.kids i c]
            have hpar : isParentAt done i c = true ↔ pathAt done i = some (Dir cur) := by
              rw [isParentAt_iff]
              constructor
              · rintro ⟨_, q, hq, hiq⟩
                rw [hpc] at hq
                injection hq with hq
                subst hq
                exact hiq
              · intro hi
                exact ⟨le_of_lt (hgood i hi), cur, hpc, hi⟩
            have hcur : pathAt done i = some cur ↔ i = c := by
              constructor
              · intro hi; exact pathAt_inj hnd hi hpc
              · intro hi; rw [hi]; exact hpc
            by_cases e1 : i = c
            · have e1' := hcur.mpr e1
              rw [if_pos e1'] at hb
              rw [if_pos e1]
              rw [e1] at hb
              rw [hszc] at hb
              have e2 : ¬ pathAt done i = some (Dir cur) := by
                intro hp
                have := hgood i hp
                omega
              rw [if_neg e2, if_neg (fun x => e2 (hpar.mp x))]
              rw [e1]
              push_cast
              omega
            · have e1' : ¬ pathAt done i = some cur := fun x => e1 (hcur.mp x)
              rw [if_neg e1'] at hb
              rw [if_neg e1]
              by_cases e2 : pathAt done i = some (Dir cur)
              · rw [if_pos e2, if_pos (hpar.mpr e2)]
                push_cast
                omega
              · rw [if_neg e2, if_neg (fun x => e2 (hpar.mp x))]
                push_cast
                omega
          · intro i
            rw [hsize i]
            by_cases e1 : i = c
            · rw [if_pos e1]; omega
            · rw [if_neg e1]; exact hbnd i
          · intro i c' hc' hic
            rw [Store.update_nodes] at hc'
            have := hgood c' ((hshape.reg _ c').mp hc')
            rw [hsize i, if_neg (by omega)]
            exact hold i c hl (by omega)

theorem exact_grow {root : String} {done : List Entry} {st : Store} {e : Entry}
    (h : Shape root done st) (hb : ∀ p, Exact done st p 0)
    (hnd : ((done ++ [e]).map Entry.cleanPath).Nodup)
    (info : FileInfo) (hinfo : e.info = some info)
    {parent : Option Nat}
    (hp : ((e.cleanPath, st.heap.length) :: st.nodes).lookup (Dir e.cleanPath) = parent) :
    Exact (done ++ [e]) (st.grow e.cleanPath info.isDir info.size parent)
      (Dir e.cleanPath) e.fileSize := by
  have hple := parent_le h hnd hp
  have hpar : ∀ m, parent = some m ↔ pathAt (done ++ [e]) m = some (Dir e.cleanPath) := by
    intro m
    rw [← hp]
    exact reg_snoc h hnd _ m
  have hfs : e.fileSize = if info.isDir = true then 0 else info.size := by
    unfold Entry.fileSize; rw [hinfo]
  intro i
  have hbi := hb "" i
  simp only [ite_self, add_zero] at hbi
  have hsize := Store.grow_size st e.cleanPath info.isDir info.size parent hple
  have hsum : (st.grow e.cleanPath info.isDir info.size parent).childSum i
      = st.childSum i + (if parent = some i then e.fileSize else 0) := by
    unfold Store.childSum
    rw [Store.grow_children st _ _ _ parent hple i, List.map_append, List.sum_append]
    have h1 : ((st.children i).map (st.grow e.cleanPath info.isDir info.size parent).size).sum
        = ((st.children i).map st.size).sum
          + ((st.children i).count st.heap.length : Int)
            * ((if info.isDir = true then 0 else info.size) - st.size st.heap.length) := by
      apply sum_map_update
      · rw [hsize, if_pos rfl]; ring
      · intro j hj; rw [hsize, if_neg hj]
    have h2 : (st.children i).count st.heap.length = 0 := by
      rw [h.kids i, isParentAt_false_of_le done i _ (by rw [h.len])]
      rfl
    rw [h1, h2]
    by_cases e2 : parent = some i
    · rw [if_pos e2, if_pos e2]
      simp only [List.map_cons, List.map_nil, List.sum_cons, List.sum_nil]
      rw [hsize, if_pos rfl, hfs]
      push_cast; ring
    · rw [if_neg e2, if_neg e2]
      simp
  rw [hsum, hsize, ownAt_snoc, h.len]
  by_cases e1 : i = done.length
  · rw [if_pos e1, if_pos e1, ← hfs]
    have hc0 : st.childSum i = 0 := by
      unfold Store.childSum
      rw [Store.children_of_le st i (by rw [h.len]; omega)]
      rfl
    rw [hc0]
    by_cases e2 : parent = some i
    · rw [if_pos e2, if_pos ((hpar i).mp e2)]; ring
    · rw [if_neg e2, if_neg (fun x => e2 ((hpar i).mpr x))]; ring
  · rw [if_neg e1, if_neg e1]
    by_cases e2 : parent = some i
    · rw [if_pos e2, if_pos ((hpar i).mp e2)]; linarith
    · rw [if_neg e2, if_neg (fun x => e2 ((hpar i).mpr x))]; linarith

/-- One call of the walk function, while the total stays below `2^63`. -/
theorem walkFn_exact {root : String} {fuel : Nat} {done : List Entry} {st st' : Store}
    {e : Entry} (T : Int) (h : Shape root done st) (hx : ∀ p, Exact done st p 0)
    (hbnd : ∀ i, 0 ≤ st.size i ∧ st.size i ≤ T) (hT0 : 0 ≤ T)
    (hnd : ((done ++ [e]).map Entry.cleanPath).Nodup)
    (hrange : ∀ info, e.info = some info → 0 ≤ info.size ∧ info.size < 2 ^ 63)
    (hT : T + e.fileSize < 2 ^ 63)
    (hw : walkFn root fuel st e = .ok st') :
    (∀ p, Exact (done ++ [e]) st' p 0) ∧
    (∀ i, 0 ≤ st'.size i ∧ st'.size i ≤ T + e.fileSize) := by
  cases hinfo : e.info with
  | none =>
    rw [walkFn_no_info root fuel st e hinfo] at hw
    exact absurd hw (by simp)
  | some info =>
    have hr := hrange info hinfo
    have hroot : ((e.cleanPath, st.heap.length) :: st.nodes).lookup (Dir e.cleanPath) = none
        → e.cleanPath = root := by
      intro hnone
      by_contra hne
      rw [walkFn_unrooted root fuel st e info hinfo hnone hne] at hw
      exact absurd hw (by simp)
    rw [walkFn_eq root fuel st e info _ hinfo rfl hroot] at hw
    have hs := shape_grow h hnd info hinfo (by omega) hr.2 rfl hroot
    have hxg := exact_grow h hx hnd info hinfo
      (rfl : ((e.cleanPath, st.heap.length) :: st.nodes).lookup (Dir e.cleanPath) = _)
    have hple := parent_le h hnd
      (rfl : ((e.cleanPath, st.heap.length) :: st.nodes).lookup (Dir e.cleanPath) = _)
    have hsize := Store.grow_size st e.cleanPath info.isDir info.size _ hple
    have hfs : e.fileSize = if info.isDir = true then 0 else info.size := by
      unfold Entry.fileSize; rw [hinfo]
    have hfs0 : 0 ≤ e.fileSize := by
      rw [hfs]; split_ifs
      · exact le_refl _
      · exact hr.1
    have hbg : ∀ i, 0 ≤ (st.grow e.cleanPath info.isDir info.size
        (((e.cleanPath, st.heap.length) :: st.nodes).lookup (Dir e.cleanPath))).size i ∧
        (st.grow e.cleanPath info.isDir info.size
        (((e.cleanPath, st.heap.length) :: st.nodes).lookup (Dir e.cleanPath))).size i
          ≤ T + e.fileSize := by
      intro i
      rw [hsize i]
      by_cases e1 : i = st.heap.length
      · rw [if_pos e1, ← hfs]; omega
      · rw [if_neg e1]
        have := hbnd i
        omega
    cases hd : info.isDir with
    | true =>
      rw [hd] at hw hxg hbg
      rw [if_pos rfl] at hw
      injection hw with hw
      subst hw
      refine ⟨?_, hbg⟩
      have h0 : e.fileSize = 0 := by simp [Entry.fileSize, hinfo, hd]
      rw [h0] at hxg
      intro p i
      have := hxg i
      simp only [ite_self] at this ⊢
      exact this
    | false =>
      rw [hd] at hw hs hxg hbg hsize
      rw [if_neg (by decide)] at hw
      have h0 : e.fileSize = info.size := by simp [Entry.fileSize, hinfo, hd]
      rw [h0] at hxg hbg hT ⊢
      by_cases hfix : Dir e.cleanPath = e.cleanPath
      · exfalso
        have hfix2 : Dir (Dir e.cleanPath) = Dir e.cleanPath := congrArg Dir hfix
        have hlk : (st.grow e.cleanPath false info.size
            (((e.cleanPath, st.heap.length) :: st.nodes).lookup (Dir e.cleanPath))).nodes.lookup
              (Dir e.cleanPath) = some st.heap.length := by
          rw [Store.grow_nodes, lookup_cons_eq, if_pos hfix]
        obtain ⟨sz, hrf, _, _⟩ := hs.reference_of_lookup hlk
        have hfp := propagateLoop_fixpoint info.size (Dir e.cleanPath) hfix2 fuel _ _ hlk
          (by rw [hrf]; rfl)
        rw [hfp] at hw
        exact absurd hw (by simp)
      · refine propagateLoop_exact root (done ++ [e]) hnd info.size T hr.1 hT fuel _ _ st'
          hs hxg hbg ?_ hw
        intro i c hc hic
        rw [Store.grow_nodes, lookup_cons_eq, if_neg hfix] at hc
        have hclt := pathAt_lt ((h.reg _ c).mp hc)
        rw [hsize i, if_neg (by rw [h.len]; omega)]
        exact (hbnd i).2

theorem filepathWalk_exact (root : String) (fuel : Nat) :
    ∀ (es done : List Entry) (st st' : Store) (T : Int),
      Shape root done st → (∀ p, Exact done st p 0) →
      (∀ i, 0 ≤ st.size i ∧ st.size i ≤ T) → 0 ≤ T →
      ((done ++ es).map Entry.cleanPath).Nodup →
      SizesInRange es → T + (es.map Entry.fileSize).sum < 2 ^ 63 →
      filepathWalk root fuel es st = .ok st' →
      ∀ p, Exact (done ++ es) st' p 0 := by
  intro es
  induction es with
  | nil =>
    intro done st st' T _ hx _ _ _ _ _ hw
    simp only [filepathWalk] at hw
    injection hw with hw
    subst hw
    rw [List.append_nil]
    exact hx
  | cons e es ih =>
    intro done st st' T h hx hbnd hT0 hnd hrange hT hw
    unfold filepathWalk at hw
    cases hstep : walkFn root fuel st e with
    | error f => rw [hstep] at hw; exact absurd hw (by simp)
    | ok st1 =>
      rw [hstep] at hw
      simp only at hw
      have hsplit : done ++ e :: es = (done ++ [e]) ++ es := by simp
      rw [hsplit] at hnd ⊢
      have hnd1 : ((done ++ [e]).map Entry.cleanPath).Nodup := by
        rw [List.map_append] at hnd
        exact (List.nodup_append.mp hnd).1
      have hre : ∀ info, e.info = some info → 0 ≤ info.size ∧ info.size < 2 ^ 63 :=
        fun info hi => hrange e (List.mem_cons_self _ _) info hi
      have hrest : SizesInRange es := fun x hx => hrange x (List.mem_cons_of_mem _ hx)
      have hsum0 := fileSize_sum_nonneg es hrest
      have hfs0 : 0 ≤ e.fileSize := by
        have := fileSize_sum_nonneg [e] (fun x hx => by
          rw [List.mem_singleton] at hx; rw [hx]; exact hre)
        simpa using this
      simp only [List.map_cons, List.sum_cons] at hT
      have hs := walkFn_step h (fun p => balanced_of_exact (hx p)) hnd1 hre hstep
      have hx1 := walkFn_exact T h hx hbnd hT0 hnd1 hre (by omega) hstep
      exact ih (done ++ [e]) st1 st' (T + e.fileSize) hs.1 hx1.1 hx1.2 (by omega) hnd
        hrest (by omega) hw


/-! ## Checks on concrete entry lists -/

theorem preOrder_of_check (root : String) (entries : List Entry)
    (h : preOrderCheck root entries = true) : PreOrder root entries := by
  intro i e he hne
  unfold preOrderCheck at h
  rw [List.all_eq_true] at h
  have hi := h i (List.mem_range.mpr (get_lt_of_some he))
  rw [he] at hi
  simp only [Bool.or_eq_true, decide_eq_true_eq] at hi
  rcases hi with hi | hi
  · exact absurd hi hne
  · rw [List.any_eq_true] at hi
    obtain ⟨j, hj, hd⟩ := hi
    cases hdj : entries[j]? with
    | none => rw [hdj] at hd; exact absurd hd (by simp)
    | some d =>
      rw [hdj] at hd
      exact ⟨j, d, List.mem_range.mp hj, hdj, by simpa using hd⟩

theorem sizesInRange_scenario : SizesInRange scenarioEntries := by
  intro e he info hi
  simp only [scenarioEntries, List.mem_cons, List.mem_singleton, List.not_mem_nil,
    or_false] at he
  rcases he with rfl | rfl | rfl | rfl <;>
  · simp only [Option.some.injEq] at hi
    subst hi
    constructor <;> decide

theorem sizesInRange_overflow : SizesInRange overflowEntries := by
  intro e he info hi
  simp only [overflowEntries, List.mem_cons, List.mem_singleton, List.not_mem_nil,
    or_false] at he
  rcases he with rfl | rfl | rfl <;>
  · simp only [Option.some.injEq] at hi
    subst hi
    constructor <;> decide

theorem filesAreLeaves_scenario : FilesAreLeaves scenarioEntries := by
  intro e he d hd info hi hfile
  simp only [scenarioEntries, List.mem_cons, List.mem_singleton, List.not_mem_nil,
    or_false] at he hd
  rcases he with rfl | rfl | rfl | rfl <;>
  · simp only [Option.some.injEq] at hi
    subst hi
    first
    | exact absurd hfile (by decide)
    | (rcases hd with rfl | rfl | rfl | rfl <;> decide)

/-! ## C1 -/

/-- C1 fails as stated: the sizes are `int64` values and the sum wraps. The entries
`/r`, `/r/a` (`2^63 - 1` bytes) and `/r/b` (1 byte) have distinct paths, come in
pre-order and have non-negative sizes; after the scan the root holds `-2^63`, while
the sizes of its children `a` and `b` add up to `2^63`. -/
theorem scan_directory_size_counterexample :
    (overflowEntries.map Entry.cleanPath).Nodup ∧ PreOrder "/r" overflowEntries ∧
    SizesInRange overflowEntries ∧
    ∃ st, scan 5 "/r" overflowEntries = .ok st ∧ st.children 0 = [1, 2] ∧
      st.size 0 = -9223372036854775808 ∧
      ((st.children 0).map st.size).sum = 9223372036854775808 ∧
      st.size 0 ≠ ((st.children 0).map st.size).sum :=
  ⟨by decide, preOrder_of_check _ _ (by decide), sizesInRange_overflow,
   _, rfl, rfl, rfl, rfl, by decide⟩

/-- C1, amended. After the scan of an entry sequence with distinct paths in which
every entry other than the root comes after its containing directory (file sizes
non-negative, directories starting at 0), every Directory node `D` satisfies
`size(D) = Σ size(c)` over its children `c` when the file sizes total less than
`2^63`, and in any case holds that sum in `int64` arithmetic (the sum wrapped to
64 bits). The scan returns, with fuel for one step more than there are entries,
when every entry has a file info and the containing directory of the root is not
itself an entry. -/
theorem scan_directory_size (root : String) (entries : List Entry)
    (hnd : (entries.map Entry.cleanPath).Nodup) (hpre : PreOrder root entries)
    (hrange : SizesInRange entries) :
    ((entries.map Entry.fileSize).sum < 2 ^ 63 →
      ∀ (fuel : Nat) (st : Store), scan fuel root entries = .ok st →
        ∀ (id : Nat) (n : TreeNode), st.heap[id]? = some n → n.selectable = true →
          st.size id = (n.children.map st.size).sum) ∧
    (∀ (fuel : Nat) (st : Store), scan fuel root entries = .ok st →
      ∀ (id : Nat) (n : TreeNode), st.heap[id]? = some n → n.selectable = true →
        st.size id = wrapInt64 ((n.children.map st.size).sum)) ∧
    (AllStated entries → Dir root ∉ entries.map Entry.cleanPath →
      ∀ fuel, entries.length + 1 ≤ fuel → ∃ st, scan fuel root entries = .ok st) := by
  have hdir : ∀ (fuel : Nat) (st : Store), scan fuel root entries = .ok st →
      ∀ (id : Nat) (n : TreeNode), st.heap[id]? = some n → n.selectable = true →
        Shape root entries st ∧ ownAt entries id = 0 ∧
        st.childSum id = (n.children.map st.size).sum := by
    intro fuel st hscan id n hn hsel
    unfold scan at hscan
    obtain ⟨hshape, _⟩ := filepathWalk_invariant root fuel entries [] _ st
      (shape_empty root) balanced_empty (by simpa using hnd) hrange hscan
    rw [List.nil_append] at hshape
    have hlt : id < entries.length := by
      rw [← hshape.len]
      by_contra hge
      rw [List.getElem?_eq_none (by omega)] at hn
      exact absurd hn (by simp)
    have he : entries[id]? = some entries[id] := List.getElem?_eq_getElem hlt
    obtain ⟨n', sz, hn', _, _, _, hs⟩ := hshape.ref id _ he
    rw [hn] at hn'
    injection hn' with hn'
    subst hn'
    refine ⟨hshape, ?_, ?_⟩
    · unfold ownAt
      rw [he]
      simp only
      unfold Entry.fileSize
      cases hi : (entries[id]).info with
      | none => rfl
      | some info =>
        have := hs info hi
        rw [hsel] at this
        simp [← this]
    · unfold Store.childSum Store.children
      rw [hn]
  refine ⟨?_, ?_, fun hall hH fuel hfuel =>
    scan_terminates root entries hnd hrange hpre hall hH fuel hfuel⟩
  · intro htotal fuel st hscan id n hn hsel
    obtain ⟨_, hown, hsum⟩ := hdir fuel st hscan id n hn hsel
    unfold scan at hscan
    have hx := filepathWalk_exact root fuel entries [] _ st 0
      (shape_empty root)
      (fun p i => by
        simp [Store.size, Store.reference?, ownAt, Store.childSum, Store.children])
      (fun i => by simp [Store.size, Store.reference?])
      (le_refl 0) (by simpa using hnd) hrange (by simpa using htotal) hscan
    rw [List.nil_append] at hx
    have hb := hx "" id
    simp only [ite_self, add_zero] at hb
    rw [hown, hsum, zero_add] at hb
    exact hb
  · intro fuel st hscan id n hn hsel
    obtain ⟨hshape, hown, hsum⟩ := hdir fuel st hscan id n hn hsel
    unfold scan at hscan
    obtain ⟨_, hbal⟩ := filepathWalk_invariant root fuel entries [] _ st
      (shape_empty root) balanced_empty (by simpa using hnd) hrange hscan
    rw [List.nil_append] at hbal
    have hb := hbal "" id
    simp only [ite_self, add_zero] at hb
    rw [hown, hsum] at hb
    have hr := hshape.size_range id
    exact eq_wrapInt64_of_dvd (st.size id) ((n.children.map st.size).sum) hr.1 hr.2
      (by simpa using hb)

/-- C1 (amended) on the scenario of the specification: the root holds 2548, the sum of the
sizes of its children `x` (500) and `Y` (2048). -/
theorem scan_directory_size_witness :
    scan 5 "/r" scenarioEntries = .ok scenarioStore ∧
    scenarioStore.size 0 = ([1, 2].map scenarioStore.size).sum ∧
    scenarioStore.size 0 = 2548 ∧
    [1, 2].map scenarioStore.size = [500, 2048] :=
  ⟨rfl,
   (scan_directory_size "/r" scenarioEntries (by decide)
      (preOrder_of_check _ _ (by decide)) sizesInRange_scenario).1 (by decide)
      5 scenarioStore rfl 0 _ rfl rfl,
   by decide, by decide⟩

/-! ## C2 -/

/-- C2 fails as stated: the sizes are `int64` values and the sum wraps. After the
scan of `/r`, `/r/a` (`2^63 - 1` bytes) and `/r/b` (1 byte), a pre-order sequence
with distinct paths, the root holds `-2^63`, while the sizes of the files under it,
as reported and as held by the File nodes, add up to `2^63`. -/
theorem scan_root_size_counterexample :
    (overflowEntries.map Entry.cleanPath).Nodup ∧ PreOrder "/r" overflowEntries ∧
    ∃ st, scan 5 "/r" overflowEntries = .ok st ∧ st.nodes.lookup "/r" = some 0 ∧
      st.size 0 = -9223372036854775808 ∧
      (overflowEntries.map Entry.fileSize).sum = 9223372036854775808 ∧
      st.fileTotal = 9223372036854775808 ∧ st.size 0 ≠ st.fileTotal :=
  ⟨by decide, preOrder_of_check _ _ (by decide), _, rfl, rfl, rfl, rfl, rfl, by decide⟩

/-- C2, amended. After the scan of a pre-order entry sequence with distinct paths,
the root holds the sum of the sizes of all file entries when that sum is below
`2^63`, and in any case that sum in `int64` arithmetic (wrapped to 64 bits); when
no entry lies in a file, as in every file system, the sum over the file entries is
the sum of the sizes held by the File nodes. The scan returns under the conditions
given in C1. -/
theorem scan_root_size (root : String) (entries : List Entry)
    (hnd : (entries.map Entry.cleanPath).Nodup) (hpre : PreOrder root entries)
    (hrange : SizesInRange entries) :
    (∀ (fuel : Nat) (st : Store), scan fuel root entries = .ok st →
      ∀ r, st.nodes.lookup root = some r →
        st.size r = wrapInt64 ((entries.map Entry.fileSize).sum) ∧
        ((entries.map Entry.fileSize).sum < 2 ^ 63 →
          st.size r = (entries.map Entry.fileSize).sum) ∧
        (FilesAreLeaves entries → (entries.map Entry.fileSize).sum = st.fileTotal)) ∧
    (AllStated entries → Dir root ∉ entries.map Entry.cleanPath →
      ∀ fuel, entries.length + 1 ≤ fuel → ∃ st, scan fuel root entries = .ok st) := by
  refine ⟨?_, fun hall hH fuel hfuel =>
    scan_terminates root entries hnd hrange hpre hall hH fuel hfuel⟩
  intro fuel st hscan r hr
  unfold scan at hscan
  obtain ⟨hshape, hbal⟩ := filepathWalk_invariant root fuel entries [] _ st
    (shape_empty root) balanced_empty (by simpa using hnd) hrange hscan
  have hroot := filepathWalk_root root fuel entries [] _ st
    (shape_empty root) balanced_empty (by simpa using hnd) (by simpa using hpre)
    hrange hscan
  have hall := filepathWalk_stated root fuel entries _ st hscan
  rw [List.nil_append] at hshape hbal
  have hr0 : r = 0 := by
    have hpr := (hshape.reg root r).mp hr
    exact pathAt_inj hnd hpr (hpre.pathAt_zero (by have := pathAt_lt hpr; omega))
  subst hr0
  have hs0 : ({ heap := [], nodes := [] } : Store).size 0 = 0 := rfl
  rw [hs0, zero_add] at hroot
  have hrg := hshape.size_range 0
  have hw := eq_wrapInt64_of_dvd (st.size 0) _ hrg.1 hrg.2 hroot
  refine ⟨hw, fun h2 => ?_, fun hleaves => ?_⟩
  · rw [hw]
    exact wrapInt64_of_range _ (by have := fileSize_sum_nonneg entries hrange; omega) h2
  · exact (fileTotal_eq hshape hbal hrange hleaves hall).symm

/-- C2 (amended) on the scenario of the specification: `size(root) = 2548 = 500 + 2048`, and
`size(Y) = 2048`. -/
theorem scan_root_size_witness :
    scan 5 "/r" scenarioEntries = .ok scenarioStore ∧
    scenarioStore.nodes.lookup "/r" = some 0 ∧
    scenarioStore.nodes.lookup "/r/Y" = some 2 ∧
    scenarioStore.size 0 = 2548 ∧ scenarioStore.size 2 = 2048 ∧
    scenarioStore.size 0 = wrapInt64 ((scenarioEntries.map Entry.fileSize).sum) ∧
    (scenarioEntries.map Entry.fileSize).sum = scenarioStore.fileTotal :=
  ⟨rfl, by decide, by decide, by decide, by decide,
   ((scan_root_size "/r" scenarioEntries (by decide)
      (preOrder_of_check _ _ (by decide)) sizesInRange_scenario).1
      5 scenarioStore rfl 0 (by decide)).1,
   ((scan_root_size "/r" scenarioEntries (by decide)
      (preOrder_of_check _ _ (by decide)) sizesInRange_scenario).1
      5 scenarioStore rfl 0 (by decide)).2.2 filesAreLeaves_scenario⟩

/-! ## C3 -/

/-- C3 fails on the code. The roots `.` and `/` are cleaned paths and are their own
containing directory; in the pre-order scan of such a root with one file below it,
the ancestor walk of `propagateSize` reaches the root and stays there: the scan runs
out of fuel whatever the fuel. -/
theorem propagateSize_diverges_at_fixed_root :
    Clean "." = "." ∧ Dir "." = "." ∧ Clean "/" = "/" ∧ Dir "/" = "/" ∧
    (dotEntries.map Entry.cleanPath).Nodup ∧ preOrderCheck "." dotEntries = true ∧
    (slashEntries.map Entry.cleanPath).Nodup ∧ preOrderCheck "/" slashEntries = true ∧
    (∀ fuel, scan fuel "." dotEntries = .error Fault.timeout) ∧
    (∀ fuel, scan fuel "/" slashEntries = .error Fault.timeout) := by
  refine ⟨by decide, by decide, by decide, by decide, by decide, by decide, by decide,
    by decide, ?_, ?_⟩
  · intro fuel
    have h1 : walkFn "." fuel { heap := [], nodes := [] }
        { path := ".", info := some { isDir := true, size := 4096 }, err := false }
        = .ok (Store.grow { heap := [], nodes := [] } "." true 4096 (some 0)) :=
      walkFn_eq "." fuel _ _ ⟨true, 4096⟩ (some 0) rfl (by decide) (by simp)
    have h2 : walkFn "." fuel (Store.grow { heap := [], nodes := [] } "." true 4096 (some 0))
        { path := "f", info := some { isDir := false, size := 5 }, err := false }
        = propagateLoop 5 fuel "."
            (Store.grow (Store.grow { heap := [], nodes := [] } "." true 4096 (some 0))
              "f" false 5 (some 0)) :=
      walkFn_eq "." fuel _ _ ⟨false, 5⟩ (some 0) rfl (by decide) (by simp)
    unfold scan dotEntries filepathWalk
    rw [h1]
    simp only
    unfold filepathWalk
    rw [h2, propagateLoop_fixpoint 5 "." (by decide) fuel _ 0 (by decide) (by decide)]
  · intro fuel
    have h1 : walkFn "/" fuel { heap := [], nodes := [] }
        { path := "/", info := some { isDir := true, size := 4096 }, err := false }
        = .ok (Store.grow { heap := [], nodes := [] } "/" true 4096 (some 0)) :=
      walkFn_eq "/" fuel _ _ ⟨true, 4096⟩ (some 0) rfl (by decide) (by simp)
    have h2 : walkFn "/" fuel (Store.grow { heap := [], nodes := [] } "/" true 4096 (some 0))
        { path := "/f", info := some { isDir := false, size := 5 }, err := false }
        = propagateLoop 5 fuel "/"
            (Store.grow (Store.grow { heap := [], nodes := [] } "/" true 4096 (some 0))
              "/f" false 5 (some 0)) :=
      walkFn_eq "/" fuel _ _ ⟨false, 5⟩ (some 0) rfl (by decide) (by simp)
    unfold scan slashEntries filepathWalk
    rw [h1]
    simp only
    unfold filepathWalk
    rw [h2, propagateLoop_fixpoint 5 "/" (by decide) fuel _ 0 (by decide) (by decide)]


/-! ## Insertion sort meets the contract of `sort.Sort` -/

theorem insertLeft_perm (less : Nat → Nat → Bool) (x : Nat) (pre : List Nat) :
    (insertLeft less x pre).Perm (x :: pre) := by
  induction pre with
  | nil => exact List.Perm.refl _
  | cons y ys ih =>
    unfold insertLeft
    split_ifs
    · exact (List.Perm.cons y ih).trans (List.Perm.swap x y ys)
    · exact List.Perm.refl _

theorem foldl_insertLeft_perm (less : Nat → Nat → Bool) (l : List Nat) :
    ∀ pre : List Nat,
      (l.foldl (fun pre x => insertLeft less x pre) pre).Perm (l.reverse ++ pre) := by
  induction l with
  | nil => intro pre; exact List.Perm.refl _
  | cons x xs ih =>
    intro pre
    rw [List.foldl_cons, List.reverse_cons, List.append_assoc]
    refine (ih _).trans ?_
    exact List.Perm.append_left _ (insertLeft_perm less x pre)

theorem insertionSort_perm (less : Nat → Nat → Bool) (l : List Nat) :
    (insertionSort less l).Perm l := by
  unfold insertionSort
  refine (List.reverse_perm _).trans ?_
  have := foldl_insertLeft_perm less l []
  rw [List.append_nil] at this
  exact this.trans (List.reverse_perm l)

/-- On a reversed sorted prefix, `insertLeft` keeps the order: in the result no
element is `less` than one that comes after it (that is, before it in the slice). -/
theorem insertLeft_sorted (less : Nat → Nat → Bool) (s : List Nat) (x : Nat)
    (hx : x ∈ s)
    (hirr : ∀ a ∈ s, less a a = false)
    (htr : ∀ a ∈ s, ∀ b ∈ s, ∀ c ∈ s, less a b = true → less b c = true → less a c = true)
    (hneg : ∀ a ∈ s, ∀ b ∈ s, ∀ c ∈ s,
      less a b = false → less b c = false → less a c = false) :
    ∀ pre : List Nat, (∀ a ∈ pre, a ∈ s) →
      pre.Pairwise (fun a b => less a b = false) →
      (insertLeft less x pre).Pairwise (fun a b => less a b = false) := by
  intro pre
  induction pre with
  | nil => intro _ _; exact List.pairwise_singleton _ _
  | cons y ys ih =>
    intro hmem hp
    have hy : y ∈ s := hmem y (List.mem_cons_self _ _)
    have hys : ∀ a ∈ ys, a ∈ s := fun a ha => hmem a (List.mem_cons_of_mem _ ha)
    rw [List.pairwise_cons] at hp
    unfold insertLeft
    by_cases hxy : less x y = true
    · rw [if_pos hxy, List.pairwise_cons]
      refine ⟨?_, ih hys hp.2⟩
      intro a ha
      rcases List.mem_cons.mp ((List.Perm.mem_iff (insertLeft_perm less x ys)).mp ha)
        with hax | hay
      · rw [hax]
        cases hyx : less y x with
        | false => rfl
        | true =>
          have := htr x hx y hy x hx hxy hyx
          rw [hirr x hx] at this
          exact absurd this (by decide)
      · exact hp.1 a hay
    · have hxy' : less x y = false := by
        cases h : less x y with
        | false => rfl
        | true => exact absurd h hxy
      rw [if_neg hxy, List.pairwise_cons]
      refine ⟨?_, List.pairwise_cons.mpr hp⟩
      intro a ha
      rcases List.mem_cons.mp ha with hay | hays
      · rw [hay]; exact hxy'
      · exact hneg x hx y hy a (hys a hays) hxy' (hp.1 a hays)

theorem foldl_insertLeft_sorted (less : Nat → Nat → Bool) (s : List Nat)
    (hirr : ∀ a ∈ s, less a a = false)
    (htr : ∀ a ∈ s, ∀ b ∈ s, ∀ c ∈ s, less a b = true → less b c = true → less a c = true)
    (hneg : ∀ a ∈ s, ∀ b ∈ s, ∀ c ∈ s,
      less a b = false → less b c = false → less a c = false) :
    ∀ (l pre : List Nat), (∀ a ∈ l, a ∈ s) → (∀ a ∈ pre, a ∈ s) →
      pre.Pairwise (fun a b => less a b = false) →
      (l.foldl (fun pre x => insertLeft less x pre) pre).Pairwise
        (fun a b => less a b = false) := by
  intro l
  induction l with
  | nil => intro pre _ _ hp; exact hp
  | cons x xs ih =>
    intro pre hl hpre hp
    rw [List.foldl_cons]
    have hx : x ∈ s := hl x (List.mem_cons_self _ _)
    refine ih _ (fun a ha => hl a (List.mem_cons_of_mem _ ha)) ?_
      (insertLeft_sorted less s x hx hirr htr hneg pre hpre hp)
    intro a ha
    rcases List.mem_cons.mp ((List.Perm.mem_iff (insertLeft_perm less x pre)).mp ha) with h | h
    · rw [h]; exact hx
    · exact hpre a h

theorem insertionSort_contract : SortContract insertionSort := by
  intro less l
  refine ⟨insertionSort_perm less l, fun hirr htr hneg => ?_⟩
  unfold insertionSort
  rw [List.pairwise_reverse]
  exact foldl_insertLeft_sorted less l hirr htr hneg l [] (fun a ha => ha)
    (fun a ha => absurd ha (List.not_mem_nil a)) List.Pairwise.nil

/-! ## The two comparisons are strict weak orders -/

theorem bySizeDesc_strictWeak : StrictWeak bySizeDesc.Less := by
  refine ⟨?_, ?_, ?_⟩
  · intro a; simp [bySizeDesc.Less]
  · intro a b c h1 h2
    simp only [bySizeDesc.Less, decide_eq_true_eq] at h1 h2 ⊢
    omega
  · intro a b c h1 h2
    simp only [bySizeDesc.Less, decide_eq_false_iff_not] at h1 h2 ⊢
    omega

theorem byName_Less_congr_left (a b c : sizeinfo) (h : a.path = b.path) :
    byName.Less a c = byName.Less b c := by
  simp only [byName.Less, h]

theorem byName_strictWeak : StrictWeak byName.Less := by
  refine ⟨byName_Less_irrefl, byName_Less_trans, ?_⟩
  intro a b c h1 h2
  cases hac : byName.Less a c with
  | false => rfl
  | true =>
    exfalso
    by_cases e : a.path = b.path
    · rw [byName_Less_congr_left a b c e, h2] at hac
      exact absurd hac (by decide)
    · rcases byName_Less_total a b e with h | h
      · rw [h1] at h; exact absurd h (by decide)
      · have := byName_Less_trans b a c h hac
        rw [h2] at this
        exact absurd this (by decide)


/-! ## Rearranged stores -/

theorem reordered_refl (st : Store) : Reordered st st :=
  ⟨rfl, fun _ => ⟨rfl, List.Perm.refl _⟩⟩

theorem reordered_trans {a b c : Store} (h1 : Reordered a b) (h2 : Reordered b c) :
    Reordered a c :=
  ⟨h2.1.trans h1.1, fun id =>
    ⟨((h2.2 id).1).trans (h1.2 id).1, ((h2.2 id).2).trans (h1.2 id).2⟩⟩

theorem reordered_symm {a b : Store} (h : Reordered a b) : Reordered b a :=
  ⟨h.1.symm, fun id => ⟨((h.2 id).1).symm, ((h.2 id).2).symm⟩⟩

theorem reordered_reference {st0 st : Store} (h : Reordered st0 st) (id : Nat) :
    st.reference? id = st0.reference? id := by
  have hc := (h.2 id).1
  unfold Store.reference?
  cases h1 : st.heap[id]? with
  | none =>
    cases h0 : st0.heap[id]? with
    | none => rfl
    | some n0 => rw [h1, h0] at hc; exact absurd hc (by simp)
  | some n =>
    cases h0 : st0.heap[id]? with
    | none => rw [h1, h0] at hc; exact absurd hc (by simp)
    | some n0 =>
      rw [h1, h0] at hc
      simp only [Option.map_some', Option.some.injEq] at hc
      have := congrArg TreeNode.reference hc
      exact this

theorem reordered_size {st0 st : Store} (h : Reordered st0 st) (id : Nat) :
    st.size id = st0.size id := by
  unfold Store.size
  rw [reordered_reference h id]

theorem reordered_less {st0 st : Store} (h : Reordered st0 st)
    (cmp : sizeinfo → sizeinfo → Bool) : st.less cmp = st0.less cmp := by
  funext a b
  unfold Store.less
  rw [reordered_reference h a, reordered_reference h b]

theorem reordered_methodLess {st0 st : Store} (h : Reordered st0 st) (m : SortMethod) :
    m.less st = m.less st0 := by
  cases m <;> exact reordered_less h _

theorem reach_of_perm {st0 st : Store}
    (h : ∀ id, (st.children id).Perm (st0.children id)) {a b : Nat}
    (hr : st.Reach a b) : st0.Reach a b := by
  induction hr with
  | refl a => exact Store.Reach.refl a
  | step a b c hb _ ih => exact Store.Reach.step a b c ((h a).mem_iff.mp hb) ih

theorem reordered_reach {st0 st : Store} (h : Reordered st0 st) (a b : Nat) :
    st.Reach a b ↔ st0.Reach a b :=
  ⟨reach_of_perm (fun id => (h.2 id).2), reach_of_perm (fun id => ((h.2 id).2).symm)⟩

theorem reordered_referenced {st0 st : Store} (h : Reordered st0 st)
    (href : Referenced st0) : Referenced st := by
  intro a b hb
  rw [reordered_reference h b]
  exact href a b (((h.2 a).2).mem_iff.mp hb)

/-! ## The callback of `sortTree` -/

theorem sortCallback_ok (sort : SortProc) (m : SortMethod) (st : Store) (x : Nat)
    (href : ∀ c ∈ st.children x, (st.reference? c).isSome = true) :
    sortCallback sort m st x
      = .ok (true, st.update x fun n =>
          { n with children := sort (m.less st) n.children }) := by
  unfold sortCallback
  have hany : (st.children x).any (fun c => (st.reference? c).isNone) = false := by
    rw [List.any_eq_false]
    intro c hc
    have := href c hc
    cases hr : st.reference? c with
    | none => rw [hr] at this; exact absurd this (by simp)
    | some _ => simp
  simp only [hany, Bool.false_eq_true, and_false, if_false]
  cases m <;> rfl

theorem sort_nil (sort : SortProc) (hsort : SortContract sort) (less : Nat → Nat → Bool) :
    sort less [] = [] :=
  List.Perm.eq_nil (hsort less []).1

theorem children_update_sort (sort : SortProc) (hsort : SortContract sort)
    (less : Nat → Nat → Bool) (st : Store) (x id : Nat) :
    (st.update x fun n => { n with children := sort less n.children }).children id
      = if id = x then sort less (st.children x) else st.children id := by
  unfold Store.children
  rw [Store.update_get]
  by_cases e : id = x
  · subst e
    rw [if_pos rfl, if_pos rfl]
    cases h : st.heap[id]? with
    | none => simp [sort_nil sort hsort]
    | some n => simp
  · rw [if_neg e, if_neg e]

theorem content_update_sort (g : List Nat → List Nat) (st : Store) (x id : Nat) :
    ((st.update x fun n => { n with children := g n.children }).heap[id]?).map
        TreeNode.content
      = (st.heap[id]?).map TreeNode.content := by
  rw [Store.update_get]
  by_cases e : id = x
  · subst e
    rw [if_pos rfl]
    cases h : st.heap[id]? with
    | none => rfl
    | some n => rfl
  · rw [if_neg e]

theorem reordered_sortStep (sort : SortProc) (hsort : SortContract sort)
    (less : Nat → Nat → Bool) (st : Store) (x : Nat) :
    Reordered st (st.update x fun n => { n with children := sort less n.children }) := by
  refine ⟨Store.update_nodes _ _ _, fun id => ⟨content_update_sort _ st x id, ?_⟩⟩
  rw [children_update_sort sort hsort]
  by_cases e : id = x
  · rw [if_pos e, e]; exact (hsort less _).1
  · rw [if_neg e]

/-! ## `TreeNode.Walk` and fuel -/

theorem Walk_mono (cb : Store → Nat → Except Fault (Bool × Store)) :
    ∀ (fuel : Nat) (stack : List Nat) (st st' : Store),
      TreeNode.Walk cb fuel stack st = .ok st' →
      ∀ k, TreeNode.Walk cb (fuel + k) stack st = .ok st' := by
  intro fuel
  induction fuel with
  | zero =>
    intro stack st st' h k
    cases stack with
    | nil =>
      simp only [TreeNode.Walk] at h ⊢
      exact h
    | cons x xs => simp [TreeNode.Walk] at h
  | succ f ih =>
    intro stack st st' h k
    cases stack with
    | nil =>
      simp only [TreeNode.Walk] at h ⊢
      exact h
    | cons x xs =>
      rw [Nat.add_right_comm]
      simp only [TreeNode.Walk] at h ⊢
      cases hcb : cb st x with
      | error e => rw [hcb] at h; exact absurd h (by simp)
      | ok p =>
        obtain ⟨b, st1⟩ := p
        rw [hcb] at h
        cases b with
        | false => simp only at h ⊢; exact ih _ _ _ h k
        | true => simp only at h ⊢; exact ih _ _ _ h k

theorem Walk_append (cb : Store → Nat → Except Fault (Bool × Store)) :
    ∀ (f1 : Nat) (a : List Nat) (st st2 : Store),
      TreeNode.Walk cb f1 a st = .ok st2 →
      ∀ (f2 : Nat) (b : List Nat) (st3 : Store),
        TreeNode.Walk cb f2 b st2 = .ok st3 →
        TreeNode.Walk cb (f1 + f2) (a ++ b) st = .ok st3 := by
  intro f1
  induction f1 with
  | zero =>
    intro a st st2 h f2 b st3 h2
    cases a with
    | nil =>
      simp only [TreeNode.Walk] at h
      injection h with h
      subst h
      rw [Nat.zero_add, List.nil_append]
      exact h2
    | cons x xs => simp [TreeNode.Walk] at h
  | succ f ih =>
    intro a st st2 h f2 b st3 h2
    cases a with
    | nil =>
      simp only [TreeNode.Walk] at h
      injection h with h
      subst h
      rw [List.nil_append, Nat.add_comm]
      exact Walk_mono cb f2 b _ st3 h2 (f + 1)
    | cons x xs =>
      rw [Nat.add_right_comm, List.cons_append]
      simp only [TreeNode.Walk] at h ⊢
      cases hcb : cb st x with
      | error e => rw [hcb] at h; exact absurd h (by simp)
      | ok p =>
        obtain ⟨c, st1⟩ := p
        rw [hcb] at h
        cases c with
        | false => simp only at h ⊢; exact ih _ _ _ h f2 b st3 h2
        | true =>
          simp only at h ⊢
          rw [← List.append_assoc]
          exact ih _ _ _ h f2 b st3 h2

theorem Walk_unique (cb : Store → Nat → Except Fault (Bool × Store))
    {f1 f2 : Nat} {stack : List Nat} {st s1 s2 : Store}
    (h1 : TreeNode.Walk cb f1 stack st = .ok s1)
    (h2 : TreeNode.Walk cb f2 stack st = .ok s2) : s1 = s2 := by
  have a := Walk_mono cb f1 stack st s1 h1 f2
  have b := Walk_mono cb f2 stack st s2 h2 f1
  rw [Nat.add_comm] at b
  rw [a] at b
  injection b


/-! ## `Less` on the children of a node -/

theorem less_of_references (st : Store) (cmp : sizeinfo → sizeinfo → Bool) {a b : Nat}
    {ra rb : sizeinfo} (ha : st.reference? a = some ra) (hb : st.reference? b = some rb) :
    st.less cmp a b = cmp ra rb := by
  unfold Store.less
  rw [ha, hb]

theorem reference_of_isSome {st : Store} {a : Nat}
    (h : (st.reference? a).isSome = true) : ∃ ra, st.reference? a = some ra := by
  cases hr : st.reference? a with
  | none => rw [hr] at h; exact absurd h (by simp)
  | some ra => exact ⟨ra, rfl⟩

theorem less_weak_on (st : Store) (cmp : sizeinfo → sizeinfo → Bool)
    (hweak : StrictWeak cmp) (l : List Nat)
    (href : ∀ c ∈ l, (st.reference? c).isSome = true) :
    (∀ a ∈ l, st.less cmp a a = false) ∧
    (∀ a ∈ l, ∀ b ∈ l, ∀ c ∈ l,
      st.less cmp a b = true → st.less cmp b c = true → st.less cmp a c = true) ∧
    (∀ a ∈ l, ∀ b ∈ l, ∀ c ∈ l,
      st.less cmp a b = false → st.less cmp b c = false → st.less cmp a c = false) := by
  refine ⟨?_, ?_, ?_⟩
  · intro a ha
    obtain ⟨ra, hra⟩ := reference_of_isSome (href a ha)
    rw [less_of_references st cmp hra hra]
    exact hweak.1 ra
  · intro a ha b hb c hc
    obtain ⟨ra, hra⟩ := reference_of_isSome (href a ha)
    obtain ⟨rb, hrb⟩ := reference_of_isSome (href b hb)
    obtain ⟨rc, hrc⟩ := reference_of_isSome (href c hc)
    rw [less_of_references st cmp hra hrb, less_of_references st cmp hrb hrc,
      less_of_references st cmp hra hrc]
    exact hweak.2.1 ra rb rc
  · intro a ha b hb c hc
    obtain ⟨ra, hra⟩ := reference_of_isSome (href a ha)
    obtain ⟨rb, hrb⟩ := reference_of_isSome (href b hb)
    obtain ⟨rc, hrc⟩ := reference_of_isSome (href c hc)
    rw [less_of_references st cmp hra hrb, less_of_references st cmp hrb hrc,
      less_of_references st cmp hra hrc]
    exact hweak.2.2 ra rb rc

theorem methodLess_weak_on (m : SortMethod) (st : Store) (l : List Nat)
    (href : ∀ c ∈ l, (st.reference? c).isSome = true) :
    (∀ a ∈ l, m.less st a a = false) ∧
    (∀ a ∈ l, ∀ b ∈ l, ∀ c ∈ l,
      m.less st a b = true → m.less st b c = true → m.less st a c = true) ∧
    (∀ a ∈ l, ∀ b ∈ l, ∀ c ∈ l,
      m.less st a b = false → m.less st b c = false → m.less st a c = false) := by
  cases m with
  | sortByName => exact less_weak_on st byName.Less byName_strictWeak l href
  | sortBySizeDesc => exact less_weak_on st bySizeDesc.Less bySizeDesc_strictWeak l href

/-! ## The walk of `sortTree` -/

/-- On a tree-shaped heap whose children all have references, the walk of `sortTree`
from any stack returns; it only rearranges children, keeps sorted what was sorted,
and leaves the children of every node below the stack sorted. -/
theorem Walk_sort (sort : SortProc) (hsort : SortContract sort) (m : SortMethod)
    (st0 : Store) (rank : Nat → Nat) (hrank : Ranked st0 rank) (href : Referenced st0) :
    ∀ (k : Nat) (stack : List Nat) (st : Store),
      (∀ x ∈ stack, rank x < k) → Reordered st0 st →
      ∃ fuel st', TreeNode.Walk (sortCallback sort m) fuel stack st = .ok st' ∧
        Reordered st0 st' ∧
        (∀ a, SortedAt (m.less st0) st a → SortedAt (m.less st0) st' a) ∧
        (∀ x ∈ stack, ∀ a, st0.Reach x a → SortedAt (m.less st0) st' a) := by
  intro k
  induction k with
  | zero =>
    intro stack st hr hre
    cases stack with
    | nil =>
      exact ⟨0, st, rfl, hre, fun _ h => h, fun x hx => absurd hx (List.not_mem_nil x)⟩
    | cons x xs => exact absurd (hr x (List.mem_cons_self _ _)) (by omega)
  | succ k ih =>
    intro stack
    induction stack with
    | nil =>
      intro st _ hre
      exact ⟨0, st, rfl, hre, fun _ h => h, fun x hx => absurd hx (List.not_mem_nil x)⟩
    | cons x rest ihs =>
      intro st hr hre
      have hrefst := reordered_referenced hre href
      have hcb := sortCallback_ok sort m st x (hrefst x)
      have hstep := reordered_sortStep sort hsort (m.less st) st x
      have hre1 := reordered_trans hre hstep
      have hkids := children_update_sort sort hsort (m.less st) st x
      have hless : m.less st = m.less st0 := reordered_methodLess hre m
      -- the children of `x` are now sorted
      have hsx : SortedAt (m.less st0)
          (st.update x fun n => { n with children := sort (m.less st) n.children }) x := by
        unfold SortedAt
        rw [hkids x, if_pos rfl]
        have hw := methodLess_weak_on m st (st.children x) (hrefst x)
        rw [← hless]
        exact (hsort (m.less st) (st.children x)).2 hw.1 hw.2.1 hw.2.2
      have hkeep : ∀ a, SortedAt (m.less st0) st a → SortedAt (m.less st0)
          (st.update x fun n => { n with children := sort (m.less st) n.children }) a := by
        intro a ha
        by_cases e : a = x
        · rw [e]; exact hsx
        · unfold SortedAt at ha ⊢
          rw [hkids a, if_neg e]
          exact ha
      have hranks1 : ∀ c ∈ (st.update x fun n =>
          { n with children := sort (m.less st) n.children }).children x, rank c < k := by
        intro c hc
        have hc0 : c ∈ st0.children x := ((hre1.2 x).2).mem_iff.mp hc
        have h1 := hrank x c hc0
        have h2 := hr x (List.mem_cons_self _ _)
        omega
      obtain ⟨f1, st2, hw1, hre2, hpres1, hsorted1⟩ := ih _ _ hranks1 hre1
      obtain ⟨f2, st3, hw2, hre3, hpres2, hsorted2⟩ :=
        ihs st2 (fun y hy => hr y (List.mem_cons_of_mem _ hy)) hre2
      refine ⟨f1 + f2 + 1, st3, ?_, hre3, fun a ha => hpres2 a (hpres1 a (hkeep a ha)), ?_⟩
      · simp only [TreeNode.Walk, hcb]
        exact Walk_append _ f1 _ _ st2 hw1 f2 rest st3 hw2
      · intro y hy a hreach
        rcases List.mem_cons.mp hy with hyx | hyr
        · subst hyx
          cases hreach with
          | refl => exact hpres2 _ (hpres1 _ hsx)
          | step _ b _ hb hba =>
            have hb1 : b ∈ (st.update y fun n =>
                { n with children := sort (m.less st) n.children }).children y :=
              ((hre1.2 y).2).mem_iff.mpr hb
            exact hpres2 a (hsorted1 b hb1 a hba)
        · exact hsorted2 y hyr a hreach

/-- The result of `sortTree` on a tree-shaped heap. -/
theorem sortTree_result (sort : SortProc) (hsort : SortContract sort) (m : SortMethod)
    (root : String) (st : Store) (r : Nat) (rank : Nat → Nat)
    (hroot : st.nodes.lookup root = some r) (hrank : Ranked st rank)
    (href : Referenced st) (st0 : Store) (hre : Reordered st0 st) :
    (∃ fuel st', sortTree sort m root fuel st = .ok st') ∧
    (∀ fuel st', sortTree sort m root fuel st = .ok st' →
      Reordered st0 st' ∧ ∀ a, st0.Reach r a → SortedAt (m.less st0) st' a) := by
  have hrank0 : Ranked st0 rank := by
    intro a b hb
    exact hrank a b (((hre.2 a).2).mem_iff.mpr hb)
  have href0 : Referenced st0 := reordered_referenced (reordered_symm hre) href
  obtain ⟨fuel, st', hw, hre', _, hsorted⟩ :=
    Walk_sort sort hsort m st0 rank hrank0 href0 (rank r + 1) [r] st
      (fun x hx => by rw [List.mem_singleton.mp hx]; omega) hre
  constructor
  · exact ⟨fuel, st', by unfold sortTree; rw [hroot]; exact hw⟩
  · intro fuel2 st2 h2
    unfold sortTree at h2
    rw [hroot] at h2
    simp only at h2
    have := Walk_unique _ hw h2
    subst this
    exact ⟨hre', fun a ha => hsorted r (List.mem_singleton.mpr rfl) a ha⟩


/-! ## The scenario as a tree -/

theorem children_scenario (a : Nat) :
    scenarioStore.children a
      = if a = 0 then [1, 2] else if a = 2 then [3] else [] := by
  match a with
  | 0 => rfl
  | 1 => rfl
  | 2 => rfl
  | 3 => rfl
  | n + 4 => rfl

theorem children_scenarioBySize (a : Nat) :
    scenarioBySize.children a
      = if a = 0 then [2, 1] else if a = 2 then [3] else [] := by
  match a with
  | 0 => rfl
  | 1 => rfl
  | 2 => rfl
  | 3 => rfl
  | n + 4 => rfl

theorem ranked_scenario : Ranked scenarioStore scenarioRank := by
  intro a b hb
  rw [children_scenario] at hb
  unfold scenarioRank
  split_ifs at hb with h0 h2
  · simp only [List.mem_cons, List.mem_singleton, List.not_mem_nil, or_false] at hb
    omega
  · simp only [List.mem_singleton] at hb
    omega
  · exact absurd hb (List.not_mem_nil b)

theorem referenced_scenario : Referenced scenarioStore := by
  intro a b hb
  rw [children_scenario] at hb
  split_ifs at hb with h0 h2
  · simp only [List.mem_cons, List.mem_singleton, List.not_mem_nil, or_false] at hb
    rcases hb with rfl | rfl <;> rfl
  · simp only [List.mem_singleton] at hb
    subst hb; rfl
  · exact absurd hb (List.not_mem_nil b)

theorem reordered_scenario : Reordered scenarioStore scenarioBySize := by
  refine ⟨rfl, fun id => ⟨?_, ?_⟩⟩
  · match id with
    | 0 => rfl
    | 1 => rfl
    | 2 => rfl
    | 3 => rfl
    | n + 4 => rfl
  · rw [children_scenario, children_scenarioBySize]
    split_ifs
    · exact List.Perm.swap 1 2 []
    · exact List.Perm.refl _
    · exact List.Perm.refl _

theorem distinct_scenario (a : Nat) :
    ((scenarioStore.children a).map scenarioStore.path?).Nodup := by
  rw [children_scenario]
  split_ifs <;> decide

/-! ## C9 -/

/-- C9. On a tree-shaped heap in which every child has its reference, `sortTree`
under `sortBySizeDesc` returns, whatever sorting procedure meets the contract of
`sort.Sort`, and afterwards the children of every node of the tree (not only of the
root) are in non-increasing order of size: each child is at least as large as every
child after it, in particular as the next one. -/
theorem sortTree_sizeDesc_sorted (sort : SortProc) (hsort : SortContract sort)
    (root : String) (st : Store) (r : Nat) (rank : Nat → Nat)
    (hroot : st.nodes.lookup root = some r) (hrank : Ranked st rank)
    (href : Referenced st) :
    (∃ fuel st', sortTree sort SortMethod.sortBySizeDesc root fuel st = .ok st') ∧
    (∀ fuel st', sortTree sort SortMethod.sortBySizeDesc root fuel st = .ok st' →
      ∀ a, st'.Reach r a →
        (st'.children a).Pairwise (fun x y => st'.size x ≥ st'.size y)) := by
  have hres := sortTree_result sort hsort SortMethod.sortBySizeDesc root st r rank
    hroot hrank href st (reordered_refl st)
  refine ⟨hres.1, ?_⟩
  intro fuel st' h a ha
  obtain ⟨hre, hsorted⟩ := hres.2 fuel st' h
  have hs := hsorted a ((reordered_reach hre r a).mp ha)
  unfold SortedAt at hs
  have href' := reordered_referenced hre href
  refine List.Pairwise.imp_of_mem ?_ hs
  intro x y hx hy hxy
  obtain ⟨rx, hrx⟩ := reference_of_isSome (href' a x hx)
  obtain ⟨ry, hry⟩ := reference_of_isSome (href' a y hy)
  rw [reordered_reference hre x] at hrx
  rw [reordered_reference hre y] at hry
  have hless : SortMethod.sortBySizeDesc.less st y x = bySizeDesc.Less ry rx :=
    less_of_references st _ hry hrx
  rw [hless] at hxy
  simp only [bySizeDesc.Less, decide_eq_false_iff_not] at hxy
  rw [reordered_size hre x, reordered_size hre y]
  unfold Store.size
  rw [hrx, hry]
  simp only
  omega

/-- C9 on the scenario `root{x: 500, Y{z: 2048}}`, sorted by insertion sort: the
root order becomes `[Y, x]`. -/
theorem sortTree_sizeDesc_sorted_witness :
    sortTree insertionSort SortMethod.sortBySizeDesc "/r" 5 scenarioStore
      = .ok scenarioBySize ∧
    scenarioBySize.children 0 = [2, 1] ∧
    scenarioBySize.path? 2 = some "/r/Y" ∧ scenarioBySize.path? 1 = some "/r/x" ∧
    (scenarioBySize.children 0).Pairwise
      (fun x y => scenarioBySize.size x ≥ scenarioBySize.size y) :=
  ⟨rfl, rfl, rfl, rfl,
   (sortTree_sizeDesc_sorted insertionSort insertionSort_contract "/r" scenarioStore 0
      scenarioRank rfl ranked_scenario referenced_scenario).2 5 scenarioBySize rfl 0
      (Store.Reach.refl 0)⟩

/-! ## C10 -/

/-- C10. Applying `sortByName` is deterministic. Let `st1` be a tree-shaped heap in
which every child has its reference, and let `st2` be `st1` with the children of
each node in any other initial order. Then `sortTree` under `sortByName` returns on
both, whatever sorting procedure meets the contract of `sort.Sort`, and afterwards
every node of the tree whose children have pairwise distinct paths has the same
children order in both: the one that is strictly ascending under `byName.Less`. -/
theorem sortTree_byName_deterministic (sort : SortProc) (hsort : SortContract sort)
    (root : String) (st1 st2 : Store) (r : Nat) (rank : Nat → Nat)
    (hroot : st1.nodes.lookup root = some r) (hrank : Ranked st1 rank)
    (href : Referenced st1) (hre : Reordered st1 st2) :
    (∃ fuel st1', sortTree sort SortMethod.sortByName root fuel st1 = .ok st1') ∧
    (∃ fuel st2', sortTree sort SortMethod.sortByName root fuel st2 = .ok st2') ∧
    (∀ f1 f2 st1' st2',
      sortTree sort SortMethod.sortByName root f1 st1 = .ok st1' →
      sortTree sort SortMethod.sortByName root f2 st2 = .ok st2' →
      ∀ a, st1.Reach r a → ((st1.children a).map st1.path?).Nodup →
        st1'.children a = st2'.children a ∧
        (st1'.children a).Pairwise (fun x y => st1'.less byName.Less x y = true)) := by
  have hres1 := sortTree_result sort hsort SortMethod.sortByName root st1 r rank
    hroot hrank href st1 (reordered_refl st1)
  have hrank2 : Ranked st2 rank := by
    intro a b hb
    exact hrank a b (((hre.2 a).2).mem_iff.mp hb)
  have hres2 := sortTree_result sort hsort SortMethod.sortByName root st2 r rank
    (by rw [hre.1]; exact hroot) hrank2 (reordered_referenced hre href) st1 hre
  refine ⟨hres1.1, hres2.1, ?_⟩
  intro f1 f2 st1' st2' h1 h2 a ha hnd
  obtain ⟨hre1, hsorted1⟩ := hres1.2 f1 st1' h1
  obtain ⟨hre2, hsorted2⟩ := hres2.2 f2 st2' h2
  have hs1 := hsorted1 a ha
  have hs2 := hsorted2 a ha
  unfold SortedAt at hs1 hs2
  have hp1 : (st1'.children a).Perm (st1.children a) := (hre1.2 a).2
  have hp2 : (st2'.children a).Perm (st1.children a) := (hre2.2 a).2
  -- two children that are not `Less` than each other are the same node
  have hanti : ∀ x y, x ∈ st1.children a → y ∈ st1.children a →
      SortMethod.sortByName.less st1 y x = false →
      SortMethod.sortByName.less st1 x y = false → x = y := by
    intro x y hx hy hyx hxy
    by_contra hne
    obtain ⟨rx, hrx⟩ := reference_of_isSome (href a x hx)
    obtain ⟨ry, hry⟩ := reference_of_isSome (href a y hy)
    have hpath : rx.path ≠ ry.path := by
      intro hp
      apply hne
      apply List.inj_on_of_nodup_map hnd hx hy
      unfold Store.path?
      simp only [hrx, hry, hp]
    have e1 : SortMethod.sortByName.less st1 y x = byName.Less ry rx :=
      less_of_references st1 _ hry hrx
    have e2 : SortMethod.sortByName.less st1 x y = byName.Less rx ry :=
      less_of_references st1 _ hrx hry
    rw [e1] at hyx
    rw [e2] at hxy
    rcases byName_Less_total rx ry hpath with h | h
    · rw [hxy] at h; exact absurd h (by decide)
    · rw [hyx] at h; exact absurd h (by decide)
  constructor
  · refine List.Perm.eq_of_sorted ?_ hs1 hs2 (hp1.trans hp2.symm)
    intro x y hx hy hxy hyx
    exact hanti x y (hp1.mem_iff.mp hx) (hp2.mem_iff.mp hy) hxy hyx
  · have hnd1 : (st1'.children a).Nodup :=
      (hp1.nodup_iff).mpr (List.Nodup.of_map _ hnd)
    have hboth := List.Pairwise.and hs1 hnd1
    refine List.Pairwise.imp_of_mem ?_ hboth
    intro x y hx hy hxy
    have hless : st1'.less byName.Less = SortMethod.sortByName.less st1 :=
      reordered_less hre1 _
    rw [hless]
    cases hc : SortMethod.sortByName.less st1 x y with
    | true => rfl
    | false =>
      exact absurd (hanti x y (hp1.mem_iff.mp hx) (hp1.mem_iff.mp hy) hxy.1 hc) hxy.2

/-- C10 on the scenario: from the order `[x, Y]` and from the order `[Y, x]` alike,
`sortTree` under `sortByName` leaves the root with `[x, Y]`. -/
theorem sortTree_byName_deterministic_witness :
    sortTree insertionSort SortMethod.sortByName "/r" 5 scenarioStore = .ok scenarioStore ∧
    sortTree insertionSort SortMethod.sortByName "/r" 5 scenarioBySize = .ok scenarioStore ∧
    scenarioBySize.children 0 = [2, 1] ∧
    scenarioStore.children 0 = [1, 2] ∧
    scenarioStore.path? 1 = some "/r/x" ∧ scenarioStore.path? 2 = some "/r/Y" ∧
    (scenarioStore.children 0 = scenarioStore.children 0 ∧
      (scenarioStore.children 0).Pairwise
        (fun x y => scenarioStore.less byName.Less x y = true)) :=
  ⟨rfl, rfl, rfl, rfl, rfl, rfl,
   (sortTree_byName_deterministic insertionSort insertionSort_contract "/r"
      scenarioStore scenarioBySize 0 scenarioRank rfl ranked_scenario referenced_scenario
      reordered_scenario).2.2
      5 5 scenarioStore scenarioStore rfl rfl 0 (Store.Reach.refl 0) (distinct_scenario 0)⟩


/-! ## `sortTree` only rearranges children -/

theorem sortCallback_inv (sort : SortProc) (m : SortMethod) (st : Store) (x : Nat)
    (b : Bool) (st1 : Store) (h : sortCallback sort m st x = .ok (b, st1)) :
    b = true ∧
    st1 = st.update x fun n => { n with children := sort (m.less st) n.children } := by
  unfold sortCallback at h
  simp only at h
  split at h
  · exact absurd h (by simp)
  · cases m <;>
    · simp only [Except.ok.injEq, Prod.mk.injEq] at h
      exact ⟨h.1.symm, h.2.symm⟩

theorem Walk_reordered (sort : SortProc) (hsort : SortContract sort) (m : SortMethod) :
    ∀ (fuel : Nat) (stack : List Nat) (st st' : Store),
      TreeNode.Walk (sortCallback sort m) fuel stack st = .ok st' → Reordered st st' := by
  intro fuel
  induction fuel with
  | zero =>
    intro stack st st' h
    cases stack with
    | nil =>
      simp only [TreeNode.Walk] at h
      injection h with h
      subst h
      exact reordered_refl st
    | cons x xs => simp [TreeNode.Walk] at h
  | succ f ih =>
    intro stack st st' h
    cases stack with
    | nil =>
      simp only [TreeNode.Walk] at h
      injection h with h
      subst h
      exact reordered_refl st
    | cons x xs =>
      simp only [TreeNode.Walk] at h
      cases hcb : sortCallback sort m st x with
      | error e => rw [hcb] at h; exact absurd h (by simp)
      | ok p =>
        obtain ⟨b, st1⟩ := p
        rw [hcb] at h
        obtain ⟨hb, hst1⟩ := sortCallback_inv sort m st x b st1 hcb
        subst hb
        simp only at h
        have h1 : Reordered st st1 := by
          rw [hst1]
          exact reordered_sortStep sort hsort (m.less st) st x
        exact reordered_trans h1 (ih _ _ _ h)

theorem sortTree_reordered (sort : SortProc) (hsort : SortContract sort) (m : SortMethod)
    (root : String) (fuel : Nat) (st st' : Store)
    (h : sortTree sort m root fuel st = .ok st') : Reordered st st' := by
  unfold sortTree at h
  cases hl : st.nodes.lookup root with
  | none => rw [hl] at h; exact absurd h (by simp)
  | some r =>
    rw [hl] at h
    exact Walk_reordered sort hsort m fuel [r] st st' h

/-- What `Reordered` says of a single node. -/
theorem reordered_node {st0 st : Store} (h : Reordered st0 st) (id : Nat) :
    (∀ n0, st0.heap[id]? = some n0 →
      ∃ n, st.heap[id]? = some n ∧ n.children.Perm n0.children ∧
        n.reference = n0.reference ∧ n.expanded = n0.expanded ∧ n.text = n0.text ∧
        n.selectable = n0.selectable ∧ n.color = n0.color) ∧
    (st0.heap[id]? = none → st.heap[id]? = none) := by
  have hc := (h.2 id).1
  have hp := (h.2 id).2
  unfold Store.children at hp
  constructor
  · intro n0 h0
    rw [h0] at hc hp
    cases h1 : st.heap[id]? with
    | none => rw [h1] at hc; exact absurd hc (by simp)
    | some n =>
      rw [h1] at hc hp
      simp only [Option.map_some', Option.some.injEq] at hc
      refine ⟨n, rfl, hp, ?_, ?_, ?_, ?_, ?_⟩
      · have := congrArg TreeNode.reference hc
        exact this
      · have := congrArg TreeNode.expanded hc
        exact this
      · have := congrArg TreeNode.text hc
        exact this
      · have := congrArg TreeNode.selectable hc
        exact this
      · have := congrArg TreeNode.color hc
        exact this
  · intro h0
    rw [h0] at hc
    cases h1 : st.heap[id]? with
    | none => rfl
    | some n => rw [h1] at hc; exact absurd hc (by simp)

/-! ## C11 -/

/-- C11. `sortTree` only re-orders. Whenever it returns, under either method and
whatever sorting procedure meets the contract of `sort.Sort`, the registry is the
same, no node is added or dropped, and every node has a children sequence that is a
permutation of the one it had, with its reference (size and path), expanded flag,
text, selectable flag and color unchanged. On a tree-shaped heap in which every
child has its reference it does return. -/
theorem sortTree_only_reorders (sort : SortProc) (hsort : SortContract sort)
    (method : SortMethod) (root : String) (st : Store) :
    (∀ (fuel : Nat) (st' : Store), sortTree sort method root fuel st = .ok st' →
      st'.nodes = st.nodes ∧
      ∀ id,
        (st'.children id).Perm (st.children id) ∧
        st'.size id = st.size id ∧ st'.path? id = st.path? id ∧
        (∀ n, st.heap[id]? = some n →
          ∃ n', st'.heap[id]? = some n' ∧ n'.children.Perm n.children ∧
            n'.reference = n.reference ∧ n'.expanded = n.expanded ∧ n'.text = n.text ∧
            n'.selectable = n.selectable ∧ n'.color = n.color) ∧
        (st.heap[id]? = none → st'.heap[id]? = none)) ∧
    (∀ (r : Nat) (rank : Nat → Nat), st.nodes.lookup root = some r → Ranked st rank →
      Referenced st → ∃ fuel st', sortTree sort method root fuel st = .ok st') := by
  constructor
  · intro fuel st' h
    have hre := sortTree_reordered sort hsort method root fuel st st' h
    refine ⟨hre.1, fun id => ⟨(hre.2 id).2, reordered_size hre id, ?_,
      (reordered_node hre id).1, (reordered_node hre id).2⟩⟩
    unfold Store.path?
    rw [reordered_reference hre id]
  · intro r rank hroot hrank href
    exact (sortTree_result sort hsort method root st r rank hroot hrank href st
      (reordered_refl st)).1

/-- C11 on the scenario, sorted by size with insertion sort: the root's children
`[x, Y]` become `[Y, x]`, a permutation, and the root keeps size, path, flag and
text. -/
theorem sortTree_only_reorders_witness :
    sortTree insertionSort SortMethod.sortBySizeDesc "/r" 5 scenarioStore
      = .ok scenarioBySize ∧
    scenarioStore.children 0 = [1, 2] ∧ scenarioBySize.children 0 = [2, 1] ∧
    (scenarioBySize.children 0).Perm (scenarioStore.children 0) ∧
    scenarioBySize.size 0 = scenarioStore.size 0 ∧
    scenarioBySize.path? 0 = scenarioStore.path? 0 :=
  ⟨rfl, rfl, rfl,
   (((sortTree_only_reorders insertionSort insertionSort_contract
      SortMethod.sortBySizeDesc "/r" scenarioStore).1 5 scenarioBySize rfl).2 0).1,
   (((sortTree_only_reorders insertionSort insertionSort_contract
      SortMethod.sortBySizeDesc "/r" scenarioStore).1 5 scenarioBySize rfl).2 0).2.1,
   (((sortTree_only_reorders insertionSort insertionSort_contract
      SortMethod.sortBySizeDesc "/r" scenarioStore).1 5 scenarioBySize rfl).2 0).2.2.1⟩


/-! ## Sorting what is already sorted -/

/-- Two sorted rearrangements of the same children are equal when `less` leaves no
two different children unordered. -/
theorem sorted_children_unique (less : Nat → Nat → Bool) (l l1 l2 : List Nat)
    (hp1 : l1.Perm l) (hp2 : l2.Perm l)
    (hs1 : l1.Pairwise (fun x y => less y x = false))
    (hs2 : l2.Pairwise (fun x y => less y x = false))
    (hanti : ∀ x ∈ l, ∀ y ∈ l, less y x = false → less x y = false → x = y) :
    l1 = l2 := by
  refine List.Perm.eq_of_sorted ?_ hs1 hs2 (hp1.trans hp2.symm)
  intro x y hx hy hxy hyx
  exact hanti x (hp1.mem_iff.mp hx) y (hp2.mem_iff.mp hy) hxy hyx

/-- Two rearrangements of the same children in non-increasing order of a key show
the same sequence of keys. -/
theorem sorted_keys_unique (f : Nat → Int) (l1 l2 : List Nat) (hp : l1.Perm l2)
    (hs1 : l1.Pairwise (fun x y => f x ≥ f y))
    (hs2 : l2.Pairwise (fun x y => f x ≥ f y)) :
    l1.map f = l2.map f := by
  have h1 : (l1.map f).Pairwise (fun a b => a ≥ b) := List.pairwise_map.mpr hs1
  have h2 : (l2.map f).Pairwise (fun a b => a ≥ b) := List.pairwise_map.mpr hs2
  refine List.Perm.eq_of_sorted ?_ h1 h2 (hp.map f)
  intro a b _ _ hab hba
  omega

theorem sizeLess_false_iff {st : Store} {x y : Nat}
    (hx : (st.reference? x).isSome = true) (hy : (st.reference? y).isSome = true) :
    SortMethod.sortBySizeDesc.less st y x = false ↔ st.size x ≥ st.size y := by
  obtain ⟨rx, hrx⟩ := reference_of_isSome hx
  obtain ⟨ry, hry⟩ := reference_of_isSome hy
  have hless : SortMethod.sortBySizeDesc.less st y x = bySizeDesc.Less ry rx :=
    less_of_references st _ hry hrx
  rw [hless]
  unfold Store.size
  rw [hrx, hry]
  simp only [bySizeDesc.Less, decide_eq_false_iff_not]
  omega

/-- With pairwise different keys, the method leaves no two different siblings
unordered. -/
theorem method_anti (m : SortMethod) (st : Store) (a : Nat) (href : Referenced st)
    (hk : KeysDistinct m st a) :
    ∀ x ∈ st.children a, ∀ y ∈ st.children a,
      m.less st y x = false → m.less st x y = false → x = y := by
  intro x hx y hy hyx hxy
  cases m with
  | sortByName =>
    by_contra hne
    obtain ⟨rx, hrx⟩ := reference_of_isSome (href a x hx)
    obtain ⟨ry, hry⟩ := reference_of_isSome (href a y hy)
    have hpath : rx.path ≠ ry.path := by
      intro hp
      apply hne
      apply List.inj_on_of_nodup_map hk hx hy
      unfold Store.path?
      simp only [hrx, hry, hp]
    have e1 : SortMethod.sortByName.less st y x = byName.Less ry rx :=
      less_of_references st _ hry hrx
    have e2 : SortMethod.sortByName.less st x y = byName.Less rx ry :=
      less_of_references st _ hrx hry
    rw [e1] at hyx
    rw [e2] at hxy
    rcases byName_Less_total rx ry hpath with h | h
    · rw [hxy] at h; exact absurd h (by decide)
    · rw [hyx] at h; exact absurd h (by decide)
  | sortBySizeDesc =>
    have h1 := (sizeLess_false_iff (href a x hx) (href a y hy)).mp hyx
    have h2 := (sizeLess_false_iff (href a y hy) (href a x hx)).mp hxy
    apply List.inj_on_of_nodup_map hk hx hy
    omega

/-- Two stores that rearrange `st` and have the children of `a` sorted under the
method agree on `a` as far as the method decides. -/
theorem sorted_stores_agree (m : SortMethod) (st s1 s2 : Store) (a : Nat)
    (href : Referenced st) (h1 : Reordered st s1) (h2 : Reordered st s2)
    (hs1 : SortedAt (m.less st) s1 a) (hs2 : SortedAt (m.less st) s2 a) :
    (m = SortMethod.sortBySizeDesc →
      (s2.children a).map s2.size = (s1.children a).map s1.size) ∧
    (KeysDistinct m st a → s2.children a = s1.children a) := by
  have hp1 : (s1.children a).Perm (st.children a) := (h1.2 a).2
  have hp2 : (s2.children a).Perm (st.children a) := (h2.2 a).2
  unfold SortedAt at hs1 hs2
  constructor
  · intro hm
    subst hm
    have e1 : s1.size = st.size := funext (reordered_size h1)
    have e2 : s2.size = st.size := funext (reordered_size h2)
    rw [e1, e2]
    refine sorted_keys_unique st.size _ _ (hp2.trans hp1.symm) ?_ ?_
    · refine List.Pairwise.imp_of_mem ?_ hs2
      intro x y hx hy hxy
      exact (sizeLess_false_iff (href a x (hp2.mem_iff.mp hx))
        (href a y (hp2.mem_iff.mp hy))).mp hxy
    · refine List.Pairwise.imp_of_mem ?_ hs1
      intro x y hx hy hxy
      exact (sizeLess_false_iff (href a x (hp1.mem_iff.mp hx))
        (href a y (hp1.mem_iff.mp hy))).mp hxy
  · intro hk
    exact sorted_children_unique (m.less st) (st.children a) _ _ hp2 hp1 hs2 hs1
      (method_anti m st a href hk)

/-- Two runs of `sortTree`, the second on the result of the first and under any
method. -/
theorem sortTree_then (sort : SortProc) (hsort : SortContract sort) (m1 m2 : SortMethod)
    (root : String) (st : Store) (r : Nat) (rank : Nat → Nat)
    (hroot : st.nodes.lookup root = some r) (hrank : Ranked st rank)
    (href : Referenced st) :
    (∃ f1 f2 st1 st2, sortTree sort m1 root f1 st = .ok st1 ∧
      sortTree sort m2 root f2 st1 = .ok st2) ∧
    (∀ f1 f2 st1 st2, sortTree sort m1 root f1 st = .ok st1 →
      sortTree sort m2 root f2 st1 = .ok st2 →
      Reordered st st1 ∧ (∀ a, st.Reach r a → SortedAt (m1.less st) st1 a) ∧
      Reordered st st2 ∧ (∀ a, st.Reach r a → SortedAt (m2.less st) st2 a)) := by
  have hres1 := sortTree_result sort hsort m1 root st r rank hroot hrank href st
    (reordered_refl st)
  have hsecond : ∀ st1, Reordered st st1 →
      (∃ fuel st', sortTree sort m2 root fuel st1 = .ok st') ∧
      (∀ fuel st', sortTree sort m2 root fuel st1 = .ok st' →
        Reordered st st' ∧ ∀ a, st.Reach r a → SortedAt (m2.less st) st' a) := by
    intro st1 hre
    have hrank1 : Ranked st1 rank := by
      intro a b hb
      exact hrank a b (((hre.2 a).2).mem_iff.mp hb)
    exact sortTree_result sort hsort m2 root st1 r rank (by rw [hre.1]; exact hroot)
      hrank1 (reordered_referenced hre href) st hre
  constructor
  · obtain ⟨f1, st1, h1⟩ := hres1.1
    obtain ⟨f2, st2, h2⟩ := (hsecond st1 (hres1.2 f1 st1 h1).1).1
    exact ⟨f1, f2, st1, st2, h1, h2⟩
  · intro f1 f2 st1 st2 h1 h2
    obtain ⟨hre1, hs1⟩ := hres1.2 f1 st1 h1
    obtain ⟨hre2, hs2⟩ := (hsecond st1 hre1).2 f2 st2 h2
    exact ⟨hre1, hs1, hre2, hs2⟩

/-! ## Sorting procedures that leave a sorted slice as it is -/

theorem insertLeft_head (less : Nat → Nat → Bool) (x : Nat) (pre : List Nat)
    (h : ∀ y ∈ pre, less x y = false) : insertLeft less x pre = x :: pre := by
  cases pre with
  | nil => rfl
  | cons y ys =>
    unfold insertLeft
    rw [h y (List.mem_cons_self _ _)]
    rfl

theorem foldl_insertLeft_sorted_input (less : Nat → Nat → Bool) :
    ∀ (l pre : List Nat), (∀ y ∈ pre, ∀ x ∈ l, less x y = false) →
      l.Pairwise (fun a b => less b a = false) →
      l.foldl (fun pre x => insertLeft less x pre) pre = l.reverse ++ pre := by
  intro l
  induction l with
  | nil => intro pre _ _; rfl
  | cons x xs ih =>
    intro pre hpre hs
    rw [List.foldl_cons, insertLeft_head less x pre
      (fun y hy => hpre y hy x (List.mem_cons_self _ _))]
    rw [ih (x :: pre) ?_ (List.pairwise_cons.mp hs).2]
    · simp
    · intro y hy z hz
      rcases List.mem_cons.mp hy with e | hy'
      · rw [e]
        exact (List.pairwise_cons.mp hs).1 z hz
      · exact hpre y hy' z (List.mem_cons_of_mem _ hz)

theorem insertionSort_leavesSorted : LeavesSorted insertionSort := by
  intro less l hs
  unfold insertionSort
  rw [foldl_insertLeft_sorted_input less l [] (fun y hy => absurd hy (List.not_mem_nil y)) hs]
  simp

theorem Store.update_self (st : Store) (x : Nat) (f : TreeNode → TreeNode)
    (h : ∀ n, st.heap[x]? = some n → f n = n) : st.update x f = st := by
  unfold Store.update
  cases hn : st.heap[x]? with
  | none => rfl
  | some n =>
    simp only
    rw [h n hn]
    have hset : st.heap.set x n = st.heap := by
      apply List.ext_getElem?
      intro j
      rw [List.getElem?_set]
      by_cases e : x = j
      · subst e
        rw [if_pos rfl, hn]
        have hlt : x < st.heap.length := by
          by_contra hge
          rw [List.getElem?_eq_none (by omega)] at hn
          exact absurd hn (by simp)
        simp [hlt]
      · rw [if_neg e]
    rw [hset]

/-- The walk of `sortTree` with a procedure that leaves sorted slices as they are,
over a heap whose nodes below the stack have their children in order, changes
nothing. -/
theorem Walk_sorted (sort : SortProc) (hinert : LeavesSorted sort) (m : SortMethod) :
    ∀ (fuel : Nat) (stack : List Nat) (st st' : Store),
      (∀ x ∈ stack, ∀ a, st.Reach x a → SortedAt (m.less st) st a) →
      TreeNode.Walk (sortCallback sort m) fuel stack st = .ok st' → st' = st := by
  intro fuel
  induction fuel with
  | zero =>
    intro stack st st' _ h
    cases stack with
    | nil =>
      simp only [TreeNode.Walk, Except.ok.injEq] at h
      exact h.symm
    | cons x xs => simp [TreeNode.Walk] at h
  | succ f ih =>
    intro stack st st' hs h
    cases stack with
    | nil =>
      simp only [TreeNode.Walk, Except.ok.injEq] at h
      exact h.symm
    | cons x xs =>
      simp only [TreeNode.Walk] at h
      cases hcb : sortCallback sort m st x with
      | error e => rw [hcb] at h; exact absurd h (by simp)
      | ok p =>
        obtain ⟨b, st1⟩ := p
        rw [hcb] at h
        obtain ⟨hb, hst1⟩ := sortCallback_inv sort m st x b st1 hcb
        subst hb
        simp only at h
        have hsame : st1 = st := by
          rw [hst1]
          apply Store.update_self
          intro n hn
          have hx := hs x (List.mem_cons_self _ _) x (Store.Reach.refl x)
          unfold SortedAt Store.children at hx
          rw [hn] at hx
          simp only at hx
          rw [hinert (m.less st) n.children hx]
        rw [hsame] at h
        refine ih _ st st' ?_ h
        intro y hy a ha
        rcases List.mem_append.mp hy with hc | hr
        · exact hs x (List.mem_cons_self _ _) a (Store.Reach.step x y a hc ha)
        · exact hs y (List.mem_cons_of_mem _ hr) a ha

/-! ## C12 -/

theorem children_tieStore (order : List Nat) (a : Nat) :
    (tieStore order).children a = if a = 0 then order else [] := by
  match a with
  | 0 => rfl
  | 1 => rfl
  | 2 => rfl
  | n + 3 => rfl

theorem ranked_tieStore : Ranked (tieStore [1, 2]) (fun i => 3 - i) := by
  intro a b hb
  rw [children_tieStore] at hb
  split_ifs at hb with h0
  · simp only [List.mem_cons, List.mem_singleton, List.not_mem_nil, or_false] at hb
    show 3 - b < 3 - a
    omega
  · exact absurd hb (List.not_mem_nil b)

theorem referenced_tieStore : Referenced (tieStore [1, 2]) := by
  intro a b hb
  rw [children_tieStore] at hb
  split_ifs at hb with h0
  · simp only [List.mem_cons, List.mem_singleton, List.not_mem_nil, or_false] at hb
    rcases hb with rfl | rfl <;> rfl
  · exact absurd hb (List.not_mem_nil b)

/-- C12. With a sorting procedure that meets the contract of `sort.Sort` and, as
`sort.Sort` does, leaves a slice that is in order as it is, running `sortTree`
twice in a row under the same method, on a tree-shaped heap in which every child
has its reference, returns, and the second run changes nothing: the store after
two runs is the store after one, so the children of every directory are in the
same order, also where children have equal sizes under `sortBySizeDesc`. -/
theorem sortTree_twice (sort : SortProc) (hsort : SortContract sort)
    (hinert : LeavesSorted sort) (method : SortMethod)
    (root : String) (st : Store) (r : Nat) (rank : Nat → Nat)
    (hroot : st.nodes.lookup root = some r) (hrank : Ranked st rank)
    (href : Referenced st) :
    (∃ f1 f2 st1 st2, sortTree sort method root f1 st = .ok st1 ∧
      sortTree sort method root f2 st1 = .ok st2) ∧
    (∀ f1 f2 st1 st2, sortTree sort method root f1 st = .ok st1 →
      sortTree sort method root f2 st1 = .ok st2 →
      st2 = st1 ∧ ∀ a, st2.children a = st1.children a) := by
  have h := sortTree_then sort hsort method method root st r rank hroot hrank href
  refine ⟨h.1, ?_⟩
  intro f1 f2 st1 st2 h1 h2
  obtain ⟨hre1, hs1, _, _⟩ := h.2 f1 f2 st1 st2 h1 h2
  have hsame : st2 = st1 := by
    unfold sortTree at h2
    rw [hre1.1, hroot] at h2
    refine Walk_sorted sort hinert method f2 [r] st1 st2 ?_ h2
    intro x hx a ha
    rw [List.mem_singleton.mp hx] at ha
    rw [reordered_methodLess hre1 method]
    exact hs1 a ((reordered_reach hre1 r a).mp ha)
  exact ⟨hsame, fun a => by rw [hsame]⟩

/-- C12 on two files `B` and `a` of equal size, with insertion sort: sorted by size
once or twice, the root lists `[B, a]`. -/
theorem sortTree_twice_witness :
    sortTree insertionSort SortMethod.sortBySizeDesc "/r" 5 (tieStore [1, 2])
      = .ok (tieStore [1, 2]) ∧
    (tieStore [1, 2]).size 1 = (tieStore [1, 2]).size 2 ∧
    tieStore [1, 2] = tieStore [1, 2] ∧
    ∀ a, (tieStore [1, 2]).children a = (tieStore [1, 2]).children a :=
  ⟨rfl, rfl,
   (sortTree_twice insertionSort insertionSort_contract insertionSort_leavesSorted
      SortMethod.sortBySizeDesc "/r" (tieStore [1, 2]) 0 (fun i => 3 - i) rfl
      ranked_tieStore referenced_tieStore).2 5 5 (tieStore [1, 2]) (tieStore [1, 2])
      rfl rfl⟩


/-! ## The input handler (main.go 202-215) -/

theorem cycle_cycle (m : SortMethod) : m.cycle.cycle = m := by
  cases m <;> rfl

/-- What the handler does on the rune `s`. -/
theorem inputCapture_s (sort : SortProc) (root : String) (fuel : Nat) (app : App)
    (event : EventKey) (hs : event.rune = 's') (app1 : App) (event1 : EventKey)
    (h : inputCapture sort root fuel app event = .ok (app1, event1)) :
    event1 = event ∧ app1.currentSortMethod = app.currentSortMethod.cycle ∧
    sortTree sort app.currentSortMethod.cycle root fuel app.store = .ok app1.store := by
  unfold inputCapture at h
  rw [if_pos hs] at h
  cases hst : sortTree sort app.currentSortMethod.cycle root fuel app.store with
  | error f =>
    rw [hst] at h
    exact absurd h (by simp)
  | ok st =>
    rw [hst] at h
    simp only [Except.ok.injEq, Prod.mk.injEq] at h
    obtain ⟨h1, h2⟩ := h
    subst h1
    exact ⟨h2.symm, rfl, rfl⟩

theorem inputCapture_of_sortTree (sort : SortProc) (root : String) (fuel : Nat) (app : App)
    (event : EventKey) (hs : event.rune = 's') (st : Store)
    (h : sortTree sort app.currentSortMethod.cycle root fuel app.store = .ok st) :
    inputCapture sort root fuel app event
      = .ok ({ store := st, currentSortMethod := app.currentSortMethod.cycle }, event) := by
  unfold inputCapture
  rw [if_pos hs, h]

theorem ranked_scenarioBySize : Ranked scenarioBySize scenarioRank := by
  intro a b hb
  rw [children_scenarioBySize] at hb
  unfold scenarioRank
  split_ifs at hb with h0 h2
  · simp only [List.mem_cons, List.mem_singleton, List.not_mem_nil, or_false] at hb
    omega
  · simp only [List.mem_singleton] at hb
    omega
  · exact absurd hb (List.not_mem_nil b)

theorem referenced_scenarioBySize : Referenced scenarioBySize := by
  intro a b hb
  rw [children_scenarioBySize] at hb
  split_ifs at hb with h0 h2
  · simp only [List.mem_cons, List.mem_singleton, List.not_mem_nil, or_false] at hb
    rcases hb with rfl | rfl <;> rfl
  · simp only [List.mem_singleton] at hb
    subst hb; rfl
  · exact absurd hb (List.not_mem_nil b)

theorem sorted_scenarioBySize (a : Nat) :
    SortedAt (SortMethod.sortBySizeDesc.less scenarioBySize) scenarioBySize a := by
  unfold SortedAt
  rw [children_scenarioBySize]
  split_ifs with h0 h2
  · refine List.Pairwise.cons ?_ (List.pairwise_singleton _ _)
    intro y hy
    simp only [List.mem_singleton] at hy
    subst hy
    rfl
  · exact List.pairwise_singleton _ _
  · exact List.Pairwise.nil

/-! ## C13 -/

set_option maxRecDepth 4000

/-- C13 fails as stated. With a stable sorting procedure (insertion sort, which is
what `sort.Sort` runs on short slices), the tree of two files `B` and `a` of equal
size starts with the root listing `[B, a]`; the first press of `s` sorts by name
into `[a, B]`, and the second press sorts by size and leaves `[a, B]`, since the
sizes are equal: the method is back to `sortBySizeDesc`, the order is not. -/
theorem cycle_sort_twice_counterexample :
    startup insertionSort "/r" 5 tieEntries
      = .ok { store := tieStore [1, 2], currentSortMethod := SortMethod.sortBySizeDesc } ∧
    inputCapture insertionSort "/r" 5
        { store := tieStore [1, 2], currentSortMethod := SortMethod.sortBySizeDesc }
        { key := 256, rune := 's', modifiers := 0 }
      = .ok ({ store := tieStore [2, 1], currentSortMethod := SortMethod.sortByName },
             { key := 256, rune := 's', modifiers := 0 }) ∧
    inputCapture insertionSort "/r" 5
        { store := tieStore [2, 1], currentSortMethod := SortMethod.sortByName }
        { key := 256, rune := 's', modifiers := 0 }
      = .ok ({ store := tieStore [2, 1], currentSortMethod := SortMethod.sortBySizeDesc },
             { key := 256, rune := 's', modifiers := 0 }) ∧
    (tieStore [2, 1]).children 0 ≠ (tieStore [1, 2]).children 0 :=
  ⟨rfl, rfl, rfl, by decide⟩

/-- Two presses of `s` on a tree-shaped heap in which every child has its reference
and the children of every directory of the tree are in order under the current
method. -/
theorem cycle_twice_of_sorted (sort : SortProc) (hsort : SortContract sort) (root : String)
    (app : App) (r : Nat) (rank : Nat → Nat)
    (hroot : app.store.nodes.lookup root = some r) (hrank : Ranked app.store rank)
    (href : Referenced app.store)
    (hsorted : ∀ a, app.store.Reach r a →
      SortedAt (app.currentSortMethod.less app.store) app.store a)
    (event1 event2 : EventKey) (hs1 : event1.rune = 's') (hs2 : event2.rune = 's') :
    (∃ f1 f2 app1 app2, inputCapture sort root f1 app event1 = .ok (app1, event1) ∧
      inputCapture sort root f2 app1 event2 = .ok (app2, event2)) ∧
    (∀ f1 f2 app1 app2 e1 e2, inputCapture sort root f1 app event1 = .ok (app1, e1) →
      inputCapture sort root f2 app1 event2 = .ok (app2, e2) →
      app2.currentSortMethod = app.currentSortMethod ∧
      ∀ a, app.store.Reach r a →
        (app.currentSortMethod = SortMethod.sortBySizeDesc →
          (app2.store.children a).map app2.store.size
            = (app.store.children a).map app.store.size) ∧
        (KeysDistinct app.currentSortMethod app.store a →
          app2.store.children a = app.store.children a)) := by
  have h := sortTree_then sort hsort app.currentSortMethod.cycle
    app.currentSortMethod.cycle.cycle root app.store r rank hroot hrank href
  constructor
  · obtain ⟨f1, f2, st1, st2, h1, h2⟩ := h.1
    exact ⟨f1, f2, _, _, inputCapture_of_sortTree sort root f1 app event1 hs1 st1 h1,
      inputCapture_of_sortTree sort root f2 _ event2 hs2 st2 h2⟩
  · intro f1 f2 app1 app2 e1 e2 h1 h2
    obtain ⟨_, hm1, ht1⟩ := inputCapture_s sort root f1 app event1 hs1 app1 e1 h1
    obtain ⟨_, hm2, ht2⟩ := inputCapture_s sort root f2 app1 event2 hs2 app2 e2 h2
    rw [hm1] at hm2 ht2
    obtain ⟨_, _, hre2, hsrt2⟩ := h.2 f1 f2 app1.store app2.store ht1 ht2
    rw [cycle_cycle] at hm2 hsrt2
    refine ⟨hm2, fun a ha => ?_⟩
    exact sorted_stores_agree app.currentSortMethod app.store app.store app2.store a href
      (reordered_refl app.store) hre2 (hsorted a ha) (hsrt2 a ha)

/-! ## C16 -/

/-- C16. The input handler returns the event it was given. On the rune `s` the
method advances one step in the cycle (`sortByName` to `sortBySizeDesc`,
`sortBySizeDesc` to `sortByName`) and the store is the result of `sortTree` under
the new method; on a tree-shaped heap in which every child has its reference the
handler returns, the store is the old one with children lists rearranged, and the
children of every directory of the tree are in order under the new method. On any
other rune the state, and with it the method and every children list, is
unchanged. -/
theorem inputCapture_spec (sort : SortProc) (hsort : SortContract sort) (root : String)
    (app : App) (event : EventKey) :
    (∀ fuel app1 event1, inputCapture sort root fuel app event = .ok (app1, event1) →
      event1 = event) ∧
    (event.rune = 's' →
      (∀ fuel app1 event1, inputCapture sort root fuel app event = .ok (app1, event1) →
        app1.currentSortMethod = app.currentSortMethod.cycle ∧
        sortTree sort app.currentSortMethod.cycle root fuel app.store = .ok app1.store) ∧
      (∀ (r : Nat) (rank : Nat → Nat), app.store.nodes.lookup root = some r →
        Ranked app.store rank → Referenced app.store →
        (∃ fuel app1, inputCapture sort root fuel app event = .ok (app1, event)) ∧
        ∀ fuel app1 event1, inputCapture sort root fuel app event = .ok (app1, event1) →
          Reordered app.store app1.store ∧
          ∀ a, app.store.Reach r a →
            SortedAt (app1.currentSortMethod.less app.store) app1.store a)) ∧
    (event.rune ≠ 's' → ∀ fuel, inputCapture sort root fuel app event = .ok (app, event)) ∧
    SortMethod.sortByName.cycle = SortMethod.sortBySizeDesc ∧
    SortMethod.sortBySizeDesc.cycle = SortMethod.sortByName := by
  refine ⟨?_, ?_, ?_, rfl, rfl⟩
  · intro fuel app1 event1 h
    by_cases hs : event.rune = 's'
    · exact (inputCapture_s sort root fuel app event hs app1 event1 h).1
    · unfold inputCapture at h
      rw [if_neg hs] at h
      simp only [Except.ok.injEq, Prod.mk.injEq] at h
      exact h.2.symm
  · intro hs
    constructor
    · intro fuel app1 event1 h
      exact (inputCapture_s sort root fuel app event hs app1 event1 h).2
    · intro r rank hroot hrank href
      have hres := sortTree_result sort hsort app.currentSortMethod.cycle root app.store r
        rank hroot hrank href app.store (reordered_refl app.store)
      constructor
      · obtain ⟨fuel, st1, h1⟩ := hres.1
        exact ⟨fuel, _, inputCapture_of_sortTree sort root fuel app event hs st1 h1⟩
      · intro fuel app1 event1 h
        obtain ⟨_, hm, ht⟩ := inputCapture_s sort root fuel app event hs app1 event1 h
        rw [hm]
        exact hres.2 fuel app1.store ht
  · intro hs fuel
    unfold inputCapture
    rw [if_neg hs]

/-- C16 on the scenario: the rune `s` takes the tree sorted by name under
`sortByName` to the tree sorted by size under `sortBySizeDesc` and returns the
event; the rune `q` changes nothing. -/
theorem inputCapture_spec_witness :
    inputCapture insertionSort "/r" 5
        { store := scenarioStore, currentSortMethod := SortMethod.sortByName }
        { key := 256, rune := 's', modifiers := 0 }
      = .ok ({ store := scenarioBySize, currentSortMethod := SortMethod.sortBySizeDesc },
             { key := 256, rune := 's', modifiers := 0 }) ∧
    inputCapture insertionSort "/r" 5
        { store := scenarioStore, currentSortMethod := SortMethod.sortByName }
        { key := 256, rune := 'q', modifiers := 0 }
      = .ok ({ store := scenarioStore, currentSortMethod := SortMethod.sortByName },
             { key := 256, rune := 'q', modifiers := 0 }) :=
  ⟨rfl,
   (inputCapture_spec insertionSort insertionSort_contract "/r"
      { store := scenarioStore, currentSortMethod := SortMethod.sortByName }
      { key := 256, rune := 'q', modifiers := 0 }).2.2.1 (by decide) 5⟩


/-! ## Expansion (main.go 157-175) -/

theorem Store.Chain_iff (st : Store) (n x : Nat) :
    st.Chain n x ↔ x = n ∨ ∃ c, st.children n = [c] ∧ st.Chain c x := by
  constructor
  · intro h
    cases h with
    | start => exact Or.inl rfl
    | step _ c _ hc hx => exact Or.inr ⟨c, hc, hx⟩
  · rintro (rfl | ⟨c, hc, hx⟩)
    · exact Store.Chain.start x
    · exact Store.Chain.step n c x hc hx

theorem Store.Chain_congr (st st1 : Store) (h : ∀ a, st1.children a = st.children a)
    (n x : Nat) : st1.Chain n x ↔ st.Chain n x := by
  constructor
  · intro hc
    induction hc with
    | start a => exact Store.Chain.start a
    | step a c x hc _ ih => exact Store.Chain.step a c x (by rw [← h a]; exact hc) ih
  · intro hc
    induction hc with
    | start a => exact Store.Chain.start a
    | step a c x hc _ ih => exact Store.Chain.step a c x (by rw [h a]; exact hc) ih

/-- One node of the chain is a step on the way of `Reach`. -/
theorem Store.Chain.reach {st : Store} {n x : Nat} (h : st.Chain n x) : st.Reach n x := by
  induction h with
  | start a => exact Store.Reach.refl a
  | step a c x hc _ ih =>
    exact Store.Reach.step a c x (by rw [hc]; exact List.mem_singleton.mpr rfl) ih

theorem children_setExpanded (st : Store) (node : Nat) (b : Bool) (a : Nat) :
    (st.update node fun n => { n with expanded := b }).children a = st.children a :=
  Store.children_update st node a (fun n => { n with expanded := b }) (fun _ => rfl)

/-- What `expand` leaves when it returns: the nodes of the chain set expanded, every
other node as it was. -/
theorem expand_result : ∀ (fuel : Nat) (st : Store) (n : Nat) (st' : Store),
    expand fuel st n = .ok st' →
    st'.nodes = st.nodes ∧
    ∀ id, (st.Chain n id → ∃ m, st.heap[id]? = some m ∧
            st'.heap[id]? = some { m with expanded := true }) ∧
          (¬ st.Chain n id → st'.heap[id]? = st.heap[id]?) := by
  intro fuel
  induction fuel with
  | zero =>
    intro st n st' h
    exact absurd h (by simp [expand])
  | succ fuel ih =>
    intro st n st' h
    unfold expand at h
    cases hm : st.heap[n]? with
    | none =>
      rw [hm] at h
      exact absurd h (by simp)
    | some m =>
      rw [hm] at h
      simp only at h
      rw [children_setExpanded] at h
      have hget : ∀ id, (st.update n fun k => { k with expanded := true }).heap[id]?
          = if id = n then some { m with expanded := true } else st.heap[id]? := by
        intro id
        rw [Store.update_get, hm]
        rfl
      by_cases hone : ∃ c, st.children n = [c]
      · obtain ⟨c, hc⟩ := hone
        rw [hc] at h
        simp only at h
        obtain ⟨hn, hid⟩ := ih _ c st' h
        refine ⟨hn.trans (Store.update_nodes _ _ _), fun id => ?_⟩
        have hchain : ∀ x, (st.update n fun k => { k with expanded := true }).Chain c x
            ↔ st.Chain c x :=
          Store.Chain_congr st _ (children_setExpanded st n true) c
        have hstep : st.Chain n id ↔ id = n ∨ st.Chain c id := by
          rw [Store.Chain_iff st n id]
          constructor
          · rintro (h1 | ⟨c', hc', hx⟩)
            · exact Or.inl h1
            · rw [hc] at hc'
              cases hc'
              exact Or.inr hx
          · rintro (h1 | hx)
            · exact Or.inl h1
            · exact Or.inr ⟨c, hc, hx⟩
        by_cases hcid : st.Chain c id
        · obtain ⟨m1, hm1, hm1'⟩ := (hid id).1 ((hchain id).mpr hcid)
          refine ⟨fun _ => ?_, fun hno => absurd (hstep.mpr (Or.inr hcid)) hno⟩
          rw [hget] at hm1
          by_cases e : id = n
          · subst e
            rw [if_pos rfl] at hm1
            cases hm1
            exact ⟨m, hm, hm1'⟩
          · rw [if_neg e] at hm1
            exact ⟨m1, hm1, hm1'⟩
        · have hsame := (hid id).2 (fun hx => hcid ((hchain id).mp hx))
          rw [hget] at hsame
          constructor
          · intro hx
            rcases hstep.mp hx with e | hx'
            · subst e
              rw [if_pos rfl] at hsame
              exact ⟨m, hm, hsame⟩
            · exact absurd hx' hcid
          · intro hno
            have e : id ≠ n := fun e => hno (hstep.mpr (Or.inl e))
            rw [if_neg e] at hsame
            exact hsame
      · have hst : st' = st.update n fun k => { k with expanded := true } := by
          cases hcs : st.children n with
          | nil =>
            rw [hcs] at h
            simp only [Except.ok.injEq] at h
            exact h.symm
          | cons c rest =>
            cases rest with
            | nil => exact absurd ⟨c, hcs⟩ hone
            | cons d rest =>
              rw [hcs] at h
              simp only [Except.ok.injEq] at h
              exact h.symm
        subst hst
        refine ⟨Store.update_nodes _ _ _, fun id => ?_⟩
        have hstep : st.Chain n id ↔ id = n := by
          rw [Store.Chain_iff st n id]
          constructor
          · rintro (h1 | ⟨c, hc, _⟩)
            · exact h1
            · exact absurd ⟨c, hc⟩ hone
          · exact Or.inl
        rw [hget, hstep]
        constructor
        · intro e
          subst e
          rw [if_pos rfl]
          exact ⟨m, hm, rfl⟩
        · intro e
          rw [if_neg e]

/-- On a tree-shaped heap `expand` returns, given fuel above the rank of the node. -/
theorem expand_terminates (rank : Nat → Nat) : ∀ (fuel : Nat) (st : Store) (n : Nat),
    Ranked st rank → Allocated st → n < st.heap.length → rank n < fuel →
    ∃ st', expand fuel st n = .ok st' := by
  intro fuel
  induction fuel with
  | zero =>
    intro st n _ _ _ hf
    exact absurd hf (Nat.not_lt_zero _)
  | succ fuel ih =>
    intro st n hrank halloc hn hf
    unfold expand
    rw [List.getElem?_eq_getElem hn]
    simp only
    rw [children_setExpanded]
    cases hcs : st.children n with
    | nil => exact ⟨_, rfl⟩
    | cons c rest =>
      cases rest with
      | cons d rest => exact ⟨_, rfl⟩
      | nil =>
        simp only
        have hmem : c ∈ st.children n := by rw [hcs]; exact List.mem_singleton.mpr rfl
        refine ih _ c ?_ ?_ ?_ ?_
        · intro a b hb
          rw [children_setExpanded] at hb
          exact hrank a b hb
        · intro a b hb
          rw [children_setExpanded] at hb
          rw [Store.update_length]
          exact halloc a b hb
        · rw [Store.update_length]
          exact halloc n c hmem
        · have := hrank n c hmem
          omega

/-- With more fuel `expand` returns the same store. -/
theorem expand_mono : ∀ (fuel : Nat) (st : Store) (n : Nat) (st' : Store),
    expand fuel st n = .ok st' → ∀ fuel', fuel ≤ fuel' → expand fuel' st n = .ok st' := by
  intro fuel
  induction fuel with
  | zero =>
    intro st n st' h
    exact absurd h (by simp [expand])
  | succ fuel ih =>
    intro st n st' h fuel' hle
    obtain ⟨g, rfl⟩ : ∃ g, fuel' = g + 1 := ⟨fuel' - 1, by omega⟩
    unfold expand at h ⊢
    cases hm : st.heap[n]? with
    | none =>
      rw [hm] at h
      exact absurd h (by simp)
    | some m =>
      rw [hm] at h
      simp only at h ⊢
      cases hcs : (st.update n fun k => { k with expanded := true }).children n with
      | nil =>
        rw [hcs] at h
        exact h
      | cons c rest =>
        cases rest with
        | cons d rest =>
          rw [hcs] at h
          exact h
        | nil =>
          rw [hcs] at h
          simp only at h ⊢
          exact ih _ c st' h g (by omega)

/-! ## C14 -/

/-- C14. On a tree-shaped heap whose children are allocated nodes, `expand(n)` on a
node `n` of the heap returns (with fuel above the rank of `n`); and whenever it
returns, every node on the single-child chain from `n` is in the heap and is the
node it was with the expanded flag set, every node that is not on the chain is
exactly as it was, and so are the registry and every children list. -/
theorem expand_chain (st : Store) (n : Nat) :
    (∀ rank : Nat → Nat, Ranked st rank → Allocated st → n < st.heap.length →
      ∃ st', expand (rank n + 1) st n = .ok st') ∧
    (∀ fuel st', expand fuel st n = .ok st' →
      st'.nodes = st.nodes ∧
      ∀ id, (st.Chain n id → ∃ m, st.heap[id]? = some m ∧
              st'.heap[id]? = some { m with expanded := true } ∧
              st'.expanded? id = some true) ∧
            (¬ st.Chain n id → st'.heap[id]? = st.heap[id]? ∧
              st'.expanded? id = st.expanded? id) ∧
            st'.children id = st.children id) := by
  constructor
  · intro rank hrank halloc hn
    exact expand_terminates rank (rank n + 1) st n hrank halloc hn (Nat.lt_succ_self _)
  · intro fuel st' h
    obtain ⟨hnodes, hid⟩ := expand_result fuel st n st' h
    refine ⟨hnodes, fun id => ⟨?_, ?_, ?_⟩⟩
    · intro hc
      obtain ⟨m, hm, hm'⟩ := (hid id).1 hc
      refine ⟨m, hm, hm', ?_⟩
      unfold Store.expanded?
      rw [hm']
    · intro hc
      have hsame := (hid id).2 hc
      refine ⟨hsame, ?_⟩
      unfold Store.expanded?
      rw [hsame]
    · by_cases hc : st.Chain n id
      · obtain ⟨m, hm, hm'⟩ := (hid id).1 hc
        unfold Store.children
        rw [hm, hm']
      · unfold Store.children
        rw [(hid id).2 hc]

theorem allocated_scenario : Allocated scenarioStore := by
  intro a b hb
  rw [children_scenario] at hb
  show b < 4
  split_ifs at hb with h0 h2
  · simp only [List.mem_cons, List.mem_singleton, List.not_mem_nil, or_false] at hb
    omega
  · simp only [List.mem_singleton] at hb
    omega
  · exact absurd hb (List.not_mem_nil b)

/-- C14 on the scenario: `expand` on `Y`, whose only child is `z`, returns with `Y`
and `z` expanded, and leaves the root collapsed. -/
theorem expand_chain_witness :
    (∃ st', expand (scenarioRank 2 + 1) scenarioStore 2 = .ok st') ∧
    (∀ st', expand 3 scenarioStore 2 = .ok st' →
      st'.expanded? 2 = some true ∧ st'.expanded? 3 = some true ∧
      st'.expanded? 0 = some false) :=
  ⟨(expand_chain scenarioStore 2).1 scenarioRank ranked_scenario allocated_scenario
      (by decide),
   fun st' h =>
    ⟨by
      obtain ⟨_, _, _, he⟩ := (((expand_chain scenarioStore 2).2 3 st' h).2 2).1
        (Store.Chain.start 2)
      exact he,
     by
      obtain ⟨_, _, _, he⟩ := (((expand_chain scenarioStore 2).2 3 st' h).2 3).1
        (Store.Chain.step 2 3 3 rfl (Store.Chain.start 3))
      exact he,
     by
      have hno : ¬ scenarioStore.Chain 2 0 := by
        intro hc
        rcases (Store.Chain_iff scenarioStore 2 0).mp hc with e | ⟨c, hc2, hx⟩
        · exact absurd e (by decide)
        · have : c = 3 := by
            have h3 : scenarioStore.children 2 = [3] := rfl
            rw [h3] at hc2
            cases hc2
            rfl
          subst this
          rcases (Store.Chain_iff scenarioStore 3 0).mp hx with e | ⟨c, hc3, _⟩
          · exact absurd e (by decide)
          · have h3 : scenarioStore.children 3 = [] := rfl
            rw [h3] at hc3
            exact absurd hc3 (by simp)
      rw [((((expand_chain scenarioStore 2).2 3 st' h).2 0).2.1 hno).2]
      rfl⟩⟩

/-! ## C15 -/

/-- C15. The selection handler on a node of the heap: when the node is expanded,
the handler returns the store in which that node is the node it was with the
expanded flag cleared and every other node, the registry and every children list
are as they were; otherwise its result is the result of `expand` on the node. -/
theorem selectedFunc_spec (fuel : Nat) (st : Store) (node : Nat) (m : TreeNode)
    (hm : st.heap[node]? = some m) :
    (m.expanded = true →
      ∃ st', selectedFunc fuel st node = .ok st' ∧ st'.nodes = st.nodes ∧
        st'.heap[node]? = some { m with expanded := false } ∧
        st'.expanded? node = some false ∧
        (∀ id, id ≠ node → st'.heap[id]? = st.heap[id]? ∧
          st'.expanded? id = st.expanded? id) ∧
        ∀ id, st'.children id = st.children id) ∧
    (m.expanded = false → selectedFunc fuel st node = expand fuel st node) := by
  constructor
  · intro he
    refine ⟨st.update node fun n => { n with expanded := false }, ?_, ?_, ?_, ?_, ?_, ?_⟩
    · unfold selectedFunc
      rw [hm]
      simp only [he, if_true]
    · exact Store.update_nodes _ _ _
    · rw [Store.update_get, if_pos rfl, hm]
      rfl
    · unfold Store.expanded?
      rw [Store.update_get, if_pos rfl, hm]
      rfl
    · intro id hne
      have hsame : (st.update node fun n => { n with expanded := false }).heap[id]?
          = st.heap[id]? := by
        rw [Store.update_get, if_neg hne]
      refine ⟨hsame, ?_⟩
      unfold Store.expanded?
      rw [hsame]
    · intro id
      exact children_setExpanded st node false id
  · intro he
    unfold selectedFunc
    rw [hm]
    simp only [he, Bool.false_eq_true, if_false]

/-- C15 on the scenario: selecting the collapsed `Y` expands `Y` and its only child
`z`; selecting `Y` again collapses `Y` alone, and `z` stays expanded. -/
theorem selectedFunc_spec_witness :
    selectedFunc 3 scenarioStore 2 = expand 3 scenarioStore 2 ∧
    (∀ st1, expand 3 scenarioStore 2 = .ok st1 →
      ∃ st2, selectedFunc 3 st1 2 = .ok st2 ∧ st2.expanded? 2 = some false ∧
        st2.expanded? 3 = st1.expanded? 3) :=
  ⟨(selectedFunc_spec 3 scenarioStore 2 _ rfl).2 rfl,
   fun st1 h => by
    obtain ⟨m, hm, hm'⟩ := (((expand_result 3 scenarioStore 2 st1 h).2 2).1
      (Store.Chain.start 2))
    obtain ⟨st2, h1, _, _, h4, h5, _⟩ := (selectedFunc_spec 3 st1 2 _ hm').1 rfl
    exact ⟨st2, h1, h4, (h5 3 (by decide)).2⟩⟩


/-! ## C17: the error argument of the walk function -/

/-- C17 fails in the code. The walk function never reads its error argument: its
result is the same whatever the argument is. In a walk that reports the directory
`/r/d` with its file info and a non-nil error (the directory could not be read),
the walk function returns nil, the scan goes on and ends normally with `/r/d`
registered as node 1, a child of the root, and the root holding the 500 bytes of
`/r/x`. When the entry comes without a file info, the walk function does not
return an error either: it panics. -/
theorem scan_ignores_walk_error :
    (∀ (root : String) (fuel : Nat) (st : Store) (e : Entry) (b : Bool),
      walkFn root fuel st { e with err := b } = walkFn root fuel st e) ∧
    (∃ st, scan 5 "/r" unreadableEntries = .ok st ∧
      st.nodes.lookup "/r/d" = some 1 ∧ st.children 0 = [1, 2] ∧ st.size 0 = 500) ∧
    (∀ (root : String) (fuel : Nat) (st : Store) (e : Entry), e.info = none →
      walkFn root fuel st e
        = .error (Fault.panic "invalid memory address or nil pointer dereference")) :=
  ⟨fun _ _ _ _ _ => rfl, ⟨_, rfl, rfl, rfl, rfl⟩,
   fun root fuel st e h => walkFn_no_info root fuel st e h⟩


/-! ## What the scan keeps for any sequence of entries -/

/-- The loop of `propagateSize` changes references only. -/
theorem propagateLoop_frame (s : Int) :
    ∀ (fuel : Nat) (cur : String) (st st' : Store),
      propagateLoop s fuel cur st = .ok st' →
      st'.nodes = st.nodes ∧
      ∀ id : Nat, (st'.heap[id]?).map (fun n : TreeNode => { n with reference := none })
        = (st.heap[id]?).map (fun n : TreeNode => { n with reference := none }) := by
  intro fuel
  induction fuel with
  | zero =>
    intro cur st st' h
    exact absurd h (by simp [propagateLoop])
  | succ f ih =>
    intro cur st st' h
    unfold propagateLoop at h
    cases hl : st.nodes.lookup cur with
    | none =>
      rw [hl] at h
      simp only [Except.ok.injEq] at h
      subst h
      exact ⟨rfl, fun _ => rfl⟩
    | some id =>
      rw [hl] at h
      simp only at h
      cases hr : st.reference? id with
      | none => rw [hr] at h; exact absurd h (by simp)
      | some info =>
        rw [hr] at h
        simp only at h
        obtain ⟨h1, h2⟩ := ih _ _ _ h
        refine ⟨h1.trans (Store.update_nodes _ _ _), fun j => ?_⟩
        rw [h2 j, Store.update_get]
        by_cases e : j = id
        · subst e
          rw [if_pos rfl]
          cases st.heap[j]? <;> rfl
        · rw [if_neg e]

/-- The errors of the loop of `propagateSize`. -/
theorem propagateLoop_error (s : Int) :
    ∀ (fuel : Nat) (cur : String) (st : Store) (f : Fault),
      propagateLoop s fuel cur st = .error f →
      f = Fault.timeout ∨ f = Fault.panic "interface conversion: interface is nil" := by
  intro fuel
  induction fuel with
  | zero =>
    intro cur st f h
    simp only [propagateLoop, Except.error.injEq] at h
    exact Or.inl h.symm
  | succ k ih =>
    intro cur st f h
    unfold propagateLoop at h
    cases hl : st.nodes.lookup cur with
    | none => rw [hl] at h; exact absurd h (by simp)
    | some id =>
      rw [hl] at h
      simp only at h
      cases hr : st.reference? id with
      | none =>
        rw [hr] at h
        simp only [Except.error.injEq] at h
        exact Or.inr h.symm
      | some info =>
        rw [hr] at h
        exact ih _ _ _ h

theorem frame_length {st st' : Store}
    (h : ∀ id : Nat, (st'.heap[id]?).map (fun n : TreeNode => { n with reference := none })
      = (st.heap[id]?).map (fun n : TreeNode => { n with reference := none })) :
    st'.heap.length = st.heap.length := by
  have key : ∀ id : Nat, st'.heap[id]? = none ↔ st.heap[id]? = none := by
    intro id
    have := h id
    cases h1 : st'.heap[id]? <;> cases h2 : st.heap[id]? <;> simp [h1, h2] at this ⊢
  have h1 := (key st.heap.length).mpr (List.getElem?_eq_none (Nat.le_refl _))
  have h2 := (key st'.heap.length).mp (List.getElem?_eq_none (Nat.le_refl _))
  rw [List.getElem?_eq_none_iff] at h1 h2
  omega

theorem frame_node {st st' : Store}
    (h : ∀ id : Nat, (st'.heap[id]?).map (fun n : TreeNode => { n with reference := none })
      = (st.heap[id]?).map (fun n : TreeNode => { n with reference := none }))
    (id : Nat) (n' : TreeNode) (hn : st'.heap[id]? = some n') :
    ∃ n, st.heap[id]? = some n ∧ n'.children = n.children ∧ n'.expanded = n.expanded := by
  have := h id
  rw [hn] at this
  cases h2 : st.heap[id]? with
  | none => rw [h2] at this; exact absurd this (by simp)
  | some n =>
    rw [h2] at this
    simp only [Option.map_some', Option.some.injEq, TreeNode.mk.injEq] at this
    exact ⟨n, rfl, this.2.2.2.2.2, this.2.2.1⟩

theorem frame_children {st st' : Store}
    (h : ∀ id : Nat, (st'.heap[id]?).map (fun n : TreeNode => { n with reference := none })
      = (st.heap[id]?).map (fun n : TreeNode => { n with reference := none }))
    (id : Nat) : st'.children id = st.children id := by
  unfold Store.children
  cases hn : st'.heap[id]? with
  | none =>
    have := h id
    rw [hn] at this
    cases h2 : st.heap[id]? with
    | none => rfl
    | some n => rw [h2] at this; exact absurd this (by simp)
  | some n' =>
    obtain ⟨n, h2, hc, _⟩ := frame_node h id n' hn
    rw [h2]
    exact hc

theorem Rooted.frame {root : String} {done : List Entry} {st st' : Store}
    (h : Rooted root done st) (hn : st'.nodes = st.nodes)
    (hf : ∀ id : Nat, (st'.heap[id]?).map (fun n : TreeNode => { n with reference := none })
      = (st.heap[id]?).map (fun n : TreeNode => { n with reference := none })) :
    Rooted root done st' := by
  refine ⟨?_, ?_, ?_, ?_, ?_⟩
  · rw [frame_length hf]; exact h.len
  · intro p i hp
    rw [hn] at hp
    exact h.sound p i hp
  · intro i p hp
    rw [hn]
    exact h.complete i p hp
  · intro i n' hi
    obtain ⟨n, h2, _, he⟩ := frame_node hf i n' hi
    rw [he]
    exact h.collapsed i n h2
  · intro i e he hne
    obtain ⟨m, hm, hi⟩ := h.att i e he hne
    exact ⟨m, hm, by rw [frame_children hf]; exact hi⟩

theorem rooted_empty (root : String) : Rooted root [] { heap := [], nodes := [] } := by
  refine ⟨rfl, ?_, ?_, ?_, ?_⟩
  · intro p i h; simp at h
  · intro i p h; simp [pathAt] at h
  · intro i n h; simp at h
  · intro i e h; simp at h

/-- The parent the walk function finds is an allocated node. -/
theorem Rooted.parent_allocated {root : String} {done : List Entry} {st : Store} {e : Entry}
    (h : Rooted root done st) {parent : Option Nat}
    (hp : ((e.cleanPath, st.heap.length) :: st.nodes).lookup (Dir e.cleanPath) = parent) :
    ∀ p, parent = some p → p ≤ st.heap.length := by
  intro p hpp
  rw [hpp, lookup_cons_eq] at hp
  by_cases e1 : Dir e.cleanPath = e.cleanPath
  · rw [if_pos e1] at hp
    injection hp with hp
    omega
  · rw [if_neg e1] at hp
    have := pathAt_lt (h.sound _ p hp)
    rw [h.len]
    omega

/-- The store with the node of one more entry. -/
theorem rooted_grow {root : String} {done : List Entry} {st : Store} {e : Entry}
    (h : Rooted root done st) (isDir : Bool) (size : Int) {parent : Option Nat}
    (hp : ((e.cleanPath, st.heap.length) :: st.nodes).lookup (Dir e.cleanPath) = parent)
    (hroot : parent = none → e.cleanPath = root) :
    Rooted root (done ++ [e]) (st.grow e.cleanPath isDir size parent) := by
  have hple := h.parent_allocated hp
  have hsound : ∀ p i, ((e.cleanPath, st.heap.length) :: st.nodes).lookup p = some i →
      pathAt (done ++ [e]) i = some p := by
    intro p i hl
    rw [lookup_cons_eq] at hl
    rw [pathAt_snoc]
    by_cases e1 : p = e.cleanPath
    · rw [if_pos e1] at hl
      injection hl with hl
      rw [← hl, h.len, if_neg (Nat.lt_irrefl _), if_pos rfl, e1]
    · rw [if_neg e1] at hl
      have := h.sound p i hl
      rw [if_pos (pathAt_lt this)]
      exact this
  refine ⟨?_, ?_, ?_, ?_, ?_⟩
  · rw [Store.grow_length, h.len, List.length_append, List.length_singleton]
  · intro p i hl
    rw [Store.grow_nodes] at hl
    exact hsound p i hl
  · intro i p hi
    rw [Store.grow_nodes, lookup_cons_eq]
    by_cases e1 : p = e.cleanPath
    · rw [if_pos e1]; rfl
    · rw [if_neg e1]
      rw [pathAt_snoc] at hi
      by_cases e2 : i < done.length
      · rw [if_pos e2] at hi
        exact h.complete i p hi
      · rw [if_neg e2] at hi
        by_cases e3 : i = done.length
        · rw [if_pos e3] at hi
          injection hi with hi
          exact absurd hi.symm e1
        · rw [if_neg e3] at hi
          exact absurd hi (by simp)
  · intro i n hi
    rw [Store.grow_get st _ _ _ _ hple i] at hi
    by_cases e1 : i = st.heap.length
    · rw [if_pos e1] at hi
      injection hi with hi
      rw [← hi]
    · rw [if_neg e1] at hi
      cases h0 : st.heap[i]? with
      | none => rw [h0] at hi; exact absurd hi (by simp)
      | some n0 =>
        rw [h0] at hi
        simp only [Option.map_some', Option.some.injEq] at hi
        have hc := h.collapsed i n0 h0
        rw [← hi]
        split_ifs
        · exact hc
        · exact hc
  · intro i x hx hne
    rw [snoc_get] at hx
    by_cases e2 : i < done.length
    · rw [if_pos e2] at hx
      obtain ⟨m, hm, hi⟩ := h.att i x hx hne
      refine ⟨m, ?_, ?_⟩
      · rw [pathAt_snoc, if_pos (pathAt_lt hm)]
        exact hm
      · rw [Store.grow_children st _ _ _ _ hple m]
        exact List.mem_append_left _ hi
    · rw [if_neg e2] at hx
      by_cases e3 : i = done.length
      · rw [if_pos e3] at hx
        injection hx with hx
        subst hx
        cases hpar : parent with
        | none => exact absurd (hroot hpar) hne
        | some m =>
          rw [hpar] at hp
          refine ⟨m, hsound _ m hp, ?_⟩
          rw [Store.grow_children st _ _ _ _ (by rw [← hpar]; exact hple) m, if_pos rfl,
            e3, h.len]
          exact List.mem_append_right _ (List.mem_singleton.mpr rfl)
      · rw [if_neg e3] at hx
        exact absurd hx (by simp)

/-- What an error of the walk function can be. -/
theorem walkFn_error (root : String) (fuel : Nat) (st : Store) (e : Entry) (f : Fault)
    (h : walkFn root fuel st e = .error f) :
    (e.info = none ∧
      f = Fault.panic "invalid memory address or nil pointer dereference") ∨
    (((e.cleanPath, st.heap.length) :: st.nodes).lookup (Dir e.cleanPath) = none ∧
      e.cleanPath ≠ root ∧ f = Fault.panic ("unrooted child path at " ++ e.cleanPath)) ∨
    f = Fault.timeout ∨ f = Fault.panic "interface conversion: interface is nil" := by
  cases hinfo : e.info with
  | none =>
    rw [walkFn_no_info root fuel st e hinfo] at h
    simp only [Except.error.injEq] at h
    exact Or.inl ⟨rfl, h.symm⟩
  | some info =>
    cases hp : ((e.cleanPath, st.heap.length) :: st.nodes).lookup (Dir e.cleanPath) with
    | none =>
      by_cases hroot : e.cleanPath = root
      · rw [walkFn_eq root fuel st e info none hinfo hp (fun _ => hroot)] at h
        split_ifs at h
        exact Or.inr (Or.inr (propagateLoop_error _ _ _ _ _ h))
      · rw [walkFn_unrooted root fuel st e info hinfo hp hroot] at h
        simp only [Except.error.injEq] at h
        exact Or.inr (Or.inl ⟨rfl, hroot, h.symm⟩)
    | some p =>
      rw [walkFn_eq root fuel st e info (some p) hinfo hp (fun x => absurd x (by simp))] at h
      split_ifs at h
      exact Or.inr (Or.inr (propagateLoop_error _ _ _ _ _ h))

/-- One call of the walk function that returns keeps `Rooted`. -/
theorem rooted_step {root : String} {fuel : Nat} {done : List Entry} {st st' : Store}
    {e : Entry} (h : Rooted root done st) (hw : walkFn root fuel st e = .ok st') :
    Rooted root (done ++ [e]) st' := by
  cases hinfo : e.info with
  | none =>
    rw [walkFn_no_info root fuel st e hinfo] at hw
    exact absurd hw (by simp)
  | some info =>
    have hroot : ((e.cleanPath, st.heap.length) :: st.nodes).lookup (Dir e.cleanPath) = none
        → e.cleanPath = root := by
      intro hp
      by_contra hne
      rw [walkFn_unrooted root fuel st e info hinfo hp hne] at hw
      exact absurd hw (by simp)
    rw [walkFn_eq root fuel st e info _ hinfo rfl hroot] at hw
    have hg := rooted_grow h info.isDir info.size rfl hroot
    split_ifs at hw
    · simp only [Except.ok.injEq] at hw
      rw [← hw]
      exact hg
    · obtain ⟨h1, h2⟩ := propagateLoop_frame _ _ _ _ _ hw
      exact hg.frame h1 h2

theorem filepathWalk_rooted (root : String) (fuel : Nat) :
    ∀ (es done : List Entry) (st st' : Store), Rooted root done st →
      filepathWalk root fuel es st = .ok st' → Rooted root (done ++ es) st' := by
  intro es
  induction es with
  | nil =>
    intro done st st' h hw
    simp only [filepathWalk, Except.ok.injEq] at hw
    subst hw
    rw [List.append_nil]
    exact h
  | cons e es ih =>
    intro done st st' h hw
    unfold filepathWalk at hw
    cases hstep : walkFn root fuel st e with
    | error f => rw [hstep] at hw; exact absurd hw (by simp)
    | ok st1 =>
      rw [hstep] at hw
      simp only at hw
      have := ih (done ++ [e]) st1 st' (rooted_step h hstep) hw
      rwa [List.append_assoc, List.singleton_append] at this

theorem scan_rooted {root : String} {fuel : Nat} {entries : List Entry} {st : Store}
    (h : scan fuel root entries = .ok st) : Rooted root entries st := by
  have := filepathWalk_rooted root fuel entries [] _ st (rooted_empty root) h
  rwa [List.nil_append] at this


/-! ## The panic on an unrooted path (main.go 133-138) -/

theorem unrooted_head (p : String) :
    ("unrooted child path at " ++ p).data.head? = some 'u' := by
  rw [String.data_append]
  rfl

theorem unrooted_ne_nil (p : String) :
    Fault.panic ("unrooted child path at " ++ p)
      ≠ Fault.panic "invalid memory address or nil pointer dereference" := by
  intro h
  injection h with h
  have h1 := unrooted_head p
  rw [h] at h1
  exact absurd h1 (by decide)

theorem unrooted_ne_conversion (p : String) :
    Fault.panic ("unrooted child path at " ++ p)
      ≠ Fault.panic "interface conversion: interface is nil" := by
  intro h
  injection h with h
  have h1 := unrooted_head p
  rw [h] at h1
  exact absurd h1 (by decide)

/-- The walk function panics on an unrooted path only when the lookup of line 133
fails and the path is not the root. -/
theorem walkFn_unrooted_only (root : String) (fuel : Nat) (st : Store) (e : Entry)
    (p : String)
    (h : walkFn root fuel st e = .error (Fault.panic ("unrooted child path at " ++ p))) :
    ((e.cleanPath, st.heap.length) :: st.nodes).lookup (Dir e.cleanPath) = none ∧
    e.cleanPath ≠ root := by
  rcases walkFn_error root fuel st e _ h with h1 | h2 | h3 | h4
  · exact absurd h1.2 (unrooted_ne_nil p)
  · exact ⟨h2.1, h2.2.1⟩
  · exact absurd h3 (by simp)
  · exact absurd h4 (unrooted_ne_conversion p)

/-- In a pre-order walk the panic on an unrooted path does not occur. -/
theorem filepathWalk_rooted_always (root : String) (fuel : Nat) :
    ∀ (es done : List Entry) (st : Store), Rooted root done st →
      PreOrder root (done ++ es) → ∀ p,
      filepathWalk root fuel es st
        ≠ .error (Fault.panic ("unrooted child path at " ++ p)) := by
  intro es
  induction es with
  | nil =>
    intro done st _ _ p h
    simp [filepathWalk] at h
  | cons e es ih =>
    intro done st h hpre p hw
    unfold filepathWalk at hw
    cases hstep : walkFn root fuel st e with
    | error f =>
      rw [hstep] at hw
      simp only [Except.error.injEq] at hw
      rw [hw] at hstep
      obtain ⟨hnone, hne⟩ := walkFn_unrooted_only root fuel st e p hstep
      have he : (done ++ e :: es)[done.length]? = some e := by
        rw [List.getElem?_append_right (Nat.le_refl _)]
        simp
      obtain ⟨j, d, hj, hd, hpd⟩ := hpre done.length e he hne
      rw [List.getElem?_append_left hj] at hd
      have hreg := h.complete j (Dir e.cleanPath) (pathAt_eq_some.mpr ⟨d, hd, hpd⟩)
      rw [lookup_cons_eq] at hnone
      split_ifs at hnone
      rw [hnone] at hreg
      exact absurd hreg (by simp)
    | ok st1 =>
      rw [hstep] at hw
      simp only at hw
      refine ih (done ++ [e]) st1 (rooted_step h hstep) ?_ p hw
      rwa [List.append_assoc, List.singleton_append]

/-! ## C19 -/

/-- C19. The walk function panics with "unrooted child path" only if the lookup of
the containing directory fails and the path is not the root, and on an entry with
a file info it does so whenever that is the case (without a file info it panics
before, at `info.IsDir()`); the lookup is made in the registry that already holds
the entry, so it fails exactly when the containing directory is another path and
is not registered. For a sequence in which every entry other than the root comes
after its containing directory, the scan never ends in that panic, and whenever it
returns, every entry other than the root is a child of a node of its containing
directory, the one registered for it when the paths are distinct; the scan returns
under the conditions given in C1. -/
theorem unrooted_panic (root : String) :
    (∀ (fuel : Nat) (st : Store) (e : Entry),
      (∀ p, walkFn root fuel st e
          = .error (Fault.panic ("unrooted child path at " ++ p)) →
        ((e.cleanPath, st.heap.length) :: st.nodes).lookup (Dir e.cleanPath) = none ∧
        e.cleanPath ≠ root) ∧
      (e.info ≠ none →
        ((e.cleanPath, st.heap.length) :: st.nodes).lookup (Dir e.cleanPath) = none →
        e.cleanPath ≠ root →
        walkFn root fuel st e
          = .error (Fault.panic ("unrooted child path at " ++ e.cleanPath))) ∧
      (((e.cleanPath, st.heap.length) :: st.nodes).lookup (Dir e.cleanPath) = none ↔
        Dir e.cleanPath ≠ e.cleanPath ∧ st.nodes.lookup (Dir e.cleanPath) = none)) ∧
    (∀ entries : List Entry, PreOrder root entries →
      (∀ fuel p, scan fuel root entries
        ≠ .error (Fault.panic ("unrooted child path at " ++ p))) ∧
      (∀ fuel st, scan fuel root entries = .ok st →
        ∀ (i : Nat) (e : Entry), entries[i]? = some e → e.cleanPath ≠ root →
          ∃ m, pathAt entries m = some (Dir e.cleanPath) ∧ i ∈ st.children m ∧
            ((entries.map Entry.cleanPath).Nodup →
              st.nodes.lookup (Dir e.cleanPath) = some m)) ∧
      ((entries.map Entry.cleanPath).Nodup → SizesInRange entries → AllStated entries →
        Dir root ∉ entries.map Entry.cleanPath →
        ∃ st, scan (entries.length + 1) root entries = .ok st)) := by
  constructor
  · intro fuel st e
    refine ⟨fun p h => walkFn_unrooted_only root fuel st e p h, ?_, ?_⟩
    · intro hinfo hnone hne
      cases hi : e.info with
      | none => exact absurd hi hinfo
      | some info => exact walkFn_unrooted root fuel st e info hi hnone hne
    · rw [lookup_cons_eq]
      by_cases e1 : Dir e.cleanPath = e.cleanPath
      · rw [if_pos e1]
        simp [e1]
      · rw [if_neg e1]
        simp [e1]
  · intro entries hpre
    refine ⟨?_, ?_, ?_⟩
    · intro fuel p
      exact filepathWalk_rooted_always root fuel entries [] _ (rooted_empty root)
        (by rw [List.nil_append]; exact hpre) p
    · intro fuel st hscan i e he hne
      have hr := scan_rooted hscan
      obtain ⟨m, hm, hi⟩ := hr.att i e he hne
      refine ⟨m, hm, hi, fun hnd => ?_⟩
      have hsome := hr.complete m _ hm
      cases hl : st.nodes.lookup (Dir e.cleanPath) with
      | none => rw [hl] at hsome; exact absurd hsome (by simp)
      | some m' => rw [pathAt_inj hnd (hr.sound _ m' hl) hm]
    · intro hnd hrange hall hH
      exact scan_terminates root entries hnd hrange hpre hall hH _ (Nat.le_refl _)

/-- C19 on the scenario: the scan does not end in the panic, and in the store it
returns `/r/Y/z`, entry 3, is a child of node 2, the node of `/r/Y`. -/
theorem unrooted_panic_witness :
    scan 5 "/r" scenarioEntries ≠ .error (Fault.panic ("unrooted child path at " ++ "/r/Y/z")) ∧
    scan 5 "/r" scenarioEntries = .ok scenarioStore ∧
    (∃ m, pathAt scenarioEntries m = some "/r/Y" ∧ 3 ∈ scenarioStore.children m ∧
      ((scenarioEntries.map Entry.cleanPath).Nodup →
        scenarioStore.nodes.lookup "/r/Y" = some m)) :=
  ⟨((unrooted_panic "/r").2 scenarioEntries (preOrder_of_check _ _ (by decide))).1 5 _,
   rfl,
   ((unrooted_panic "/r").2 scenarioEntries (preOrder_of_check _ _ (by decide))).2.1
     5 scenarioStore rfl 3 _ rfl (by decide)⟩


/-! ## The tree the scan builds -/

theorem scan_shape {root : String} {fuel : Nat} {entries : List Entry} {st : Store}
    (hnd : (entries.map Entry.cleanPath).Nodup) (hrange : SizesInRange entries)
    (h : scan fuel root entries = .ok st) : Shape root entries st := by
  have := (filepathWalk_invariant root fuel entries [] _ st (shape_empty root)
    balanced_empty (by simpa using hnd) hrange h).1
  rwa [List.nil_append] at this

/-- Below a root whose containing directory is not an entry, the root is the child
of no node. -/
theorem Shape.root_no_child {root : String} {entries : List Entry} {st : Store}
    (hs : Shape root entries st) (hH : Dir root ∉ entries.map Entry.cleanPath)
    (r : Nat) (hr : st.nodes.lookup root = some r) (m : Nat) : r ∉ st.children m := by
  intro hmem
  have hc := hs.kids m r
  have hpos : 0 < (st.children m).count r := List.count_pos_iff.mpr hmem
  split_ifs at hc with hpar
  · obtain ⟨_, q, hq, hm⟩ := isParentAt_iff.mp hpar
    rw [(hs.reg root r).mp hr] at hq
    injection hq with hq
    subst hq
    obtain ⟨d, hd, hpd⟩ := pathAt_eq_some.mp hm
    apply hH
    rw [List.mem_map]
    exact ⟨d, List.mem_iff_getElem?.mpr ⟨m, hd⟩, hpd⟩
  · omega

/-- Every entry other than the root is once in the children of the node registered
for its containing directory, and in no other children list. -/
theorem Shape.one_parent {root : String} {entries : List Entry} {st : Store}
    (hs : Shape root entries st) (hnd : (entries.map Entry.cleanPath).Nodup)
    (i : Nat) (q : String) (hq : pathAt entries i = some q) (hne : q ≠ root) :
    ∃ m, st.nodes.lookup (Dir q) = some m ∧ (st.children m).count i = 1 ∧
      ∀ m', m' ≠ m → i ∉ st.children m' := by
  obtain ⟨e, he, hpe⟩ := pathAt_eq_some.mp hq
  rcases hs.par i e he with hroot | ⟨m, hm⟩
  · rw [hpe] at hroot
    exact absurd hroot hne
  · obtain ⟨_, q', hq', hmq⟩ := isParentAt_iff.mp hm
    rw [hq] at hq'
    injection hq' with hq'
    subst hq'
    refine ⟨m, (hs.reg _ m).mpr hmq, ?_, ?_⟩
    · rw [hs.kids m i, if_pos hm]
    · intro m' hne' hmem
      have hc := hs.kids m' i
      have hpos : 0 < (st.children m').count i := List.count_pos_iff.mpr hmem
      split_ifs at hc with hpar
      · obtain ⟨_, q2, hq2, hmq2⟩ := isParentAt_iff.mp hpar
        rw [hq] at hq2
        injection hq2 with hq2
        subst hq2
        exact hne' (pathAt_inj hnd hmq2 hmq)
      · omega

/-! ## C20 -/

/-- C20 fails in the code for a root that is its own containing directory (`.` or
`/`). The entries of a scan started with the argument `.` in a directory that holds
one directory `Y` are in pre-order with distinct paths; the scan returns, and the
root, node 0, is the first child of itself, since line 133 finds the root under
`filepath.Dir(".") = "."` right after line 131 has registered it. For a root whose
containing directory is not an entry the tree is as claimed: one node per entry,
registered under its path, the root in no children list, and every other node once
in the children of the node registered for its containing directory and in no other
list. -/
theorem scan_root_own_child :
    (PreOrder "." dotDirEntries ∧ (dotDirEntries.map Entry.cleanPath).Nodup ∧
      ∃ st, scan 5 "." dotDirEntries = .ok st ∧ st.nodes.lookup "." = some 0 ∧
        st.children 0 = [0, 1]) ∧
    (∀ (root : String) (entries : List Entry), (entries.map Entry.cleanPath).Nodup →
      SizesInRange entries → Dir root ∉ entries.map Entry.cleanPath →
      ∀ fuel st, scan fuel root entries = .ok st →
        st.heap.length = entries.length ∧
        (∀ p i, st.nodes.lookup p = some i ↔ pathAt entries i = some p) ∧
        (∀ r, st.nodes.lookup root = some r → ∀ m, r ∉ st.children m) ∧
        (∀ i q, pathAt entries i = some q → q ≠ root →
          ∃ m, st.nodes.lookup (Dir q) = some m ∧ (st.children m).count i = 1 ∧
            ∀ m', m' ≠ m → i ∉ st.children m')) := by
  refine ⟨⟨preOrder_of_check _ _ (by decide), by decide, _, rfl, rfl, rfl⟩, ?_⟩
  intro root entries hnd hrange hH fuel st h
  have hs := scan_shape hnd hrange h
  exact ⟨hs.len, hs.reg, fun r hr m => hs.root_no_child hH r hr m,
    fun i q hq hne => hs.one_parent hnd i q hq hne⟩


/-! ## The walk that renders the sizes (main.go 191-195) -/

theorem retexted_refl (st : Store) : Retexted st st := ⟨rfl, fun _ => rfl⟩

theorem retexted_trans {a b c : Store} (h1 : Retexted a b) (h2 : Retexted b c) :
    Retexted a c :=
  ⟨h2.1.trans h1.1, fun id => (h2.2 id).trans (h1.2 id)⟩

theorem retexted_symm {a b : Store} (h : Retexted a b) : Retexted b a :=
  ⟨h.1.symm, fun id => (h.2 id).symm⟩

/-- What `Retexted` says of a single node. -/
theorem retexted_node {st0 st : Store} (h : Retexted st0 st) (id : Nat) (n : TreeNode)
    (hn : st.heap[id]? = some n) :
    ∃ n0, st0.heap[id]? = some n0 ∧ n.children = n0.children ∧
      n.reference = n0.reference ∧ n.expanded = n0.expanded := by
  have := h.2 id
  rw [hn] at this
  cases h0 : st0.heap[id]? with
  | none => rw [h0] at this; exact absurd this (by simp)
  | some n0 =>
    rw [h0] at this
    simp only [Option.map_some', Option.some.injEq, TreeNode.mk.injEq] at this
    exact ⟨n0, rfl, this.2.2.2.2.2, this.2.2.2.2.1, this.2.2.1⟩

theorem retexted_none {st0 st : Store} (h : Retexted st0 st) (id : Nat)
    (hn : st.heap[id]? = none) : st0.heap[id]? = none := by
  have := h.2 id
  rw [hn] at this
  cases h0 : st0.heap[id]? with
  | none => rfl
  | some n0 => rw [h0] at this; exact absurd this (by simp)

theorem retexted_children {st0 st : Store} (h : Retexted st0 st) (id : Nat) :
    st.children id = st0.children id := by
  unfold Store.children
  cases hn : st.heap[id]? with
  | none => rw [retexted_none h id hn]
  | some n =>
    obtain ⟨n0, h0, hc, _, _⟩ := retexted_node h id n hn
    rw [h0]
    exact hc

theorem retexted_reference {st0 st : Store} (h : Retexted st0 st) (id : Nat) :
    st.reference? id = st0.reference? id := by
  unfold Store.reference?
  cases hn : st.heap[id]? with
  | none => rw [retexted_none h id hn]
  | some n =>
    obtain ⟨n0, h0, _, hr, _⟩ := retexted_node h id n hn
    rw [h0]
    exact hr

theorem retexted_length {st0 st : Store} (h : Retexted st0 st) :
    st.heap.length = st0.heap.length := by
  have h1 := retexted_none h st.heap.length (List.getElem?_eq_none (Nat.le_refl _))
  have h2 := retexted_none (retexted_symm h) st0.heap.length
    (List.getElem?_eq_none (Nat.le_refl _))
  rw [List.getElem?_eq_none_iff] at h1 h2
  omega

theorem retexted_setText (st : Store) (x : Nat) (t : String) :
    Retexted st (st.update x fun n => { n with text := t }) := by
  refine ⟨Store.update_nodes _ _ _, fun id => ?_⟩
  rw [Store.update_get]
  by_cases e : id = x
  · subst e
    rw [if_pos rfl]
    cases st.heap[id]? <;> rfl
  · rw [if_neg e]

theorem renderCallback_inv (st : Store) (x : Nat) (b : Bool) (st1 : Store)
    (h : renderCallback st x = .ok (b, st1)) :
    b = true ∧ ∃ t, st1 = st.update x fun n => { n with text := t } := by
  unfold renderCallback at h
  cases hr : st.reference? x with
  | none => rw [hr] at h; exact absurd h (by simp)
  | some info =>
    rw [hr] at h
    simp only [Except.ok.injEq, Prod.mk.injEq] at h
    exact ⟨h.1.symm, info.label, h.2.symm⟩

/-- The walk that renders changes texts only. -/
theorem Walk_retexted : ∀ (fuel : Nat) (stack : List Nat) (st st' : Store),
    TreeNode.Walk renderCallback fuel stack st = .ok st' → Retexted st st' := by
  intro fuel
  induction fuel with
  | zero =>
    intro stack st st' h
    cases stack with
    | nil =>
      simp only [TreeNode.Walk, Except.ok.injEq] at h
      subst h
      exact retexted_refl st
    | cons x xs => simp [TreeNode.Walk] at h
  | succ f ih =>
    intro stack st st' h
    cases stack with
    | nil =>
      simp only [TreeNode.Walk, Except.ok.injEq] at h
      subst h
      exact retexted_refl st
    | cons x xs =>
      simp only [TreeNode.Walk] at h
      cases hcb : renderCallback st x with
      | error e => rw [hcb] at h; exact absurd h (by simp)
      | ok p =>
        obtain ⟨b, st1⟩ := p
        rw [hcb] at h
        obtain ⟨hb, t, hst1⟩ := renderCallback_inv st x b st1 hcb
        subst hb
        simp only at h
        have h1 : Retexted st st1 := by rw [hst1]; exact retexted_setText st x t
        exact retexted_trans h1 (ih _ _ _ h)

theorem retexted_ranked {st0 st : Store} (h : Retexted st0 st) {rank : Nat → Nat}
    (hrank : Ranked st0 rank) : Ranked st rank := by
  intro a b hb
  rw [retexted_children h] at hb
  exact hrank a b hb

theorem retexted_referenced {st0 st : Store} (h : Retexted st0 st)
    (href : Referenced st0) : Referenced st := by
  intro a b hb
  rw [retexted_children h] at hb
  rw [retexted_reference h]
  exact href a b hb

theorem retexted_allocated {st0 st : Store} (h : Retexted st0 st)
    (ha : Allocated st0) : Allocated st := by
  intro a b hb
  rw [retexted_children h] at hb
  rw [retexted_length h]
  exact ha a b hb

/-- On a tree-shaped heap whose nodes have references, the walk that renders
returns from any stack of nodes with references. -/
theorem Walk_render (rank : Nat → Nat) :
    ∀ (k : Nat) (stack : List Nat) (st : Store), Ranked st rank → Referenced st →
      (∀ x ∈ stack, rank x < k ∧ (st.reference? x).isSome = true) →
      ∃ fuel st', TreeNode.Walk renderCallback fuel stack st = .ok st' := by
  intro k
  induction k with
  | zero =>
    intro stack st _ _ hs
    cases stack with
    | nil => exact ⟨0, st, rfl⟩
    | cons x xs => exact absurd (hs x (List.mem_cons_self _ _)).1 (Nat.not_lt_zero _)
  | succ k ih =>
    intro stack
    induction stack with
    | nil =>
      intro st _ _ _
      exact ⟨0, st, rfl⟩
    | cons x rest ihs =>
      intro st hrank href hs
      obtain ⟨info, hinfo⟩ := reference_of_isSome (hs x (List.mem_cons_self _ _)).2
      have hcb : renderCallback st x
          = .ok (true, st.update x fun n => { n with text := info.label }) := by
        unfold renderCallback
        rw [hinfo]
      have hre1 := retexted_setText st x info.label
      have hkids : ∀ c ∈ (st.update x fun n => { n with text := info.label }).children x,
          rank c < k ∧
          ((st.update x fun n => { n with text := info.label }).reference? c).isSome
            = true := by
        intro c hc
        have hc0 : c ∈ st.children x := by rw [← retexted_children hre1]; exact hc
        have h1 := hrank x c hc0
        have h2 := (hs x (List.mem_cons_self _ _)).1
        refine ⟨by omega, ?_⟩
        rw [retexted_reference hre1]
        exact href x c hc0
      obtain ⟨f1, st2, hw1⟩ := ih _ _ (retexted_ranked hre1 hrank)
        (retexted_referenced hre1 href) hkids
      have hre2 := retexted_trans hre1 (Walk_retexted _ _ _ _ hw1)
      obtain ⟨f2, st3, hw2⟩ := ihs st2 (retexted_ranked hre2 hrank)
        (retexted_referenced hre2 href)
        (fun y hy => ⟨(hs y (List.mem_cons_of_mem _ hy)).1, by
          rw [retexted_reference hre2]
          exact (hs y (List.mem_cons_of_mem _ hy)).2⟩)
      refine ⟨f1 + f2 + 1, st3, ?_⟩
      simp only [TreeNode.Walk, hcb]
      exact Walk_append _ f1 _ _ st2 hw1 f2 rest st3 hw2

/-! ## The scan builds a tree -/

/-- The store of a pre-order scan with distinct paths, below a root whose containing
directory is not an entry, is tree-shaped: children come after their parents, have
references, and are allocated. -/
theorem Shape.tree {root : String} {entries : List Entry} {st : Store}
    (hs : Shape root entries st) (hnd : (entries.map Entry.cleanPath).Nodup)
    (hpre : PreOrder root entries) (hH : Dir root ∉ entries.map Entry.cleanPath) :
    Ranked st (fun i => entries.length - i) ∧ Referenced st ∧ Allocated st := by
  have key : ∀ a b, b ∈ st.children a →
      a < b ∧ b < entries.length ∧ (st.reference? b).isSome = true := by
    intro a b hb
    have hc := hs.kids a b
    have hpos : 0 < (st.children a).count b := List.count_pos_iff.mpr hb
    split_ifs at hc with hpar
    · obtain ⟨hle, q, hq, hm⟩ := isParentAt_iff.mp hpar
      have hblt := pathAt_lt hq
      refine ⟨?_, hblt, ?_⟩
      · rcases Nat.lt_or_eq_of_le hle with hlt | heq
        · exact hlt
        · exfalso
          subst heq
          rw [hq] at hm
          injection hm with hm
          by_cases e : q = root
          · apply hH
            rw [← e, ← hm]
            obtain ⟨d, hd, hpd⟩ := pathAt_eq_some.mp hq
            rw [List.mem_map]
            exact ⟨d, List.mem_iff_getElem?.mpr ⟨a, hd⟩, hpd⟩
          · obtain ⟨j, hj, hpj⟩ := hpre.parent hq e
            rw [← hm] at hpj
            have := pathAt_inj hnd hpj hq
            omega
      · obtain ⟨e, he, _⟩ := pathAt_eq_some.mp hq
        obtain ⟨n, sz, hn, href, _⟩ := hs.ref b e he
        unfold Store.reference?
        simp only [hn, href]
        rfl
    · omega
  refine ⟨?_, ?_, ?_⟩
  · intro a b hb
    obtain ⟨h1, h2, _⟩ := key a b hb
    show entries.length - b < entries.length - a
    omega
  · intro a b hb
    exact (key a b hb).2.2
  · intro a b hb
    rw [hs.len]
    exact (key a b hb).2.1


/-! ## More fuel -/

theorem propagateLoop_mono (s : Int) :
    ∀ (fuel : Nat) (cur : String) (st st' : Store),
      propagateLoop s fuel cur st = .ok st' →
      ∀ k, propagateLoop s (fuel + k) cur st = .ok st' := by
  intro fuel
  induction fuel with
  | zero =>
    intro cur st st' h
    exact absurd h (by simp [propagateLoop])
  | succ f ih =>
    intro cur st st' h k
    rw [Nat.add_right_comm]
    unfold propagateLoop at h ⊢
    cases hl : st.nodes.lookup cur with
    | none => rw [hl] at h; exact h
    | some id =>
      rw [hl] at h
      simp only at h ⊢
      cases hr : st.reference? id with
      | none => rw [hr] at h; exact absurd h (by simp)
      | some info =>
        rw [hr] at h
        simp only at h ⊢
        exact ih _ _ _ h k

theorem walkFn_mono (root : String) (fuel : Nat) (st st' : Store) (e : Entry)
    (h : walkFn root fuel st e = .ok st') (k : Nat) :
    walkFn root (fuel + k) st e = .ok st' := by
  cases hinfo : e.info with
  | none =>
    rw [walkFn_no_info root fuel st e hinfo] at h
    exact absurd h (by simp)
  | some info =>
    have hroot : ((e.cleanPath, st.heap.length) :: st.nodes).lookup (Dir e.cleanPath) = none
        → e.cleanPath = root := by
      intro hp
      by_contra hne
      rw [walkFn_unrooted root fuel st e info hinfo hp hne] at h
      exact absurd h (by simp)
    rw [walkFn_eq root fuel st e info _ hinfo rfl hroot] at h
    rw [walkFn_eq root (fuel + k) st e info _ hinfo rfl hroot]
    split_ifs at h ⊢
    · exact h
    · exact propagateLoop_mono _ _ _ _ _ h k

theorem filepathWalk_mono (root : String) (fuel : Nat) :
    ∀ (es : List Entry) (st st' : Store), filepathWalk root fuel es st = .ok st' →
      ∀ k, filepathWalk root (fuel + k) es st = .ok st' := by
  intro es
  induction es with
  | nil =>
    intro st st' h k
    simp only [filepathWalk] at h ⊢
    exact h
  | cons e es ih =>
    intro st st' h k
    unfold filepathWalk at h ⊢
    cases hstep : walkFn root fuel st e with
    | error f => rw [hstep] at h; exact absurd h (by simp)
    | ok st1 =>
      rw [hstep] at h
      rw [walkFn_mono root fuel st st1 e hstep k]
      simp only at h ⊢
      exact ih st1 st' h k

/-! ## The chain that `expand` follows -/

theorem Store.Chain.snoc {st : Store} {r p x : Nat} (h : st.Chain r p)
    (hx : st.children p = [x]) : st.Chain r x := by
  induction h with
  | start a => exact Store.Chain.step a x x hx (Store.Chain.start x)
  | step a c y hc _ ih => exact Store.Chain.step a c x hc (ih hx)

theorem Store.Chain.tail {st : Store} {r x : Nat} (h : st.Chain r x) :
    x = r ∨ ∃ p, st.Chain r p ∧ st.children p = [x] := by
  induction h with
  | start a => exact Or.inl rfl
  | step a c y hc _ ih =>
    rcases ih with e | ⟨p, hp, hpx⟩
    · subst e
      exact Or.inr ⟨a, Store.Chain.start a, hc⟩
    · exact Or.inr ⟨p, Store.Chain.step a c p hc hp, hpx⟩

theorem expand_children (fuel : Nat) (st : Store) (n : Nat) (st' : Store)
    (h : expand fuel st n = .ok st') (id : Nat) : st'.children id = st.children id := by
  obtain ⟨_, hid⟩ := expand_result fuel st n st' h
  by_cases hc : st.Chain n id
  · obtain ⟨m, hm, hm'⟩ := (hid id).1 hc
    unfold Store.children
    rw [hm, hm']
  · unfold Store.children
    rw [(hid id).2 hc]

/-- After `expand` on a heap of collapsed nodes, a node is expanded when and only
when it is the node `expand` was called on, or the only child of an expanded node. -/
theorem expand_collapsed (fuel : Nat) (st : Store) (r : Nat) (st' : Store)
    (hcol : ∀ (i : Nat) (n : TreeNode), st.heap[i]? = some n → n.expanded = false)
    (h : expand fuel st r = .ok st') (x : Nat) (n : TreeNode)
    (hn : st'.heap[x]? = some n) :
    n.expanded = true ↔
      x = r ∨ ∃ (p : Nat) (np : TreeNode),
        st'.heap[p]? = some np ∧ np.expanded = true ∧ np.children = [x] := by
  obtain ⟨_, hid⟩ := expand_result fuel st r st' h
  have hflag : ∀ (y : Nat) (m : TreeNode), st'.heap[y]? = some m →
      (m.expanded = true ↔ st.Chain r y) := by
    intro y m hm
    constructor
    · intro he
      by_contra hno
      rw [(hid y).2 hno] at hm
      rw [hcol y m hm] at he
      exact absurd he (by decide)
    · intro hc
      obtain ⟨m0, _, hm0⟩ := (hid y).1 hc
      rw [hm0] at hm
      injection hm with hm
      rw [← hm]
  rw [hflag x n hn]
  constructor
  · intro hc
    rcases hc.tail with e | ⟨p, hp, hpx⟩
    · exact Or.inl e
    · obtain ⟨m0, hm0, hm0'⟩ := (hid p).1 hp
      refine Or.inr ⟨p, _, hm0', rfl, ?_⟩
      unfold Store.children at hpx
      rw [hm0] at hpx
      exact hpx
  · rintro (e | ⟨p, np, hp, hpe, hpc⟩)
    · rw [e]
      exact Store.Chain.start r
    · have hchain := (hflag p np hp).mp hpe
      refine hchain.snoc ?_
      rw [← expand_children fuel st r st' h p]
      unfold Store.children
      rw [hp]
      exact hpc

/-! ## The stages of the startup -/

theorem startup_stages (sort : SortProc) (root : String) (fuel : Nat)
    (entries : List Entry) (app : App) (h : startup sort root fuel entries = .ok app) :
    ∃ st0 r st1 st2, scan fuel root entries = .ok st0 ∧ st0.nodes.lookup root = some r ∧
      TreeNode.Walk renderCallback fuel [r] st0 = .ok st1 ∧
      sortTree sort SortMethod.sortBySizeDesc root fuel st1 = .ok st2 ∧
      expand fuel st2 r = .ok app.store ∧
      app.currentSortMethod = SortMethod.sortBySizeDesc := by
  unfold startup at h
  cases h0 : scan fuel root entries with
  | error f => rw [h0] at h; exact absurd h (by simp)
  | ok st0 =>
    rw [h0] at h
    simp only at h
    cases hr : st0.nodes.lookup root with
    | none => rw [hr] at h; exact absurd h (by simp)
    | some r =>
      rw [hr] at h
      simp only at h
      cases h1 : TreeNode.Walk renderCallback fuel [r] st0 with
      | error f => rw [h1] at h; exact absurd h (by simp)
      | ok st1 =>
        rw [h1] at h
        simp only at h
        cases h2 : sortTree sort SortMethod.sortBySizeDesc root fuel st1 with
        | error f => rw [h2] at h; exact absurd h (by simp)
        | ok st2 =>
          rw [h2] at h
          simp only at h
          cases h3 : expand fuel st2 r with
          | error f => rw [h3] at h; exact absurd h (by simp)
          | ok st3 =>
            rw [h3] at h
            simp only [Except.ok.injEq] at h
            subst h
            exact ⟨st0, r, st1, st2, rfl, hr, h1, h2, h3, rfl⟩

theorem startup_of_stages (sort : SortProc) (root : String) (fuel : Nat)
    (entries : List Entry) (st0 : Store) (r : Nat) (st1 st2 st3 : Store)
    (h0 : scan fuel root entries = .ok st0) (hr : st0.nodes.lookup root = some r)
    (h1 : TreeNode.Walk renderCallback fuel [r] st0 = .ok st1)
    (h2 : sortTree sort SortMethod.sortBySizeDesc root fuel st1 = .ok st2)
    (h3 : expand fuel st2 r = .ok st3) :
    startup sort root fuel entries
      = .ok { store := st3, currentSortMethod := SortMethod.sortBySizeDesc } := by
  unfold startup
  rw [h0]
  simp only
  rw [hr]
  simp only
  rw [h1]
  simp only
  rw [h2]
  simp only
  rw [h3]

theorem reordered_length {st0 st : Store} (h : Reordered st0 st) :
    st.heap.length = st0.heap.length := by
  have h1 := (reordered_node h st0.heap.length).2 (List.getElem?_eq_none (Nat.le_refl _))
  have h2 := (reordered_node (reordered_symm h) st.heap.length).2
    (List.getElem?_eq_none (Nat.le_refl _))
  rw [List.getElem?_eq_none_iff] at h1 h2
  omega

/-- Every node is collapsed when `expand(nodes[root])` is called. -/
theorem collapsed_before_expand (sort : SortProc) (hsort : SortContract sort)
    (root : String) (fuel : Nat) (entries : List Entry) (st0 st1 st2 : Store) (r : Nat)
    (h0 : scan fuel root entries = .ok st0)
    (h1 : TreeNode.Walk renderCallback fuel [r] st0 = .ok st1)
    (h2 : sortTree sort SortMethod.sortBySizeDesc root fuel st1 = .ok st2) :
    ∀ (i : Nat) (n : TreeNode), st2.heap[i]? = some n → n.expanded = false := by
  intro i n hn
  have hre := sortTree_reordered sort hsort _ root fuel st1 st2 h2
  obtain ⟨n1, hn1, _, _, he1, _⟩ := (reordered_node (reordered_symm hre) i).1 n hn
  obtain ⟨n0, hn0, _, _, he0⟩ := retexted_node (Walk_retexted _ _ _ _ h1) i n1 hn1
  have := (scan_rooted h0).collapsed i n0 hn0
  rw [← he1, he0]
  exact this


/-! ## The startup returns -/

theorem reordered_ranked {st0 st : Store} (h : Reordered st0 st) {rank : Nat → Nat}
    (hrank : Ranked st0 rank) : Ranked st rank := by
  intro a b hb
  exact hrank a b (((h.2 a).2).mem_iff.mp hb)

theorem reordered_allocated {st0 st : Store} (h : Reordered st0 st)
    (ha : Allocated st0) : Allocated st := by
  intro a b hb
  rw [reordered_length h]
  exact ha a b (((h.2 a).2).mem_iff.mp hb)

/-- The startup on a pre-order walk with distinct paths and file infos, below a
root whose containing directory is not an entry, returns. -/
theorem startup_terminates (sort : SortProc) (hsort : SortContract sort) (root : String)
    (entries : List Entry) (hne : entries ≠ [])
    (hnd : (entries.map Entry.cleanPath).Nodup) (hrange : SizesInRange entries)
    (hpre : PreOrder root entries) (hall : AllStated entries)
    (hH : Dir root ∉ entries.map Entry.cleanPath) :
    ∃ fuel app, startup sort root fuel entries = .ok app := by
  obtain ⟨st0, h0⟩ := scan_terminates root entries hnd hrange hpre hall hH
    (entries.length + 1) (Nat.le_refl _)
  have hs := scan_shape hnd hrange h0
  obtain ⟨hrank0, href0, halloc0⟩ := hs.tree hnd hpre hH
  have hlen : 0 < entries.length := List.length_pos.mpr hne
  have hr : st0.nodes.lookup root = some 0 := (hs.reg root 0).mpr (hpre.pathAt_zero hlen)
  have hrref : (st0.reference? 0).isSome = true := by
    obtain ⟨n, sz, hn, hrf, _⟩ := hs.ref 0 entries[0] (List.getElem?_eq_getElem hlen)
    unfold Store.reference?
    simp only [hn, hrf]
    rfl
  -- the walk that renders
  obtain ⟨f1, st1, h1⟩ := Walk_render (fun i => entries.length - i) (entries.length + 1)
    [0] st0 hrank0 href0 (fun x hx => by
      rw [List.mem_singleton.mp hx]
      exact ⟨by show entries.length - 0 < entries.length + 1; omega, hrref⟩)
  have hre1 := Walk_retexted _ _ _ _ h1
  have hrank1 := retexted_ranked hre1 hrank0
  have href1 := retexted_referenced hre1 href0
  have halloc1 := retexted_allocated hre1 halloc0
  have hr1 : st1.nodes.lookup root = some 0 := by rw [hre1.1]; exact hr
  -- the sort
  obtain ⟨⟨f2, st2, h2⟩, _⟩ := sortTree_result sort hsort SortMethod.sortBySizeDesc root
    st1 0 _ hr1 hrank1 href1 st1 (reordered_refl st1)
  have hre2 := sortTree_reordered sort hsort _ root f2 st1 st2 h2
  have hrank2 := reordered_ranked hre2 hrank1
  have halloc2 := reordered_allocated hre2 halloc1
  -- one fuel for all
  have hF0 : scan (entries.length + 1 + (f1 + f2)) root entries = .ok st0 :=
    filepathWalk_mono root _ entries _ st0 h0 (f1 + f2)
  have hF1 : TreeNode.Walk renderCallback (entries.length + 1 + (f1 + f2)) [0] st0
      = .ok st1 := by
    have := Walk_mono renderCallback f1 [0] st0 st1 h1 (entries.length + 1 + f2)
    have e : f1 + (entries.length + 1 + f2) = entries.length + 1 + (f1 + f2) := by omega
    rwa [e] at this
  have hF2 : sortTree sort SortMethod.sortBySizeDesc root (entries.length + 1 + (f1 + f2))
      st1 = .ok st2 := by
    unfold sortTree at h2 ⊢
    rw [hr1] at h2 ⊢
    simp only at h2 ⊢
    have := Walk_mono _ f2 [0] st1 st2 h2 (entries.length + 1 + f1)
    have e : f2 + (entries.length + 1 + f1) = entries.length + 1 + (f1 + f2) := by omega
    rwa [e] at this
  have hlen2 : 0 < st2.heap.length := by
    rw [reordered_length hre2, retexted_length hre1, hs.len]
    exact hlen
  obtain ⟨st3, h3⟩ := expand_terminates (fun i => entries.length - i)
    (entries.length + 1 + (f1 + f2)) st2 0 hrank2 halloc2 hlen2
    (by show entries.length - 0 < entries.length + 1 + (f1 + f2); omega)
  exact ⟨_, _, startup_of_stages sort root _ entries st0 0 st1 st2 st3 hF0 hr hF1 hF2 h3⟩

/-! ## C18 -/

set_option maxRecDepth 8000

/-- C18. The scan leaves every node collapsed. Whatever sorting procedure meets the
contract of `sort.Sort`, when the startup (scan, rendering, `sortTree`,
`expand(nodes[root])`) returns, a node of the heap is expanded when and only when
it is the root or the only child of an expanded node; the startup returns on every
pre-order walk with distinct paths and file infos below a root whose containing
directory is not an entry. In the cascade scenario (`/r` holds only `a`, `a` only
`b`, `b` only `c`, `c` the files `d` and `e`) the nodes of `/r`, `a`, `b` and `c`
(0 to 3) are expanded and the two children of `c` (4 and 5) are collapsed. -/
theorem startup_expanded :
    (∀ (fuel : Nat) (root : String) (entries : List Entry) (st : Store),
      scan fuel root entries = .ok st →
      ∀ (i : Nat) (n : TreeNode), st.heap[i]? = some n → n.expanded = false) ∧
    (∀ sort : SortProc, SortContract sort →
      ∀ (root : String) (fuel : Nat) (entries : List Entry) (app : App),
        startup sort root fuel entries = .ok app →
        ∃ r, app.store.nodes.lookup root = some r ∧
          ∀ (x : Nat) (n : TreeNode), app.store.heap[x]? = some n →
            (n.expanded = true ↔
              x = r ∨ ∃ (p : Nat) (np : TreeNode), app.store.heap[p]? = some np ∧
                np.expanded = true ∧ np.children = [x])) ∧
    (∀ sort : SortProc, SortContract sort →
      ∀ (root : String) (entries : List Entry), entries ≠ [] →
        (entries.map Entry.cleanPath).Nodup → SizesInRange entries →
        PreOrder root entries → AllStated entries →
        Dir root ∉ entries.map Entry.cleanPath →
        ∃ fuel app, startup sort root fuel entries = .ok app) ∧
    (∃ app, startup insertionSort "/r" 7 cascadeEntries = .ok app ∧
      app.store.children 0 = [1] ∧ app.store.children 1 = [2] ∧
      app.store.children 2 = [3] ∧ app.store.children 3 = [5, 4] ∧
      app.store.expanded? 0 = some true ∧ app.store.expanded? 1 = some true ∧
      app.store.expanded? 2 = some true ∧ app.store.expanded? 3 = some true ∧
      app.store.expanded? 4 = some false ∧ app.store.expanded? 5 = some false) := by
  refine ⟨?_, ?_, ?_, ⟨_, rfl, rfl, rfl, rfl, rfl, rfl, rfl, rfl, rfl, rfl, rfl⟩⟩
  · intro fuel root entries st h
    exact (scan_rooted h).collapsed
  · intro sort hsort root fuel entries app h
    obtain ⟨st0, r, st1, st2, h0, hr, h1, h2, h3, _⟩ :=
      startup_stages sort root fuel entries app h
    refine ⟨r, ?_, ?_⟩
    · rw [(expand_result fuel st2 r app.store h3).1,
        (sortTree_reordered sort hsort _ root fuel st1 st2 h2).1,
        (Walk_retexted _ _ _ _ h1).1]
      exact hr
    · exact expand_collapsed fuel st2 r app.store
        (collapsed_before_expand sort hsort root fuel entries st0 st1 st2 r h0 h1 h2) h3
  · intro sort hsort root entries hne hnd hrange hpre hall hH
    exact startup_terminates sort hsort root entries hne hnd hrange hpre hall hH

/-- C18 on the scenario of the specification: after the startup the root `/r`, which
has two children, is the only node expanded. -/
theorem startup_expanded_witness :
    ∃ app, startup insertionSort "/r" 5 scenarioEntries = .ok app ∧
      ∃ r, app.store.nodes.lookup "/r" = some r ∧
        ∀ (x : Nat) (n : TreeNode), app.store.heap[x]? = some n →
          (n.expanded = true ↔
            x = r ∨ ∃ (p : Nat) (np : TreeNode), app.store.heap[p]? = some np ∧
              np.expanded = true ∧ np.children = [x]) :=
  ⟨_, rfl, startup_expanded.2.1 insertionSort insertionSort_contract "/r" 5
    scenarioEntries _ rfl⟩


/-! ## The tree at the start of the event loop -/

theorem expand_reference (fuel : Nat) (st : Store) (n : Nat) (st' : Store)
    (h : expand fuel st n = .ok st') (id : Nat) :
    st'.reference? id = st.reference? id := by
  obtain ⟨_, hid⟩ := expand_result fuel st n st' h
  by_cases hc : st.Chain n id
  · obtain ⟨m, hm, hm'⟩ := (hid id).1 hc
    unfold Store.reference?
    rw [hm, hm']
  · unfold Store.reference?
    rw [(hid id).2 hc]

theorem methodLess_congr {st st' : Store}
    (h : ∀ id, st'.reference? id = st.reference? id) (m : SortMethod) :
    m.less st' = m.less st := by
  cases m <;>
  · funext a b
    simp only [SortMethod.less, Store.less, h a, h b]

/-- When the startup returns on a walk with distinct paths below a root whose
containing directory is not an entry, the heap is tree-shaped, every child has its
reference, and the children of every directory of the tree are in order under
`sortBySizeDesc`, the current method. -/
theorem startup_sorted (sort : SortProc) (hsort : SortContract sort) (root : String)
    (fuel : Nat) (entries : List Entry) (app : App)
    (hnd : (entries.map Entry.cleanPath).Nodup) (hrange : SizesInRange entries)
    (hpre : PreOrder root entries) (hH : Dir root ∉ entries.map Entry.cleanPath)
    (hstart : startup sort root fuel entries = .ok app) :
    app.currentSortMethod = SortMethod.sortBySizeDesc ∧
    ∃ r, app.store.nodes.lookup root = some r ∧
      Ranked app.store (fun i => entries.length - i) ∧ Referenced app.store ∧
      ∀ a, app.store.Reach r a →
        SortedAt (app.currentSortMethod.less app.store) app.store a := by
  obtain ⟨st0, r, st1, st2, h0, hr, h1, h2, h3, hm⟩ :=
    startup_stages sort root fuel entries app hstart
  have hs := scan_shape hnd hrange h0
  obtain ⟨hrank0, href0, _⟩ := hs.tree hnd hpre hH
  have hre1 := Walk_retexted _ _ _ _ h1
  have hrank1 := retexted_ranked hre1 hrank0
  have href1 := retexted_referenced hre1 href0
  have hr1 : st1.nodes.lookup root = some r := by rw [hre1.1]; exact hr
  obtain ⟨hre2, hsorted2⟩ := (sortTree_result sort hsort SortMethod.sortBySizeDesc root
    st1 r _ hr1 hrank1 href1 st1 (reordered_refl st1)).2 fuel st2 h2
  have hch := expand_children fuel st2 r app.store h3
  have hrf := expand_reference fuel st2 r app.store h3
  refine ⟨hm, r, ?_, ?_, ?_, ?_⟩
  · rw [(expand_result fuel st2 r app.store h3).1, hre2.1]
    exact hr1
  · intro a b hb
    rw [hch] at hb
    exact hrank1 a b (((hre2.2 a).2).mem_iff.mp hb)
  · intro a b hb
    rw [hch] at hb
    rw [hrf, reordered_reference hre2]
    exact href1 a b (((hre2.2 a).2).mem_iff.mp hb)
  · intro a ha
    have ha2 : st2.Reach r a :=
      reach_of_perm (fun id => by rw [hch id]) ha
    have ha1 : st1.Reach r a := (reordered_reach hre2 r a).mp ha2
    have hless : app.currentSortMethod.less app.store
        = SortMethod.sortBySizeDesc.less st1 := by
      rw [hm, methodLess_congr hrf, reordered_methodLess hre2]
    unfold SortedAt
    rw [hless, hch]
    exact hsorted2 a ha1

/-! ## C13, amended -/

/-- C13, amended. Whatever sorting procedure meets the contract of `sort.Sort`: on
a tree-shaped heap in which every child has its reference and the children of every
directory of the tree are in order under the current method, two presses of `s` in
a row return, leave `currentSortMethod` as it was, and leave the children of every
directory of the tree in the order they had wherever the siblings have pairwise
different keys under that method (sizes under `sortBySizeDesc`, paths under
`sortByName`); under `sortBySizeDesc` the sequence of sizes is in any case the
one before the presses. The tree at the end of the startup is such a tree, with
`sortBySizeDesc` the current method, for every walk with distinct paths below a
root whose containing directory is not an entry. -/
theorem cycle_sort_twice (sort : SortProc) (hsort : SortContract sort) (root : String) :
    (∀ (app : App) (r : Nat) (rank : Nat → Nat),
      app.store.nodes.lookup root = some r → Ranked app.store rank →
      Referenced app.store →
      (∀ a, app.store.Reach r a →
        SortedAt (app.currentSortMethod.less app.store) app.store a) →
      ∀ event1 event2 : EventKey, event1.rune = 's' → event2.rune = 's' →
        (∃ f1 f2 app1 app2, inputCapture sort root f1 app event1 = .ok (app1, event1) ∧
          inputCapture sort root f2 app1 event2 = .ok (app2, event2)) ∧
        (∀ f1 f2 app1 app2 e1 e2,
          inputCapture sort root f1 app event1 = .ok (app1, e1) →
          inputCapture sort root f2 app1 event2 = .ok (app2, e2) →
          app2.currentSortMethod = app.currentSortMethod ∧
          ∀ a, app.store.Reach r a →
            (app.currentSortMethod = SortMethod.sortBySizeDesc →
              (app2.store.children a).map app2.store.size
                = (app.store.children a).map app.store.size) ∧
            (KeysDistinct app.currentSortMethod app.store a →
              app2.store.children a = app.store.children a))) ∧
    (∀ (fuel : Nat) (entries : List Entry) (app : App),
      (entries.map Entry.cleanPath).Nodup → SizesInRange entries →
      PreOrder root entries → Dir root ∉ entries.map Entry.cleanPath →
      startup sort root fuel entries = .ok app →
      app.currentSortMethod = SortMethod.sortBySizeDesc ∧
      ∃ r, app.store.nodes.lookup root = some r ∧
        Ranked app.store (fun i => entries.length - i) ∧ Referenced app.store ∧
        ∀ a, app.store.Reach r a →
          SortedAt (app.currentSortMethod.less app.store) app.store a) :=
  ⟨fun app r rank hroot hrank href hsorted event1 event2 hs1 hs2 =>
      cycle_twice_of_sorted sort hsort root app r rank hroot hrank href hsorted
        event1 event2 hs1 hs2,
   fun fuel entries app hnd hrange hpre hH hstart =>
      startup_sorted sort hsort root fuel entries app hnd hrange hpre hH hstart⟩

/-- C13 (amended) on the scenario sorted by size, where the sizes 500 and 2048
differ: after two presses of `s` the root lists `[Y, x]` as before. -/
theorem cycle_sort_twice_witness :
    inputCapture insertionSort "/r" 5
        { store := scenarioBySize, currentSortMethod := SortMethod.sortBySizeDesc }
        { key := 256, rune := 's', modifiers := 0 }
      = .ok ({ store := scenarioStore, currentSortMethod := SortMethod.sortByName },
             { key := 256, rune := 's', modifiers := 0 }) ∧
    inputCapture insertionSort "/r" 5
        { store := scenarioStore, currentSortMethod := SortMethod.sortByName }
        { key := 256, rune := 's', modifiers := 0 }
      = .ok ({ store := scenarioBySize, currentSortMethod := SortMethod.sortBySizeDesc },
             { key := 256, rune := 's', modifiers := 0 }) ∧
    scenarioBySize.children 0 = scenarioBySize.children 0 :=
  ⟨rfl, rfl,
   ((((cycle_sort_twice insertionSort insertionSort_contract "/r").1
      { store := scenarioBySize, currentSortMethod := SortMethod.sortBySizeDesc }
      0 scenarioRank rfl ranked_scenarioBySize referenced_scenarioBySize
      (fun a _ => sorted_scenarioBySize a)
      { key := 256, rune := 's', modifiers := 0 }
      { key := 256, rune := 's', modifiers := 0 } rfl rfl).2
      5 5 { store := scenarioStore, currentSortMethod := SortMethod.sortByName }
      { store := scenarioBySize, currentSortMethod := SortMethod.sortBySizeDesc }
      { key := 256, rune := 's', modifiers := 0 }
      { key := 256, rune := 's', modifiers := 0 } rfl rfl).2 0 (Store.Reach.refl 0)).2
      (by unfold KeysDistinct; decide)⟩

end Tdirstat
